import Mathlib

/-!
# Gaussian-process regressor (`gaussian_process.cpp`)

A shallow embedding of `class GP` from
`contributions/MPI_IS_gaussian_process/src/gaussian_process.cpp`.

* Scalars: `double` is modelled by an arbitrary field `F` (exact arithmetic: no rounding,
  no overflow, no NaN); the transcendental functions `std::exp`, `std::log`, the constant
  `M_PI` and the constant `JITTER` (declared in `math_tools.h`) are supplied by an
  environment `Env F`.  Where rounding decides a property, `infer` is given a second time
  with rounded additions in the Gram sum (`GP.inferRounded`, `gramRounded`, `roundBits`).
* `Eigen::VectorXd` is a list, `Eigen::MatrixXd` a matrix together with its run-time
  dimensions.  Every Eigen operation checks its dimensions, as Eigen's assertions do, and
  the operations of `GP` run in `Except GPError`.
* `Eigen::LDLT` is a library class.  A decomposition object records the matrix it was
  computed from; `solve` and `vectorD` are supplied by the environment, and the theorems
  state what they assume about them (`Env.ExactSolve`, `Env.FactorsAt`).
* `covariance_functions::CovFunc` is an abstract class declared in
  `covariance_functions.h`; it is modelled by the record `CovFunc κ F` of its virtual
  methods acting on a kernel state `κ`.  `GP` owns its kernel (a non-null `covFunc_`).
* Not modelled: the default constructor `GP::GP()`, whose null kernel every other method
  dereferences, and `drawSample`, which draws random numbers.
-/

open Matrix

namespace GaussianProcess

/-- Failed assertions: the two `assert`s of `gaussian_process.cpp` and the assertions of
Eigen that the code can trigger. -/
inductive GPError where
  /-- The `assert(data_loc_.rows() > 0 && "Error: the GP is not yet initialized!")`. -/
  | notInitialized
  /-- The `assert`s on the number of hyperparameters. -/
  | wrongParameterCount
  /-- An Eigen assertion on the dimensions of the operands. -/
  | sizeMismatch
  /-- An Eigen assertion: the `LDLT` object was default-constructed. -/
  | ldltNotInitialized
  deriving DecidableEq, Repr

/-- The type `Eigen::VectorXd`. -/
abbrev VectorXd (F : Type) := List F

/-- The type `Eigen::MatrixXd`: a matrix with run-time dimensions. -/
structure MatrixXd (F : Type) where
  rows : ℕ
  cols : ℕ
  coeff : Matrix (Fin rows) (Fin cols) F

/-- The type `Eigen::LDLT<Eigen::MatrixXd>`: default-constructed, or the decomposition
of a square matrix. -/
inductive LDLT (F : Type) where
  | empty : LDLT F
  | factored (size : ℕ) (matrix : Matrix (Fin size) (Fin size) F) : LDLT F

/-- What the code takes from `<cmath>`, `math_tools.h` and `Eigen::LDLT`. -/
structure Env (F : Type) where
  /-- The function `std::exp`. -/
  exp : F → F
  /-- The function `std::log`. -/
  log : F → F
  /-- The constant `M_PI`. -/
  M_PI : F
  /-- The constant `JITTER` of `math_tools.h`. -/
  JITTER : F
  /-- The result of `A.ldlt().solve(B)`. -/
  ldltSolve : {n m : ℕ} → Matrix (Fin n) (Fin n) F → Matrix (Fin n) (Fin m) F →
    Matrix (Fin n) (Fin m) F
  /-- The result of `A.ldlt().vectorD()`. -/
  ldltVectorD : {n : ℕ} → Matrix (Fin n) (Fin n) F → Fin n → F

/-- The virtual methods of `covariance_functions::CovFunc` on a kernel state `κ`.
`evaluate a b` returns the covariance matrix between the locations `a` and `b` and the
derivative matrices, one per kernel parameter. -/
structure CovFunc (κ F : Type) where
  evaluate : κ → (a b : VectorXd F) →
    Matrix (Fin a.length) (Fin b.length) F × List (Matrix (Fin a.length) (Fin b.length) F)
  setParameters : κ → VectorXd F → κ
  getParameters : κ → VectorXd F
  setExtraParameters : κ → VectorXd F → κ
  getExtraParameters : κ → VectorXd F
  getParameterCount : κ → ℕ
  getExtraParameterCount : κ → ℕ

namespace MatrixXd

variable {F : Type} [Field F]

/-- The default-constructed `Eigen::MatrixXd()`. -/
def empty : MatrixXd F := ⟨0, 0, fun i _ => i.elim0⟩

/-- The matrix read at statically known dimensions; fails when they differ. -/
def cast (M : MatrixXd F) (r c : ℕ) : Except GPError (Matrix (Fin r) (Fin c) F) :=
  if h : M.rows = r ∧ M.cols = c then
    .ok (fun i j => M.coeff (Fin.cast h.1.symm i) (Fin.cast h.2.symm j))
  else .error .sizeMismatch

/-- The expression `M.transpose()`. -/
def transpose (M : MatrixXd F) : MatrixXd F := ⟨M.cols, M.rows, M.coeffᵀ⟩

/-- The expression `A * B` on matrices. -/
def mul (A B : MatrixXd F) : Except GPError (MatrixXd F) := do
  let B' ← B.cast A.cols B.cols
  return ⟨A.rows, B.cols, A.coeff * B'⟩

/-- The expression `A + B` on matrices. -/
def add (A B : MatrixXd F) : Except GPError (MatrixXd F) := do
  let B' ← B.cast A.rows A.cols
  return ⟨A.rows, A.cols, A.coeff + B'⟩

/-- The expression `A - B` on matrices. -/
def sub (A B : MatrixXd F) : Except GPError (MatrixXd F) := do
  let B' ← B.cast A.rows A.cols
  return ⟨A.rows, A.cols, A.coeff - B'⟩

/-- A vector read at a statically known length; fails when the length differs. -/
def castVec (v : VectorXd F) (n : ℕ) : Except GPError (Fin n → F) :=
  if h : v.length = n then .ok (fun i => v.get (Fin.cast h.symm i))
  else .error .sizeMismatch

/-- The expression `M * v` for a vector `v`. -/
def mulVec (M : MatrixXd F) (v : VectorXd F) :
    Except GPError (VectorXd F) := do
  let v' ← castVec v M.cols
  return List.ofFn (M.coeff *ᵥ v')

/-- The expression `v.transpose() * M` for a vector `v`. -/
def vecMul (v : VectorXd F) (M : MatrixXd F) :
    Except GPError (VectorXd F) := do
  let v' ← castVec v M.rows
  return List.ofFn (v' ᵥ* M.coeff)

/-- The expression `v.transpose() * w`, converted to a scalar. -/
def dot (v w : VectorXd F) : Except GPError F := do
  let w' ← castVec w v.length
  return (fun i => v.get i) ⬝ᵥ w'

/-- The expression `v + w` on vectors. -/
def vadd (v w : VectorXd F) : Except GPError (VectorXd F) := do
  let w' ← castVec w v.length
  return List.ofFn (fun i => v.get i + w' i)

/-- The expression `M.trace()`: the sum of the diagonal coefficients. -/
def trace (M : MatrixXd F) : F :=
  ∑ i : Fin (min M.rows M.cols),
    M.coeff (Fin.castLE (Nat.min_le_left _ _) i) (Fin.castLE (Nat.min_le_right _ _) i)

end MatrixXd

namespace LDLT

variable {F : Type}

/-- The expression `A.ldlt()` for a square matrix. -/
def compute {n : ℕ} (A : Matrix (Fin n) (Fin n) F) : LDLT F := .factored n A

/-- The expression `chol.solve(B)` for a matrix `B`. -/
def solve (E : Env F) (chol : LDLT F) (B : MatrixXd F) : Except GPError (MatrixXd F) :=
  match chol with
  | .empty => .error .ldltNotInitialized
  | .factored n A => do
    let B' ← B.cast n B.cols
    return ⟨n, B.cols, E.ldltSolve A B'⟩

/-- The expression `chol.solve(v)` for a vector `v`. -/
def solveVec (E : Env F) (chol : LDLT F) (v : VectorXd F) : Except GPError (VectorXd F) :=
  match chol with
  | .empty => .error .ldltNotInitialized
  | .factored n A => do
    let v' ← MatrixXd.castVec v n
    return List.ofFn (fun i => E.ldltSolve A (Matrix.col (Fin 1) v') i 0)

/-- The expression `chol.vectorD()`. -/
def vectorD (E : Env F) (chol : LDLT F) : Except GPError (VectorXd F) :=
  match chol with
  | .empty => .error .ldltNotInitialized
  | .factored _ A => .ok (List.ofFn (E.ldltVectorD A))

/-- The expression `chol.matrixL()`, of which the code only needs that it does not fail. -/
def matrixL (chol : LDLT F) : Except GPError Unit :=
  match chol with
  | .empty => .error .ldltNotInitialized
  | .factored _ _ => .ok ()

end LDLT

/-- The data members of `class GP`. -/
structure GP (κ F : Type) where
  covFunc_ : κ
  data_loc_ : VectorXd F
  data_out_ : VectorXd F
  gram_matrix_ : MatrixXd F
  gram_matrix_derivatives_ : List (MatrixXd F)
  alpha_ : VectorXd F
  chol_gram_matrix_ : LDLT F
  log_noise_sd_ : F
  use_explicit_trend_ : Bool
  feature_vectors_ : MatrixXd F
  feature_matrix_ : MatrixXd F
  chol_feature_matrix_ : LDLT F
  beta_ : VectorXd F

namespace GP

variable {κ F : Type} [Field F]

/-- The constructor `GP::GP(const covariance_functions::CovFunc& covFunc)`. -/
def ofCovFunc (covFunc : κ) : GP κ F where
  covFunc_ := covFunc
  data_loc_ := []
  data_out_ := []
  gram_matrix_ := MatrixXd.empty
  gram_matrix_derivatives_ := []
  alpha_ := []
  chol_gram_matrix_ := LDLT.empty
  log_noise_sd_ := -1e20
  use_explicit_trend_ := false
  feature_vectors_ := MatrixXd.empty
  feature_matrix_ := MatrixXd.empty
  chol_feature_matrix_ := LDLT.empty
  beta_ := []

/-- The constructor `GP::GP(const double noise_variance, const CovFunc& covFunc)`. -/
def ofNoiseVariance (E : Env F) (noise_variance : F) (covFunc : κ) : GP κ F where
  covFunc_ := covFunc
  data_loc_ := []
  data_out_ := []
  gram_matrix_ := MatrixXd.empty
  gram_matrix_derivatives_ := []
  alpha_ := []
  chol_gram_matrix_ := LDLT.empty
  log_noise_sd_ := E.log noise_variance
  use_explicit_trend_ := false
  feature_vectors_ := MatrixXd.empty
  feature_matrix_ := MatrixXd.empty
  chol_feature_matrix_ := LDLT.empty
  beta_ := []

/-- The rows `locations.array().pow(0)` and `locations.array().pow(1)` of a feature
matrix `Eigen::MatrixXd(2, locations.rows())`. -/
def features (locations : VectorXd F) : Matrix (Fin 2) (Fin locations.length) F :=
  fun r i => locations.get i ^ (r : ℕ)

/-- The method `void GP::infer()`.  The additions of the Gram sum are those of the field
`F`, hence exact; `inferRounded` is the same method with rounded additions. -/
def infer (E : Env F) (C : CovFunc κ F) (gp : GP κ F) : Except GPError (GP κ F) :=
  if gp.data_loc_.length = 0 then .error .notInitialized
  else do
    let n := gp.data_loc_.length
    let cov_result := C.evaluate gp.covFunc_ gp.data_loc_ gp.data_loc_
    let data_cov := cov_result.1
    let derivatives : List (MatrixXd F) :=
      ⟨n, n, (2 * E.exp (2 * gp.log_noise_sd_)) • (1 : Matrix (Fin n) (Fin n) F)⟩ ::
        cov_result.2.map (fun D => ⟨n, n, D⟩)
    let gram := data_cov + (E.exp (2 * gp.log_noise_sd_) + E.JITTER) • (1 : Matrix (Fin n) (Fin n) F)
    let chol := LDLT.compute gram
    let alpha ← chol.solveVec E gp.data_out_
    let gp1 : GP κ F := { gp with
      gram_matrix_derivatives_ := derivatives
      gram_matrix_ := ⟨n, n, gram⟩
      chol_gram_matrix_ := chol
      alpha_ := alpha }
    if gp.use_explicit_trend_ then
      let feature_vectors : MatrixXd F := ⟨2, n, features gp.data_loc_⟩
      let solved ← chol.solve E feature_vectors.transpose
      let feature_matrix ← feature_vectors.mul solved
      let fm ← feature_matrix.cast feature_matrix.rows feature_matrix.rows
      let chol_feature := LDLT.compute fm
      let solvedF ← chol_feature.solve E feature_vectors
      let beta ← solvedF.mulVec alpha
      return { gp1 with
        feature_vectors_ := feature_vectors
        feature_matrix_ := feature_matrix
        chol_feature_matrix_ := chol_feature
        beta_ := beta }
    else
      return gp1

/-- The method `void GP::infer()` when the two additions of the statement
`gram_matrix_ += (std::exp(2 * log_noise_sd_) + JITTER) * Identity(rows, cols)` round
their results with `fl` (the products with the entries `1` and `0` of the identity are
exact); everything else is as in `infer`, which is the case of exact additions. -/
def inferRounded (fl : F → F) (E : Env F) (C : CovFunc κ F) (gp : GP κ F) :
    Except GPError (GP κ F) :=
  if gp.data_loc_.length = 0 then .error .notInitialized
  else do
    let n := gp.data_loc_.length
    let cov_result := C.evaluate gp.covFunc_ gp.data_loc_ gp.data_loc_
    let data_cov := cov_result.1
    let derivatives : List (MatrixXd F) :=
      ⟨n, n, (2 * E.exp (2 * gp.log_noise_sd_)) • (1 : Matrix (Fin n) (Fin n) F)⟩ ::
        cov_result.2.map (fun D => ⟨n, n, D⟩)
    let gram : Matrix (Fin n) (Fin n) F := fun i j =>
      fl (data_cov i j +
        fl (E.exp (2 * gp.log_noise_sd_) + E.JITTER) * (1 : Matrix (Fin n) (Fin n) F) i j)
    let chol := LDLT.compute gram
    let alpha ← chol.solveVec E gp.data_out_
    let gp1 : GP κ F := { gp with
      gram_matrix_derivatives_ := derivatives
      gram_matrix_ := ⟨n, n, gram⟩
      chol_gram_matrix_ := chol
      alpha_ := alpha }
    if gp.use_explicit_trend_ then
      let feature_vectors : MatrixXd F := ⟨2, n, features gp.data_loc_⟩
      let solved ← chol.solve E feature_vectors.transpose
      let feature_matrix ← feature_vectors.mul solved
      let fm ← feature_matrix.cast feature_matrix.rows feature_matrix.rows
      let chol_feature := LDLT.compute fm
      let solvedF ← chol_feature.solve E feature_vectors
      let beta ← solvedF.mulVec alpha
      return { gp1 with
        feature_vectors_ := feature_vectors
        feature_matrix_ := feature_matrix
        chol_feature_matrix_ := chol_feature
        beta_ := beta }
    else
      return gp1

/-- The method `void GP::infer(const VectorXd& data_loc, const VectorXd& data_out)`. -/
def inferData (E : Env F) (C : CovFunc κ F) (gp : GP κ F) (data_loc data_out : VectorXd F) :
    Except GPError (GP κ F) :=
  infer E C { gp with data_loc_ := data_loc, data_out_ := data_out }

/-- The method `void GP::clear()`. -/
def clear (gp : GP κ F) : GP κ F :=
  { gp with
    gram_matrix_ := MatrixXd.empty
    chol_gram_matrix_ := LDLT.empty
    data_loc_ := []
    data_out_ := [] }

/-- The method `GP::predict(const MatrixXd& prior_cov, const MatrixXd& mixed_cov,
const MatrixXd& phi)`. -/
def predictCov (E : Env F) (gp : GP κ F) (prior_cov mixed_cov phi : MatrixXd F) :
    Except GPError (VectorXd F × MatrixXd F) := do
  let m ← mixed_cov.mulVec gp.alpha_
  let solved ← gp.chol_gram_matrix_.solve E mixed_cov.transpose
  let reduction ← mixed_cov.mul solved
  let v ← prior_cov.sub reduction
  if gp.use_explicit_trend_ then
    let solved2 ← gp.chol_gram_matrix_.solve E mixed_cov.transpose
    let projected ← gp.feature_vectors_.mul solved2
    let R ← phi.sub projected
    let solvedR ← gp.chol_feature_matrix_.solve E R
    let B ← R.transpose.mul solvedR
    let shift ← R.transpose.mulVec gp.beta_
    let m2 ← MatrixXd.vadd m shift
    let v2 ← v.add B
    return (m2, v2)
  else
    return (m, v)

/-- The method `GP::predict(const Eigen::VectorXd& locations)`.  Without explicit trend
the third argument of the inner call is the default argument, which that call does not
read. -/
def predict (E : Env F) (C : CovFunc κ F) (gp : GP κ F) (locations : VectorXd F) :
    Except GPError (VectorXd F × MatrixXd F) :=
  let prior_cov : MatrixXd F :=
    ⟨locations.length, locations.length, (C.evaluate gp.covFunc_ locations locations).1⟩
  if gp.data_loc_.length = 0 then
    .ok (List.replicate locations.length 0, prior_cov)
  else
    let mixed_cov : MatrixXd F :=
      ⟨locations.length, gp.data_loc_.length,
        (C.evaluate gp.covFunc_ locations gp.data_loc_).1⟩
    if gp.use_explicit_trend_ then
      predictCov E gp prior_cov mixed_cov ⟨2, locations.length, features locations⟩
    else
      predictCov E gp prior_cov mixed_cov MatrixXd.empty

/-- The method `double GP::neg_log_likelihood() const`. -/
def neg_log_likelihood (E : Env F) (gp : GP κ F) : Except GPError F :=
  if gp.gram_matrix_.rows > 0 then do
    let _Z ← gp.chol_gram_matrix_.matrixL
    let solved ← gp.chol_gram_matrix_.solveVec E gp.data_out_
    let quadratic ← MatrixXd.dot gp.data_out_ solved
    let D ← gp.chol_gram_matrix_.vectorD E
    let result := quadratic + (D.map E.log).sum + (gp.data_out_.length : F) * E.log (2 * E.M_PI)
    return 0.5 * result
  else
    return 0.5 * 0

/-- The body of the loop of `GP::neg_log_likelihood_gradient`, for one derivative of the
Gram matrix. -/
def gradientEntry (E : Env F) (gp : GP κ F) (derivative : MatrixXd F) : Except GPError F := do
  let beta ← gp.chol_gram_matrix_.solve E derivative
  let row ← MatrixXd.vecMul gp.alpha_ derivative
  let quadratic ← MatrixXd.dot row gp.alpha_
  return -0.5 * (quadratic - beta.trace)

/-- The loop of `GP::neg_log_likelihood_gradient` over the derivatives of the Gram
matrix. -/
def gradientLoop (E : Env F) (gp : GP κ F) : List (MatrixXd F) → Except GPError (VectorXd F)
  | [] => .ok []
  | derivative :: rest => do
    let entry ← gradientEntry E gp derivative
    let entries ← gradientLoop E gp rest
    return entry :: entries

/-- The method `Eigen::VectorXd GP::neg_log_likelihood_gradient() const`: a vector of the
size of `gram_matrix_derivatives_`, filled by the loop. -/
def neg_log_likelihood_gradient (E : Env F) (gp : GP κ F) : Except GPError (VectorXd F) :=
  gradientLoop E gp gp.gram_matrix_derivatives_

/-- The method `void GP::setHyperParameters(const Eigen::VectorXd& hyperParameters)`.
The block `segment(1, getParameterCount())` lies within the vector by the assertion on
its length; `tail(getExtraParameterCount())` is taken after `setParameters` and fails, as
Eigen's block assertion does, when that count exceeds the size of the vector. -/
def setHyperParameters (E : Env F) (C : CovFunc κ F) (gp : GP κ F)
    (hyperParameters : VectorXd F) : Except GPError (GP κ F) :=
  if h : hyperParameters.length =
      C.getParameterCount gp.covFunc_ + C.getExtraParameterCount gp.covFunc_ + 1 then
    let log_noise_sd := hyperParameters.get ⟨0, by omega⟩
    let covFunc1 := C.setParameters gp.covFunc_
      ((hyperParameters.drop 1).take (C.getParameterCount gp.covFunc_))
    if C.getExtraParameterCount covFunc1 ≤ hyperParameters.length then
      let covFunc2 := C.setExtraParameters covFunc1
        (hyperParameters.drop (hyperParameters.length - C.getExtraParameterCount covFunc1))
      let gp1 : GP κ F := { gp with log_noise_sd_ := log_noise_sd, covFunc_ := covFunc2 }
      if gp1.data_loc_.length > 0 then infer E C gp1 else .ok gp1
    else .error .sizeMismatch
  else .error .wrongParameterCount

/-- The method `Eigen::VectorXd GP::getHyperParameters() const`.  The comma initializer
has to fill the vector exactly. -/
def getHyperParameters (C : CovFunc κ F) (gp : GP κ F) : Except GPError (VectorXd F) :=
  let hyperParameters :=
    gp.log_noise_sd_ :: (C.getParameters gp.covFunc_ ++ C.getExtraParameters gp.covFunc_)
  if hyperParameters.length =
      C.getParameterCount gp.covFunc_ + C.getExtraParameterCount gp.covFunc_ + 1 then
    .ok hyperParameters
  else .error .sizeMismatch

/-- The method `void GP::setCovarianceHyperParameters(const Eigen::VectorXd&)`. -/
def setCovarianceHyperParameters (E : Env F) (C : CovFunc κ F) (gp : GP κ F)
    (hyperParameters : VectorXd F) : Except GPError (GP κ F) :=
  if hyperParameters.length ≠ C.getParameterCount gp.covFunc_ then
    .error .wrongParameterCount
  else
    infer E C { gp with covFunc_ := C.setParameters gp.covFunc_ hyperParameters }

/-- The method `void GP::enableExplicitTrend()`. -/
def enableExplicitTrend (gp : GP κ F) : GP κ F := { gp with use_explicit_trend_ := true }

/-- The method `void GP::disableExplicitTrend()`. -/
def disableExplicitTrend (gp : GP κ F) : GP κ F := { gp with use_explicit_trend_ := false }

/-- The copy constructor `GP::GP(const GP& that)`; the kernel is cloned. -/
def copy (that : GP κ F) : GP κ F where
  covFunc_ := that.covFunc_
  data_loc_ := that.data_loc_
  data_out_ := that.data_out_
  gram_matrix_ := that.gram_matrix_
  gram_matrix_derivatives_ := that.gram_matrix_derivatives_
  alpha_ := that.alpha_
  chol_gram_matrix_ := that.chol_gram_matrix_
  log_noise_sd_ := that.log_noise_sd_
  use_explicit_trend_ := that.use_explicit_trend_
  feature_vectors_ := that.feature_vectors_
  feature_matrix_ := that.feature_matrix_
  chol_feature_matrix_ := that.chol_feature_matrix_
  beta_ := that.beta_

/-- The operator `GP& GP::operator=(const GP& that)`, for `this != &that`. -/
def assign (self that : GP κ F) : GP κ F :=
  { self with
    covFunc_ := that.covFunc_
    data_loc_ := that.data_loc_
    data_out_ := that.data_out_
    gram_matrix_ := that.gram_matrix_
    gram_matrix_derivatives_ := that.gram_matrix_derivatives_
    alpha_ := that.alpha_
    chol_gram_matrix_ := that.chol_gram_matrix_
    log_noise_sd_ := that.log_noise_sd_ }

/-- The method `bool GP::setCovarianceFunction(const CovFunc& covFunc)`. -/
def setCovarianceFunction (gp : GP κ F) (covFunc : κ) : Bool × GP κ F :=
  if gp.data_loc_.length ≠ 0 ∨ gp.data_out_.length ≠ 0 then (false, gp)
  else (true, { gp with covFunc_ := covFunc })

end GP

/-! ### An exact solver and a kernel, for concrete instances -/

/-- An exact solver: `A⁻¹ * B` computed by Cramer's rule. -/
def cramerSolve {F : Type} [Field F] {n m : ℕ} (A : Matrix (Fin n) (Fin n) F)
    (B : Matrix (Fin n) (Fin m) F) : Matrix (Fin n) (Fin m) F :=
  A.det⁻¹ • (A.adjugate * B)

/-- The diagonal `D` of the factorization `A = L·D·Lᵗ` without pivoting: the first pivot
followed by the diagonal of the factorization of the Schur complement. -/
def pivots {F : Type} [Field F] : (n : ℕ) → Matrix (Fin n) (Fin n) F → Fin n → F
  | 0, _ => fun i => i.elim0
  | n + 1, A =>
    Fin.cons (A 0 0)
      (pivots n (fun i j => A i.succ j.succ - A i.succ 0 * A 0 j.succ / A 0 0))

/-- The environment whose LDLT operations are exact. -/
def Env.exact {F : Type} [Field F] (exp log : F → F) (pi jitter : F) : Env F where
  exp := exp
  log := log
  M_PI := pi
  JITTER := jitter
  ldltSolve := fun A B => cramerSolve A B
  ldltVectorD := fun {n} A => pivots n A

/-- The environment `E` with another value of the constant `JITTER`. -/
def Env.withJitter {F : Type} (E : Env F) (jitter : F) : Env F := { E with JITTER := jitter }

/-- An exponential that underflows as `std::exp` does on `double`: below the threshold
(about `-745` for `double`) the result is `0`. -/
def expUnderflow {F : Type} [Zero F] [LinearOrder F] (exp : F → F) (threshold : F) : F → F :=
  fun x => if x < threshold then 0 else exp x

/-- The linear kernel `k(a, b) = w·a·b` with the single parameter `w` (the kernel state)
and no extra parameters; its derivative in `w` is `a·b`. -/
def linearKernel {F : Type} [Field F] : CovFunc F F where
  evaluate := fun w a b => (fun i j => w * a.get i * b.get j, [fun i j => a.get i * b.get j])
  setParameters := fun w v => v.headD w
  getParameters := fun w => [w]
  setExtraParameters := fun w _ => w
  getExtraParameters := fun _ => []
  getParameterCount := fun _ => 1
  getExtraParameterCount := fun _ => 0

/-- An environment whose solver is exact on invertible matrices, as that of `Env.exact`,
and returns the right-hand side unchanged on a singular matrix: another solver that
solves every invertible system exactly. -/
def Env.exactOnRegular {F : Type} [Field F] [DecidableEq F] (exp log : F → F)
    (pi jitter : F) : Env F where
  exp := exp
  log := log
  M_PI := pi
  JITTER := jitter
  ldltSolve := fun A B => if A.det = 0 then B else cramerSolve A B
  ldltVectorD := fun {n} A => pivots n A

/-- Rounding to the nearest number with a significand of `p` bits, ties to even, with an
unbounded exponent range: the rounding of an IEEE 754 operation on `double` for `p = 53`,
as long as the result is in the normal range. -/
def roundBits {F : Type} [LinearOrderedField F] [FloorRing F] (p : ℕ) (x : F) : F :=
  if x = 0 then 0
  else
    let ulp : F := 2 ^ (Int.log 2 |x| - ((p : ℤ) - 1))
    let q : ℤ := ⌊x / ulp⌋
    let r : F := x / ulp - q
    if r < 1 / 2 then q * ulp
    else if 1 / 2 < r then (q + 1) * ulp
    else if q % 2 = 0 then q * ulp else (q + 1) * ulp

/-! ### Specification-level notions -/

section Spec

variable {κ F : Type} [Field F]

/-- The LDLT solver of the environment solves exactly: for every invertible matrix `A`,
`A.ldlt().solve(B)` is `A⁻¹ * B`. -/
def Env.ExactSolve (E : Env F) : Prop :=
  ∀ (n m : ℕ) (A : Matrix (Fin n) (Fin n) F) (B : Matrix (Fin n) (Fin m) F),
    IsUnit A.det → E.ldltSolve A B = A⁻¹ * B

/-- The Gram matrix of the specification: `k(X,X) + (exp(2·log_noise_sd) + JITTER)·I`. -/
def gramSpec (E : Env F) (C : CovFunc κ F) (k : κ) (s : F) (X : VectorXd F) :
    Matrix (Fin X.length) (Fin X.length) F :=
  (C.evaluate k X X).1 + (E.exp (2 * s) + E.JITTER) • (1 : Matrix _ _ F)

/-- The Gram sum `k(X,X) + (exp(2·log_noise_sd) + JITTER)·I` with both additions rounded
by `fl`: the matrix that `GP.inferRounded` stores.  With `fl` the identity it is
`gramSpec`. -/
def gramRounded (fl : F → F) (E : Env F) (C : CovFunc κ F) (k : κ) (s : F) (X : VectorXd F) :
    Matrix (Fin X.length) (Fin X.length) F :=
  fun i j => fl ((C.evaluate k X X).1 i j +
    fl (E.exp (2 * s) + E.JITTER) * (1 : Matrix (Fin X.length) (Fin X.length) F) i j)

/-- A list of outputs read as a vector indexed like the locations. -/
def outputs (X y : VectorXd F) (h : y.length = X.length) : Fin X.length → F :=
  fun i => y.get (Fin.cast h.symm i)

/-- The decomposition of `A` that the environment returns is a valid one, as specified by
Eigen: `A = Pᵗ·L·D·Lᵗ·P` with `P` a permutation matrix, `L` lower triangular with unit
diagonal and `D` the diagonal matrix of `vectorD()`. -/
def Env.FactorsAt (E : Env F) {n : ℕ} (A : Matrix (Fin n) (Fin n) F) : Prop :=
  ∃ (L : Matrix (Fin n) (Fin n) F) (σ : Equiv.Perm (Fin n)),
    (∀ i j, i < j → L i j = 0) ∧ (∀ i, L i i = 1) ∧
    A = (σ.permMatrix F)ᵀ * L * Matrix.diagonal (E.ldltVectorD A) * Lᵀ * σ.permMatrix F

/-- The parameter accessors of a kernel round-trip: what is set is what is read back,
the vectors read have the announced lengths, and setting parameters changes neither the
counts nor the other group of parameters. -/
structure CovFunc.RoundTrip (C : CovFunc κ F) : Prop where
  getParameters_length : ∀ k, (C.getParameters k).length = C.getParameterCount k
  getExtraParameters_length :
    ∀ k, (C.getExtraParameters k).length = C.getExtraParameterCount k
  getParameters_setParameters :
    ∀ k p, p.length = C.getParameterCount k → C.getParameters (C.setParameters k p) = p
  getExtraParameters_setExtraParameters :
    ∀ k e, e.length = C.getExtraParameterCount k →
      C.getExtraParameters (C.setExtraParameters k e) = e
  getParameters_setExtraParameters :
    ∀ k e, C.getParameters (C.setExtraParameters k e) = C.getParameters k
  getParameterCount_setParameters :
    ∀ k p, C.getParameterCount (C.setParameters k p) = C.getParameterCount k
  getExtraParameterCount_setParameters :
    ∀ k p, C.getExtraParameterCount (C.setParameters k p) = C.getExtraParameterCount k
  getParameterCount_setExtraParameters :
    ∀ k e, C.getParameterCount (C.setExtraParameters k e) = C.getParameterCount k
  getExtraParameterCount_setExtraParameters :
    ∀ k e, C.getExtraParameterCount (C.setExtraParameters k e) = C.getExtraParameterCount k

/-- Setting the parameters a kernel already has leaves the kernel as it is. -/
structure CovFunc.SetGet (C : CovFunc κ F) : Prop where
  getParameters_length : ∀ k, (C.getParameters k).length = C.getParameterCount k
  getExtraParameters_length :
    ∀ k, (C.getExtraParameters k).length = C.getExtraParameterCount k
  setParameters_getParameters : ∀ k, C.setParameters k (C.getParameters k) = k
  setExtraParameters_getExtraParameters :
    ∀ k, C.setExtraParameters k (C.getExtraParameters k) = k

/-- The value that `neg_log_likelihood()` returns after `infer(X, y)`, as a number (`0`
when one of the two fails): the function of the hyperparameters that the gradient
differentiates. -/
def nllValue (E : Env F) (C : CovFunc κ F) (gp : GP κ F) (X y : VectorXd F) : F :=
  match gp.inferData E C X y >>= fun g => g.neg_log_likelihood E with
  | .ok value => value
  | .error _ => 0

end Spec

/-! ## Lemmas and theorems -/

set_option linter.unusedSectionVars false

section Theorems

variable {κ F : Type} [Field F]

@[simp] theorem MatrixXd.cast_mk {r c : ℕ} (A : Matrix (Fin r) (Fin c) F) :
    (MatrixXd.mk r c A).cast r c = .ok A := by
  simp [MatrixXd.cast]

theorem MatrixXd.castVec_eq {v : VectorXd F} {n : ℕ} (h : v.length = n) :
    MatrixXd.castVec v n = .ok (fun i => v.get (Fin.cast h.symm i)) := by
  simp [MatrixXd.castVec, h]

@[simp] theorem MatrixXd.castVec_ofFn {n : ℕ} (f : Fin n → F) :
    MatrixXd.castVec (List.ofFn f) n = .ok f := by
  rw [MatrixXd.castVec_eq (List.length_ofFn f)]
  congr 1
  funext i
  simp

theorem col_solve_eq_mulVec {n : ℕ} (A : Matrix (Fin n) (Fin n) F) (v : Fin n → F) :
    (fun i => (A * Matrix.col (Fin 1) v) i 0) = A *ᵥ v := by
  funext i
  simp [Matrix.mul_apply, Matrix.mulVec, Matrix.dotProduct]

theorem MatrixXd.castVec_outputs (X y : VectorXd F) (h : y.length = X.length) :
    MatrixXd.castVec y X.length = .ok (outputs X y h) :=
  MatrixXd.castVec_eq h

/-- What `infer(X, y)` stores when explicit trend is disabled. -/
theorem inferData_noTrend (E : Env F) (C : CovFunc κ F) (gp : GP κ F) (X y : VectorXd F)
    (hX : X ≠ []) (hy : y.length = X.length) (htrend : gp.use_explicit_trend_ = false) :
    gp.inferData E C X y = .ok { gp with
      data_loc_ := X
      data_out_ := y
      gram_matrix_derivatives_ :=
        ⟨X.length, X.length, (2 * E.exp (2 * gp.log_noise_sd_)) • (1 : Matrix _ _ F)⟩ ::
          (C.evaluate gp.covFunc_ X X).2.map (fun D => ⟨X.length, X.length, D⟩)
      gram_matrix_ := ⟨X.length, X.length, gramSpec E C gp.covFunc_ gp.log_noise_sd_ X⟩
      chol_gram_matrix_ := .factored X.length (gramSpec E C gp.covFunc_ gp.log_noise_sd_ X)
      alpha_ := List.ofFn (fun i => E.ldltSolve (gramSpec E C gp.covFunc_ gp.log_noise_sd_ X)
        (Matrix.col (Fin 1) (outputs X y hy)) i 0) } := by
  have hlen : X.length ≠ 0 := by simpa using hX
  simp [GP.inferData, GP.infer, hlen, htrend, LDLT.compute, LDLT.solveVec,
    MatrixXd.castVec_outputs X y hy, gramSpec, bind, Except.bind, pure, Except.pure]

@[simp] theorem MatrixXd.mulVec_mk_ofFn {r c : ℕ} (A : Matrix (Fin r) (Fin c) F) (v : Fin c → F) :
    (MatrixXd.mk r c A).mulVec (List.ofFn v) = .ok (List.ofFn (A *ᵥ v)) := by
  simp [MatrixXd.mulVec, bind, Except.bind, pure, Except.pure]

@[simp] theorem MatrixXd.mul_mk {r c d : ℕ} (A : Matrix (Fin r) (Fin c) F)
    (B : Matrix (Fin c) (Fin d) F) :
    (MatrixXd.mk r c A).mul (MatrixXd.mk c d B) = .ok ⟨r, d, A * B⟩ := by
  simp [MatrixXd.mul, bind, Except.bind, pure, Except.pure]

@[simp] theorem MatrixXd.sub_mk {r c : ℕ} (A B : Matrix (Fin r) (Fin c) F) :
    (MatrixXd.mk r c A).sub (MatrixXd.mk r c B) = .ok ⟨r, c, A - B⟩ := by
  simp [MatrixXd.sub, bind, Except.bind, pure, Except.pure]

@[simp] theorem MatrixXd.add_mk {r c : ℕ} (A B : Matrix (Fin r) (Fin c) F) :
    (MatrixXd.mk r c A).add (MatrixXd.mk r c B) = .ok ⟨r, c, A + B⟩ := by
  simp [MatrixXd.add, bind, Except.bind, pure, Except.pure]

@[simp] theorem LDLT.solve_factored (E : Env F) {n m : ℕ} (A : Matrix (Fin n) (Fin n) F)
    (B : Matrix (Fin n) (Fin m) F) :
    (LDLT.factored n A).solve E ⟨n, m, B⟩ = .ok ⟨n, m, E.ldltSolve A B⟩ := by
  simp [LDLT.solve, bind, Except.bind, pure, Except.pure]

/-- With explicit trend disabled, a non-empty training pair `(X, y)` and an exact
solver on the invertible Gram matrix `K = k(X,X) + (exp(2·log_noise_sd) + JITTER)·I`:
`infer(X, y)` succeeds, stores `K` and `α = K⁻¹·y`, and a following `predict(q)` returns
the mean `k(q,X)·α` and the covariance `k(q,q) − k(q,X)·K⁻¹·k(q,X)ᵗ`. -/
theorem predict_noTrend_exact (E : Env F) (C : CovFunc κ F) (gp : GP κ F) (X y q : VectorXd F)
    (hX : X ≠ []) (hy : y.length = X.length) (htrend : gp.use_explicit_trend_ = false)
    (hE : E.ExactSolve)
    (hK : IsUnit (gramSpec E C gp.covFunc_ gp.log_noise_sd_ X).det) :
    ∃ gp1 : GP κ F, gp.inferData E C X y = .ok gp1 ∧
      gp1.gram_matrix_ = ⟨X.length, X.length, gramSpec E C gp.covFunc_ gp.log_noise_sd_ X⟩ ∧
      gp1.alpha_ = List.ofFn ((gramSpec E C gp.covFunc_ gp.log_noise_sd_ X)⁻¹ *ᵥ outputs X y hy) ∧
      gp1.predict E C q = .ok
        (List.ofFn ((C.evaluate gp.covFunc_ q X).1 *ᵥ
          ((gramSpec E C gp.covFunc_ gp.log_noise_sd_ X)⁻¹ *ᵥ outputs X y hy)),
         ⟨q.length, q.length, (C.evaluate gp.covFunc_ q q).1 -
            (C.evaluate gp.covFunc_ q X).1 * (gramSpec E C gp.covFunc_ gp.log_noise_sd_ X)⁻¹ *
              ((C.evaluate gp.covFunc_ q X).1)ᵀ⟩) := by
  have hlen : X.length ≠ 0 := by simpa using hX
  refine ⟨_, inferData_noTrend E C gp X y hX hy htrend, rfl, ?_, ?_⟩
  · simp only [hE _ _ _ _ hK, col_solve_eq_mulVec]
  · simp [GP.predict, GP.predictCov, hlen, htrend, hE _ _ _ _ hK, col_solve_eq_mulVec,
      MatrixXd.transpose, bind, Except.bind, pure, Except.pure, Matrix.mul_assoc]

theorem Env.exact_exactSolve (exp log : F → F) (pi jitter : F) :
    (Env.exact exp log pi jitter).ExactSolve := by
  intro n m A B hA
  simp [Env.exact, cramerSolve, Matrix.inv_def, Ring.inverse_eq_inv']


/-- What `infer(X, y)` stores when explicit trend is enabled. -/
theorem inferData_trend (E : Env F) (C : CovFunc κ F) (gp : GP κ F) (X y : VectorXd F)
    (hX : X ≠ []) (hy : y.length = X.length) (htrend : gp.use_explicit_trend_ = true) :
    gp.inferData E C X y = .ok { gp with
      data_loc_ := X
      data_out_ := y
      gram_matrix_derivatives_ :=
        ⟨X.length, X.length, (2 * E.exp (2 * gp.log_noise_sd_)) • (1 : Matrix _ _ F)⟩ ::
          (C.evaluate gp.covFunc_ X X).2.map (fun D => ⟨X.length, X.length, D⟩)
      gram_matrix_ := ⟨X.length, X.length, gramSpec E C gp.covFunc_ gp.log_noise_sd_ X⟩
      chol_gram_matrix_ := .factored X.length (gramSpec E C gp.covFunc_ gp.log_noise_sd_ X)
      alpha_ := List.ofFn (fun i => E.ldltSolve (gramSpec E C gp.covFunc_ gp.log_noise_sd_ X)
        (Matrix.col (Fin 1) (outputs X y hy)) i 0)
      feature_vectors_ := ⟨2, X.length, GP.features X⟩
      feature_matrix_ := ⟨2, 2, GP.features X *
        E.ldltSolve (gramSpec E C gp.covFunc_ gp.log_noise_sd_ X) (GP.features X)ᵀ⟩
      chol_feature_matrix_ := .factored 2 (GP.features X *
        E.ldltSolve (gramSpec E C gp.covFunc_ gp.log_noise_sd_ X) (GP.features X)ᵀ)
      beta_ := List.ofFn (E.ldltSolve (GP.features X *
          E.ldltSolve (gramSpec E C gp.covFunc_ gp.log_noise_sd_ X) (GP.features X)ᵀ)
          (GP.features X) *ᵥ
        (fun i => E.ldltSolve (gramSpec E C gp.covFunc_ gp.log_noise_sd_ X)
          (Matrix.col (Fin 1) (outputs X y hy)) i 0)) } := by
  have hlen : X.length ≠ 0 := by simpa using hX
  simp [GP.inferData, GP.infer, hlen, htrend, LDLT.compute, LDLT.solveVec,
    MatrixXd.castVec_outputs X y hy, gramSpec, bind, Except.bind, pure, Except.pure,
    MatrixXd.transpose]

/-- What `infer(X, y)` stores in the members that do not belong to the explicit trend,
whether explicit trend is enabled or not. -/
theorem inferData_ok (E : Env F) (C : CovFunc κ F) (gp : GP κ F) (X y : VectorXd F)
    (hX : X ≠ []) (hy : y.length = X.length) :
    ∃ gp1 : GP κ F, gp.inferData E C X y = .ok gp1 ∧
      gp1.covFunc_ = gp.covFunc_ ∧ gp1.data_loc_ = X ∧ gp1.data_out_ = y ∧
      gp1.log_noise_sd_ = gp.log_noise_sd_ ∧
      gp1.use_explicit_trend_ = gp.use_explicit_trend_ ∧
      gp1.gram_matrix_ = ⟨X.length, X.length, gramSpec E C gp.covFunc_ gp.log_noise_sd_ X⟩ ∧
      gp1.chol_gram_matrix_ =
        .factored X.length (gramSpec E C gp.covFunc_ gp.log_noise_sd_ X) ∧
      gp1.alpha_ = List.ofFn (fun i => E.ldltSolve (gramSpec E C gp.covFunc_ gp.log_noise_sd_ X)
        (Matrix.col (Fin 1) (outputs X y hy)) i 0) ∧
      gp1.gram_matrix_derivatives_ =
        ⟨X.length, X.length, (2 * E.exp (2 * gp.log_noise_sd_)) • (1 : Matrix _ _ F)⟩ ::
          (C.evaluate gp.covFunc_ X X).2.map (fun D => ⟨X.length, X.length, D⟩) := by
  cases htrend : gp.use_explicit_trend_
  · exact ⟨_, inferData_noTrend E C gp X y hX hy htrend, rfl, rfl, rfl, rfl, htrend, rfl, rfl,
      rfl, rfl⟩
  · exact ⟨_, inferData_trend E C gp X y hX hy htrend, rfl, rfl, rfl, rfl, htrend, rfl, rfl,
      rfl, rfl⟩

/-- C1. With explicit trend disabled, a non-empty training pair `(X, y)` and an exact
solver on the invertible Gram matrix `K = k(X,X) + (exp(2·log_noise_sd) + JITTER)·I`:
`infer(X, y)` succeeds, stores `K` and `α = K⁻¹·y`, and a following `predict(q)` returns
the mean `k(q,X)·α` and the covariance `k(q,q) − k(q,X)·K⁻¹·k(q,X)ᵗ`. -/
theorem predict_after_infer (E : Env F) (C : CovFunc κ F) (gp : GP κ F) (X y q : VectorXd F)
    (hX : X ≠ []) (hy : y.length = X.length) (htrend : gp.use_explicit_trend_ = false)
    (hE : E.ExactSolve)
    (hK : IsUnit (gramSpec E C gp.covFunc_ gp.log_noise_sd_ X).det) :
    ∃ gp1 : GP κ F, gp.inferData E C X y = .ok gp1 ∧
      gp1.gram_matrix_ = ⟨X.length, X.length, gramSpec E C gp.covFunc_ gp.log_noise_sd_ X⟩ ∧
      gp1.alpha_ = List.ofFn ((gramSpec E C gp.covFunc_ gp.log_noise_sd_ X)⁻¹ *ᵥ outputs X y hy) ∧
      gp1.predict E C q = .ok
        (List.ofFn ((C.evaluate gp.covFunc_ q X).1 *ᵥ
          ((gramSpec E C gp.covFunc_ gp.log_noise_sd_ X)⁻¹ *ᵥ outputs X y hy)),
         ⟨q.length, q.length, (C.evaluate gp.covFunc_ q q).1 -
            (C.evaluate gp.covFunc_ q X).1 * (gramSpec E C gp.covFunc_ gp.log_noise_sd_ X)⁻¹ *
              ((C.evaluate gp.covFunc_ q X).1)ᵀ⟩) := by
  have hlen : X.length ≠ 0 := by simpa using hX
  obtain ⟨gp1, hinf, hcov, hloc, -, -, hflag, hgram, hchol, halpha, -⟩ :=
    inferData_ok E C gp X y hX hy
  refine ⟨gp1, hinf, hgram, ?_, ?_⟩
  · rw [halpha]
    simp only [hE _ _ _ _ hK, col_solve_eq_mulVec]
  · have hloc' : gp1.data_loc_.length ≠ 0 := by rw [hloc]; exact hlen
    subst hloc
    simp only [GP.predict, GP.predictCov, hloc', hflag, htrend, hcov, hchol, halpha,
      MatrixXd.transpose, MatrixXd.mulVec_mk_ofFn, LDLT.solve_factored, MatrixXd.mul_mk,
      MatrixXd.sub_mk, bind, Except.bind, pure, Except.pure, if_false, ite_false,
      Bool.false_eq_true, hE _ _ _ _ hK, col_solve_eq_mulVec, Matrix.mul_assoc]

/-- Witness of C1. -/
theorem predict_after_infer_witness :
    ∃ gp1 : GP ℝ ℝ,
      (GP.ofCovFunc (1 : ℝ)).inferData (Env.exact Real.exp Real.log Real.pi 1e-6) linearKernel
        [1] [2] = .ok gp1 ∧
      gp1.gram_matrix_ = ⟨1, 1, gramSpec (Env.exact Real.exp Real.log Real.pi 1e-6) linearKernel
        (1 : ℝ) (-1e20) [1]⟩ ∧
      gp1.alpha_ = List.ofFn ((gramSpec (Env.exact Real.exp Real.log Real.pi 1e-6) linearKernel
          (1 : ℝ) (-1e20) [1])⁻¹ *ᵥ outputs [1] [2] rfl) ∧
      gp1.predict (Env.exact Real.exp Real.log Real.pi 1e-6) linearKernel [3] = .ok
        (List.ofFn ((linearKernel.evaluate (1 : ℝ) [3] [1]).1 *ᵥ
          ((gramSpec (Env.exact Real.exp Real.log Real.pi 1e-6) linearKernel (1 : ℝ) (-1e20) [1])⁻¹
            *ᵥ outputs [1] [2] rfl)),
         ⟨1, 1, (linearKernel.evaluate (1 : ℝ) [3] [3]).1 -
            (linearKernel.evaluate (1 : ℝ) [3] [1]).1 *
              (gramSpec (Env.exact Real.exp Real.log Real.pi 1e-6) linearKernel (1 : ℝ) (-1e20) [1])⁻¹ *
              ((linearKernel.evaluate (1 : ℝ) [3] [1]).1)ᵀ⟩) :=
  predict_after_infer (Env.exact Real.exp Real.log Real.pi 1e-6) linearKernel
    (GP.ofCovFunc (1 : ℝ)) [1] [2] [3] (by simp) rfl rfl (Env.exact_exactSolve _ _ _ _)
    (by
      rw [isUnit_iff_ne_zero]
      have h : (gramSpec (Env.exact Real.exp Real.log Real.pi 1e-6) linearKernel (1 : ℝ) (-1e20) [1]).det
          = 1 + (Real.exp (2 * (-1e20)) + 1e-6) := by
        rw [Matrix.det_fin_one]
        simp [gramSpec, linearKernel, Env.exact]
      show (gramSpec (Env.exact Real.exp Real.log Real.pi 1e-6) linearKernel (1 : ℝ) (-1e20)
        [1]).det ≠ 0
      rw [h]
      positivity)

/-- C2. An untrained regressor (empty training locations: freshly constructed, or after
`clear`, with explicit trend enabled or not) predicts the zero vector of the length of
the query and the prior covariance `k(q,q)`. -/
theorem predict_untrained (E : Env F) (C : CovFunc κ F) (q : VectorXd F) :
    (∀ gp : GP κ F, gp.data_loc_ = [] →
      gp.predict E C q =
        .ok (List.replicate q.length 0,
          ⟨q.length, q.length, (C.evaluate gp.covFunc_ q q).1⟩)) ∧
    (∀ k : κ, (GP.ofCovFunc k : GP κ F).data_loc_ = []) ∧
    (∀ (v : F) (k : κ), (GP.ofNoiseVariance E v k).data_loc_ = []) ∧
    (∀ gp : GP κ F, gp.clear.data_loc_ = [] ∧ gp.clear.covFunc_ = gp.covFunc_) ∧
    (∀ gp : GP κ F, gp.enableExplicitTrend.data_loc_ = gp.data_loc_ ∧
      gp.disableExplicitTrend.data_loc_ = gp.data_loc_) := by
  refine ⟨?_, fun _ => rfl, fun _ _ => rfl, fun _ => ⟨rfl, rfl⟩, fun _ => ⟨rfl, rfl⟩⟩
  intro gp h
  simp [GP.predict, h]


theorem det_eq_prod_of_factorsAt (E : Env F) {n : ℕ} (A : Matrix (Fin n) (Fin n) F)
    (h : E.FactorsAt A) : A.det = ∏ i, E.ldltVectorD A i := by
  obtain ⟨L, σ, hlow, hdiag, hA⟩ := h
  have hL : L.det = 1 := by
    rw [Matrix.det_of_lowerTriangular L (fun i j hij => hlow i j hij)]
    simp [hdiag]
  have hP : (σ.permMatrix F).det * (σ.permMatrix F).det = 1 := by
    rw [Matrix.det_permutation]
    rcases Int.units_eq_one_or (Equiv.Perm.sign σ) with h1 | h1 <;> simp [h1]
  conv_lhs => rw [hA]
  simp only [Matrix.det_mul, Matrix.det_transpose, Matrix.det_diagonal, hL, mul_one]
  calc (σ.permMatrix F).det * (∏ i, E.ldltVectorD A i) * (σ.permMatrix F).det
      = ((σ.permMatrix F).det * (σ.permMatrix F).det) * ∏ i, E.ldltVectorD A i := by ring
    _ = ∏ i, E.ldltVectorD A i := by rw [hP, one_mul]

theorem vectorD_pos_of_posDef (E : Env ℝ) {n : ℕ} (A : Matrix (Fin n) (Fin n) ℝ)
    (h : E.FactorsAt A) (hA : A.PosDef) (i : Fin n) : 0 < E.ldltVectorD A i := by
  obtain ⟨L, σ, hlow, hdiag, hfac⟩ := h
  set Q : Matrix (Fin n) (Fin n) ℝ := Lᵀ * σ.permMatrix ℝ with hQ
  have hAQ : A = Qᵀ * Matrix.diagonal (E.ldltVectorD A) * Q := by
    conv_lhs => rw [hfac]
    simp only [hQ, Matrix.transpose_mul, Matrix.transpose_transpose, Matrix.mul_assoc]
  have hL : L.det = 1 := by
    rw [Matrix.det_of_lowerTriangular L (fun i j hij => hlow i j hij)]
    simp [hdiag]
  have hQdet : IsUnit Q.det := by
    rw [hQ, Matrix.det_mul, Matrix.det_transpose, hL, one_mul, Matrix.det_permutation]
    rcases Int.units_eq_one_or (Equiv.Perm.sign σ) with h1 | h1 <;> simp [h1]
  set x : Fin n → ℝ := Q⁻¹ *ᵥ Pi.single i 1 with hx
  have hQx : Q *ᵥ x = Pi.single i 1 := by
    rw [hx, Matrix.mulVec_mulVec, Matrix.mul_nonsing_inv _ hQdet, Matrix.one_mulVec]
  have hx0 : x ≠ 0 := by
    intro h0
    rw [h0, Matrix.mulVec_zero] at hQx
    have := congrFun hQx i
    simp at this
  have hpos := hA.2 x hx0
  have hval : star x ⬝ᵥ A *ᵥ x = E.ldltVectorD A i := by
    conv_lhs => rw [hAQ]
    rw [← Matrix.mulVec_mulVec, ← Matrix.mulVec_mulVec, hQx, Matrix.dotProduct_mulVec,
      Matrix.vecMul_transpose]
    simp only [star_trivial]
    rw [hQx]
    simp [Matrix.mulVec_single, Matrix.dotProduct, Pi.single_apply, Matrix.diagonal_apply]
  rw [hval] at hpos
  exact hpos

theorem MatrixXd.dot_ofFn {n : ℕ} (y : VectorXd F) (hy : y.length = n) (f : Fin n → F) :
    MatrixXd.dot y (List.ofFn f) = .ok ((fun i => y.get (Fin.cast hy.symm i)) ⬝ᵥ f) := by
  subst hy
  simp [MatrixXd.dot, bind, Except.bind, pure, Except.pure]

/-- For a regressor trained on `(X, y)` whose Gram matrix `K` is positive definite, with an
exact solver and a valid decomposition of `K`: `infer(X, y)` succeeds and
`neg_log_likelihood()` then returns `0.5·(yᵗ·K⁻¹·y + log det K + n·log(2·M_PI))`. -/
theorem neg_log_likelihood_after_infer (E : Env ℝ) (C : CovFunc κ ℝ) (gp : GP κ ℝ)
    (X y : VectorXd ℝ) (hX : X ≠ []) (hy : y.length = X.length)
    (hlog : E.log = Real.log) (hE : E.ExactSolve)
    (hF : E.FactorsAt (gramSpec E C gp.covFunc_ gp.log_noise_sd_ X))
    (hK : (gramSpec E C gp.covFunc_ gp.log_noise_sd_ X).PosDef) :
    ∃ gp1 : GP κ ℝ, gp.inferData E C X y = .ok gp1 ∧
      gp1.neg_log_likelihood E = .ok (0.5 *
        (outputs X y hy ⬝ᵥ (gramSpec E C gp.covFunc_ gp.log_noise_sd_ X)⁻¹ *ᵥ outputs X y hy +
          Real.log (gramSpec E C gp.covFunc_ gp.log_noise_sd_ X).det +
          (X.length : ℝ) * Real.log (2 * E.M_PI))) := by
  have hpos := vectorD_pos_of_posDef E _ hF hK
  have hlogdet : Real.log (gramSpec E C gp.covFunc_ gp.log_noise_sd_ X).det =
      ∑ i, Real.log (E.ldltVectorD (gramSpec E C gp.covFunc_ gp.log_noise_sd_ X) i) := by
    rw [det_eq_prod_of_factorsAt E _ hF, Real.log_prod]
    intro i _
    exact (hpos i).ne'
  have hlen : 0 < X.length := List.length_pos.mpr hX
  have hunit : IsUnit (gramSpec E C gp.covFunc_ gp.log_noise_sd_ X).det :=
    (Matrix.isUnit_iff_isUnit_det _).mp hK.isUnit
  obtain ⟨gp1, hinf, -, -, hout, -, -, hgram, hchol, -, -⟩ := inferData_ok E C gp X y hX hy
  refine ⟨gp1, hinf, ?_⟩
  simp only [GP.neg_log_likelihood, hgram, hchol, hout, hlen, if_true, LDLT.matrixL,
    LDLT.solveVec, LDLT.vectorD, MatrixXd.castVec_outputs X y hy, bind, Except.bind, pure,
    Except.pure, hE _ _ _ _ hunit, col_solve_eq_mulVec, MatrixXd.dot_ofFn y hy,
    List.map_ofFn, List.sum_ofFn, hlog, hlogdet, Function.comp]
  have hcast : ((y.length : ℕ) : ℝ) = ((X.length : ℕ) : ℝ) := by rw [hy]
  rw [hcast]
  rfl

/-- C3. For a regressor trained on `(X, y)` whose Gram matrix `K` is positive definite
(with an exact solver and a valid decomposition of `K`), `neg_log_likelihood()` returns
`0.5·(yᵗ·K⁻¹·y + log det K + n·log 2π)`; the diagonal `D` of the decomposition is
positive and `log det K` is the sum of the logarithms of `D`.  With an empty Gram matrix
`neg_log_likelihood()` returns `0`. -/
theorem neg_log_likelihood_spec (E : Env ℝ) (C : CovFunc κ ℝ) (gp : GP κ ℝ)
    (X y : VectorXd ℝ) (hX : X ≠ []) (hy : y.length = X.length)
    (hlog : E.log = Real.log) (hpi : E.M_PI = Real.pi) (hE : E.ExactSolve)
    (hF : E.FactorsAt (gramSpec E C gp.covFunc_ gp.log_noise_sd_ X))
    (hK : (gramSpec E C gp.covFunc_ gp.log_noise_sd_ X).PosDef) :
    (∃ gp1 : GP κ ℝ, gp.inferData E C X y = .ok gp1 ∧
      gp1.neg_log_likelihood E = .ok (0.5 *
        (outputs X y hy ⬝ᵥ (gramSpec E C gp.covFunc_ gp.log_noise_sd_ X)⁻¹ *ᵥ outputs X y hy +
          Real.log (gramSpec E C gp.covFunc_ gp.log_noise_sd_ X).det +
          (X.length : ℝ) * Real.log (2 * Real.pi))) ∧
      (∀ i, 0 < E.ldltVectorD (gramSpec E C gp.covFunc_ gp.log_noise_sd_ X) i) ∧
      Real.log (gramSpec E C gp.covFunc_ gp.log_noise_sd_ X).det =
        ∑ i, Real.log (E.ldltVectorD (gramSpec E C gp.covFunc_ gp.log_noise_sd_ X) i)) ∧
    (∀ gp0 : GP κ ℝ, gp0.gram_matrix_.rows = 0 → gp0.neg_log_likelihood E = .ok 0) := by
  have hpos := vectorD_pos_of_posDef E _ hF hK
  refine ⟨?_, ?_⟩
  · obtain ⟨gp1, hinf, hnll⟩ := neg_log_likelihood_after_infer E C gp X y hX hy hlog hE hF hK
    refine ⟨gp1, hinf, hpi ▸ hnll, hpos, ?_⟩
    rw [det_eq_prod_of_factorsAt E _ hF, Real.log_prod]
    intro i _
    exact (hpos i).ne'
  · intro gp0 h0
    simp [GP.neg_log_likelihood, h0, pure, Except.pure]

theorem posDef_fin_one (A : Matrix (Fin 1) (Fin 1) ℝ) (h : 0 < A 0 0) : A.PosDef := by
  refine ⟨?_, ?_⟩
  · ext i j
    rw [Subsingleton.elim i j]
    simp [Matrix.conjTranspose_apply]
  · intro x hx
    have hx0 : x 0 ≠ 0 := by
      intro h0
      apply hx
      funext i
      rw [Subsingleton.elim i 0]
      simpa using h0
    have : star x ⬝ᵥ A *ᵥ x = x 0 * x 0 * A 0 0 := by
      simp [Matrix.dotProduct, Matrix.mulVec]
      ring
    rw [this]
    exact mul_pos (mul_self_pos.mpr hx0) h

theorem permMatrix_one_eq (n : ℕ) : (1 : Equiv.Perm (Fin n)).permMatrix F = 1 := by
  show (Equiv.toPEquiv (Equiv.refl _)).toMatrix = 1
  rw [Equiv.toPEquiv_refl, PEquiv.toMatrix_refl]

theorem Env.exact_factorsAt_fin_one (exp log : F → F) (pi jitter : F)
    (A : Matrix (Fin 1) (Fin 1) F) : (Env.exact exp log pi jitter).FactorsAt A := by
  refine ⟨1, 1, ?_, ?_, ?_⟩
  · intro i j hij
    exact absurd hij (by rw [Subsingleton.elim i j]; exact lt_irrefl _)
  · intro i
    simp
  · ext i j
    rw [Subsingleton.elim i 0, Subsingleton.elim j 0]
    simp [Env.exact, pivots, permMatrix_one_eq]

/-- Witness of C3. -/
theorem neg_log_likelihood_spec_witness :
    (∃ gp1 : GP ℝ ℝ,
      (GP.ofCovFunc (1 : ℝ)).inferData (Env.exact Real.exp Real.log Real.pi 1e-6) linearKernel
        [1] [2] = .ok gp1 ∧
      gp1.neg_log_likelihood (Env.exact Real.exp Real.log Real.pi 1e-6) = .ok (0.5 *
        (outputs [1] [2] rfl ⬝ᵥ
            (gramSpec (Env.exact Real.exp Real.log Real.pi 1e-6) linearKernel (1 : ℝ) (-1e20)
              [1])⁻¹ *ᵥ outputs [1] [2] rfl +
          Real.log (gramSpec (Env.exact Real.exp Real.log Real.pi 1e-6) linearKernel (1 : ℝ)
            (-1e20) [1]).det +
          (([1] : List ℝ).length : ℝ) * Real.log (2 * Real.pi))) ∧
      (∀ i, 0 < (Env.exact Real.exp Real.log Real.pi 1e-6).ldltVectorD
        (gramSpec (Env.exact Real.exp Real.log Real.pi 1e-6) linearKernel (1 : ℝ) (-1e20) [1]) i) ∧
      Real.log (gramSpec (Env.exact Real.exp Real.log Real.pi 1e-6) linearKernel (1 : ℝ)
          (-1e20) [1]).det =
        ∑ i, Real.log ((Env.exact Real.exp Real.log Real.pi 1e-6).ldltVectorD
          (gramSpec (Env.exact Real.exp Real.log Real.pi 1e-6) linearKernel (1 : ℝ) (-1e20)
            [1]) i)) ∧
    (∀ gp0 : GP ℝ ℝ, gp0.gram_matrix_.rows = 0 →
      gp0.neg_log_likelihood (Env.exact Real.exp Real.log Real.pi 1e-6) = .ok 0) :=
  neg_log_likelihood_spec (Env.exact Real.exp Real.log Real.pi 1e-6) linearKernel
    (GP.ofCovFunc (1 : ℝ)) [1] [2] (by simp) rfl rfl rfl (Env.exact_exactSolve _ _ _ _)
    (Env.exact_factorsAt_fin_one _ _ _ _ _)
    (posDef_fin_one _ (by
      show 0 < (gramSpec (Env.exact Real.exp Real.log Real.pi 1e-6) linearKernel (1 : ℝ)
        (-1e20) [1] : Matrix (Fin 1) (Fin 1) ℝ) (0 : Fin 1) (0 : Fin 1)
      simp [gramSpec, linearKernel, Env.exact]
      positivity))

theorem gradientLoop_length (E : Env F) (gp : GP κ F) :
    ∀ (ds : List (MatrixXd F)) (g : VectorXd F), GP.gradientLoop E gp ds = .ok g →
      g.length = ds.length
  | [], g, h => by
    simp only [GP.gradientLoop, Except.ok.injEq] at h
    simp [← h]
  | D :: rest, g, h => by
    simp only [GP.gradientLoop, bind, Except.bind, pure, Except.pure] at h
    cases hD : GP.gradientEntry E gp D with
    | error e => rw [hD] at h; cases h
    | ok entry =>
      rw [hD] at h
      cases hrest : GP.gradientLoop E gp rest with
      | error e => rw [hrest] at h; cases h
      | ok entries =>
        rw [hrest] at h
        simp only [Except.ok.injEq] at h
        have ih := gradientLoop_length E gp rest entries hrest
        simp [← h, ih]

theorem MatrixXd.dot_ofFn_ofFn {n : ℕ} (f g : Fin n → F) :
    MatrixXd.dot (List.ofFn f) (List.ofFn g) = .ok (f ⬝ᵥ g) := by
  rw [MatrixXd.dot_ofFn _ (List.length_ofFn f)]
  congr 2
  funext i
  simp

theorem gradientEntry_square_ok (E : Env F) (gp : GP κ F) {n : ℕ}
    (A : Matrix (Fin n) (Fin n) F) (a : Fin n → F)
    (hchol : gp.chol_gram_matrix_ = .factored n A) (halpha : gp.alpha_ = List.ofFn a)
    (D : Matrix (Fin n) (Fin n) F) :
    GP.gradientEntry E gp ⟨n, n, D⟩ =
      .ok (-0.5 * ((a ᵥ* D) ⬝ᵥ a - (MatrixXd.mk n n (E.ldltSolve A D)).trace)) := by
  simp only [GP.gradientEntry, hchol, halpha, LDLT.solve_factored, MatrixXd.vecMul,
    MatrixXd.castVec_ofFn, bind, Except.bind, pure, Except.pure]
  rw [MatrixXd.dot_ofFn_ofFn]

theorem gradientLoop_square_ok (E : Env F) (gp : GP κ F) {n : ℕ}
    (A : Matrix (Fin n) (Fin n) F) (a : Fin n → F)
    (hchol : gp.chol_gram_matrix_ = .factored n A) (halpha : gp.alpha_ = List.ofFn a) :
    ∀ Ds : List (Matrix (Fin n) (Fin n) F),
      GP.gradientLoop E gp (Ds.map (fun D => ⟨n, n, D⟩)) =
        .ok (Ds.map (fun D =>
          -0.5 * ((a ᵥ* D) ⬝ᵥ a - (MatrixXd.mk n n (E.ldltSolve A D)).trace)))
  | [] => rfl
  | D :: rest => by
    simp only [List.map_cons, GP.gradientLoop, gradientEntry_square_ok E gp A a hchol halpha,
      gradientLoop_square_ok E gp A a hchol halpha rest, bind, Except.bind, pure, Except.pure]


/-- Jacobi's formula, entrywise: the derivative of the determinant along a path of
matrices whose entries are differentiable is `trace (adjugate K · K')`. -/
theorem hasDerivAt_det {n : ℕ} (K : ℝ → Matrix (Fin n) (Fin n) ℝ)
    (K' : Matrix (Fin n) (Fin n) ℝ) (θ₀ : ℝ)
    (hK : ∀ i j, HasDerivAt (fun θ => K θ i j) (K' i j) θ₀) :
    HasDerivAt (fun θ => (K θ).det) (Matrix.trace ((K θ₀).adjugate * K')) θ₀ := by
  have hterm : ∀ σ : Equiv.Perm (Fin n),
      HasDerivAt (fun θ => ∏ i, K θ (σ i) i)
        (∑ i, (∏ j ∈ Finset.univ.erase i, K θ₀ (σ j) j) * K' (σ i) i) θ₀ := by
    intro σ
    have h : HasDerivAt (fun θ => ∏ i ∈ Finset.univ, (fun i θ => K θ (σ i) i) i θ)
        (∑ i ∈ Finset.univ, (∏ j ∈ Finset.univ.erase i, (fun i θ => K θ (σ i) i) j θ₀) •
          (fun i => K' (σ i) i) i) θ₀ :=
      HasDerivAt.finset_prod (fun i _ => hK (σ i) i)
    simpa [smul_eq_mul] using h
  have hsum : HasDerivAt (fun θ => ∑ σ : Equiv.Perm (Fin n),
        ((Equiv.Perm.sign σ : ℤ) : ℝ) * ∏ i, K θ (σ i) i)
      (∑ σ : Equiv.Perm (Fin n), ((Equiv.Perm.sign σ : ℤ) : ℝ) *
        ∑ i, (∏ j ∈ Finset.univ.erase i, K θ₀ (σ j) j) * K' (σ i) i) θ₀ :=
    HasDerivAt.sum (fun σ _ => (hterm σ).const_mul _)
  have hfun : (fun θ => (K θ).det) = fun θ => ∑ σ : Equiv.Perm (Fin n),
      ((Equiv.Perm.sign σ : ℤ) : ℝ) * ∏ i, K θ (σ i) i := by
    funext θ
    exact Matrix.det_apply' _
  have hval : Matrix.trace ((K θ₀).adjugate * K') =
      ∑ σ : Equiv.Perm (Fin n), ((Equiv.Perm.sign σ : ℤ) : ℝ) *
        ∑ i, (∏ j ∈ Finset.univ.erase i, K θ₀ (σ j) j) * K' (σ i) i := by
    have hcol : ∀ i, ((K θ₀).adjugate * K') i i =
        ∑ σ : Equiv.Perm (Fin n), ((Equiv.Perm.sign σ : ℤ) : ℝ) *
          ((∏ j ∈ Finset.univ.erase i, K θ₀ (σ j) j) * K' (σ i) i) := by
      intro i
      have h1 : ((K θ₀).adjugate * K') i i = ((K θ₀).updateColumn i (fun l => K' l i)).det := by
        rw [← Matrix.cramer_apply, Matrix.cramer_eq_adjugate_mulVec]
        rfl
      rw [h1, Matrix.det_apply']
      refine Finset.sum_congr rfl (fun σ _ => ?_)
      congr 1
      rw [← Finset.prod_erase_mul Finset.univ _ (Finset.mem_univ i)]
      congr 1
      · refine Finset.prod_congr rfl (fun j hj => ?_)
        rw [Matrix.updateColumn_ne (Finset.ne_of_mem_erase hj)]
      · rw [Matrix.updateColumn_self]
    simp only [Matrix.trace, Matrix.diag_apply, hcol]
    rw [Finset.sum_comm]
    refine Finset.sum_congr rfl (fun σ _ => ?_)
    rw [Finset.mul_sum]
  rw [hfun, hval]
  exact hsum

/-- The entries of the inverse along a path of matrices with differentiable entries are
differentiable, with the derivative `-(K⁻¹ · K' · K⁻¹)`. -/
theorem hasDerivAt_inv {n : ℕ} (K : ℝ → Matrix (Fin n) (Fin n) ℝ)
    (K' : Matrix (Fin n) (Fin n) ℝ) (θ₀ : ℝ)
    (hK : ∀ i j, HasDerivAt (fun θ => K θ i j) (K' i j) θ₀) (hdet : (K θ₀).det ≠ 0)
    (i j : Fin n) :
    HasDerivAt (fun θ => (K θ)⁻¹ i j) (-((K θ₀)⁻¹ * K' * (K θ₀)⁻¹) i j) θ₀ := by
  have hd := hasDerivAt_det K K' θ₀ hK
  -- the entries of the adjugate are differentiable
  have hadj : ∀ a b, ∃ d : ℝ, HasDerivAt (fun θ => (K θ).adjugate a b) d θ₀ := by
    intro a b
    have hrow : ∀ r c, HasDerivAt (fun θ => ((K θ).updateRow b (Pi.single a 1)) r c)
        ((K'.updateRow b 0) r c) θ₀ := by
      intro r c
      by_cases hr : r = b
      · subst hr
        simp only [Matrix.updateRow_self, Pi.zero_apply]
        exact hasDerivAt_const _ _
      · simp only [Matrix.updateRow_ne hr]
        exact hK r c
    have h := hasDerivAt_det (fun θ => (K θ).updateRow b (Pi.single a 1)) _ θ₀ hrow
    exact ⟨_, by simpa only [Matrix.adjugate_apply] using h⟩
  -- hence so are the entries of the inverse
  have hinv : ∀ a b, ∃ d : ℝ, HasDerivAt (fun θ => (K θ)⁻¹ a b) d θ₀ := by
    intro a b
    obtain ⟨d, hd'⟩ := hadj a b
    have h := (hd.inv hdet).mul hd'
    have hfun : (fun θ => (K θ)⁻¹ a b) = fun θ => ((K θ).det)⁻¹ * (K θ).adjugate a b := by
      funext θ
      rw [Matrix.inv_def, Ring.inverse_eq_inv', Matrix.smul_apply, smul_eq_mul]
    rw [hfun]
    exact ⟨_, h⟩
  choose N' hN' using hinv
  -- the product with the inverse is eventually the identity
  have hev : ∀ᶠ θ in nhds θ₀, (K θ).det ≠ 0 :=
    hd.continuousAt.eventually_ne hdet
  have hprod : ∀ a b, HasDerivAt (fun θ => ∑ l, K θ a l * (K θ)⁻¹ l b)
      (∑ l, (K' a l * (K θ₀)⁻¹ l b + K θ₀ a l * N' l b)) θ₀ := by
    intro a b
    exact HasDerivAt.sum (fun l _ => (hK a l).mul (hN' l b))
  have hzero : ∀ a b, ∑ l, (K' a l * (K θ₀)⁻¹ l b + K θ₀ a l * N' l b) = 0 := by
    intro a b
    have hconst : HasDerivAt (fun θ => ∑ l, K θ a l * (K θ)⁻¹ l b) 0 θ₀ := by
      have : (fun θ => ∑ l, K θ a l * (K θ)⁻¹ l b) =ᶠ[nhds θ₀]
          fun _ => (1 : Matrix (Fin n) (Fin n) ℝ) a b := by
        filter_upwards [hev] with θ hθ
        rw [← Matrix.mul_apply, Matrix.mul_nonsing_inv _ (isUnit_iff_ne_zero.mpr hθ)]
      exact (hasDerivAt_const θ₀ _).congr_of_eventuallyEq this
    exact (hprod a b).unique hconst
  have hmat : K' * (K θ₀)⁻¹ + K θ₀ * Matrix.of N' = 0 := by
    ext a b
    simp only [Matrix.add_apply, Matrix.mul_apply, Matrix.of_apply, Matrix.zero_apply,
      ← Finset.sum_add_distrib]
    exact hzero a b
  have hN : Matrix.of N' = -((K θ₀)⁻¹ * K' * (K θ₀)⁻¹) := by
    have h1 : K θ₀ * Matrix.of N' = -(K' * (K θ₀)⁻¹) := by
      rw [eq_neg_iff_add_eq_zero, add_comm]
      exact hmat
    have h2 : (K θ₀)⁻¹ * (K θ₀ * Matrix.of N') = (K θ₀)⁻¹ * -(K' * (K θ₀)⁻¹) := by rw [h1]
    rw [← Matrix.mul_assoc, Matrix.nonsing_inv_mul _ (isUnit_iff_ne_zero.mpr hdet),
      Matrix.one_mul, Matrix.mul_neg, ← Matrix.mul_assoc] at h2
    exact h2
  have := hN' i j
  have hij : N' i j = (-((K θ₀)⁻¹ * K' * (K θ₀)⁻¹)) i j := by
    rw [← hN]
    rfl
  rw [hij] at this
  exact this

/-- The derivative of `θ ↦ 0.5·(yᵗ·K(θ)⁻¹·y + log det K(θ) + c)` along a path of matrices
with differentiable entries, symmetric with positive determinant at `θ₀`:
`-0.5·(αᵗ·K'·α − trace(K⁻¹·K'))` with `α = K⁻¹·y`. -/
theorem hasDerivAt_nllFormula {n : ℕ} (K : ℝ → Matrix (Fin n) (Fin n) ℝ)
    (K' : Matrix (Fin n) (Fin n) ℝ) (θ₀ : ℝ)
    (hK : ∀ i j, HasDerivAt (fun θ => K θ i j) (K' i j) θ₀) (hdet : 0 < (K θ₀).det)
    (hsymm : (K θ₀)ᵀ = K θ₀) (y : Fin n → ℝ) (c : ℝ) :
    HasDerivAt (fun θ => 0.5 * (y ⬝ᵥ (K θ)⁻¹ *ᵥ y + Real.log (K θ).det + c))
      (-0.5 * ((((K θ₀)⁻¹ *ᵥ y) ᵥ* K') ⬝ᵥ ((K θ₀)⁻¹ *ᵥ y) - Matrix.trace ((K θ₀)⁻¹ * K')))
      θ₀ := by
  have hne : (K θ₀).det ≠ 0 := hdet.ne'
  have hquad : HasDerivAt (fun θ => y ⬝ᵥ (K θ)⁻¹ *ᵥ y)
      (-(y ⬝ᵥ ((K θ₀)⁻¹ * K' * (K θ₀)⁻¹) *ᵥ y)) θ₀ := by
    have h : HasDerivAt (fun θ => ∑ i, y i * ∑ j, (K θ)⁻¹ i j * y j)
        (∑ i, y i * ∑ j, (-((K θ₀)⁻¹ * K' * (K θ₀)⁻¹) i j) * y j) θ₀ :=
      HasDerivAt.sum (fun i _ => (HasDerivAt.sum
        (fun j _ => (hasDerivAt_inv K K' θ₀ hK hne i j).mul_const (y j))).const_mul (y i))
    have hval : ∑ i, y i * ∑ j, (-((K θ₀)⁻¹ * K' * (K θ₀)⁻¹) i j) * y j =
        -(y ⬝ᵥ ((K θ₀)⁻¹ * K' * (K θ₀)⁻¹) *ᵥ y) := by
      simp only [Matrix.dotProduct, Matrix.mulVec, neg_mul, Finset.sum_neg_distrib, mul_neg]
    rw [← hval]
    exact h
  have hlog : HasDerivAt (fun θ => Real.log (K θ).det) (Matrix.trace ((K θ₀)⁻¹ * K')) θ₀ := by
    have h := (hasDerivAt_det K K' θ₀ hK).log hne
    have hval : Matrix.trace ((K θ₀).adjugate * K') / (K θ₀).det =
        Matrix.trace ((K θ₀)⁻¹ * K') := by
      rw [Matrix.inv_def, Ring.inverse_eq_inv', Matrix.smul_mul, Matrix.trace_smul,
        smul_eq_mul, div_eq_inv_mul]
    rw [← hval]
    exact h
  have hinvsymm : ((K θ₀)⁻¹)ᵀ = (K θ₀)⁻¹ := by
    rw [Matrix.transpose_nonsing_inv, hsymm]
  have hα : (((K θ₀)⁻¹ *ᵥ y) ᵥ* K') ⬝ᵥ ((K θ₀)⁻¹ *ᵥ y) =
      y ⬝ᵥ ((K θ₀)⁻¹ * K' * (K θ₀)⁻¹) *ᵥ y := by
    have h1 : (K θ₀)⁻¹ *ᵥ y = y ᵥ* (K θ₀)⁻¹ := by
      rw [← Matrix.vecMul_transpose, hinvsymm]
    conv_lhs => rw [h1, Matrix.vecMul_vecMul, ← h1, ← Matrix.dotProduct_mulVec,
      Matrix.mulVec_mulVec]
  have h := ((hquad.add hlog).add_const c).const_mul (0.5 : ℝ)
  rw [hα]
  convert h using 1
  ring

theorem quadratic_lower_bound {n : ℕ} (A : Matrix (Fin n) (Fin n) ℝ) (hA : A.PosDef) :
    ∃ c : ℝ, 0 < c ∧ ∀ x : Fin n → ℝ, c * ‖x‖ ^ 2 ≤ x ⬝ᵥ A *ᵥ x := by
  have hscale : ∀ (r : ℝ) (u : Fin n → ℝ), (r • u) ⬝ᵥ A *ᵥ (r • u) = r ^ 2 * (u ⬝ᵥ A *ᵥ u) := by
    intro r u
    rw [Matrix.mulVec_smul, Matrix.dotProduct_smul, Matrix.smul_dotProduct]
    simp only [smul_eq_mul]
    ring
  by_cases hne : (Metric.sphere (0 : Fin n → ℝ) 1).Nonempty
  · have hcont : ContinuousOn (fun x : Fin n → ℝ => x ⬝ᵥ A *ᵥ x)
        (Metric.sphere (0 : Fin n → ℝ) 1) :=
      (Continuous.matrix_dotProduct continuous_id
        (Continuous.matrix_mulVec continuous_const continuous_id)).continuousOn
    obtain ⟨x₀, hx₀, hmin⟩ := (isCompact_sphere (0 : Fin n → ℝ) 1).exists_isMinOn hne hcont
    have hx₀ne : x₀ ≠ 0 := by
      intro h0
      rw [h0, mem_sphere_zero_iff_norm, norm_zero] at hx₀
      exact zero_ne_one hx₀
    refine ⟨x₀ ⬝ᵥ A *ᵥ x₀, by simpa using hA.2 x₀ hx₀ne, ?_⟩
    intro x
    by_cases hx : x = 0
    · simp [hx]
    · have hnx : ‖x‖ ≠ 0 := norm_ne_zero_iff.mpr hx
      have hu : ‖x‖⁻¹ • x ∈ Metric.sphere (0 : Fin n → ℝ) 1 := by
        rw [mem_sphere_zero_iff_norm, norm_smul, norm_inv, norm_norm, inv_mul_cancel₀ hnx]
      have hle : x₀ ⬝ᵥ A *ᵥ x₀ ≤ (‖x‖⁻¹ • x) ⬝ᵥ A *ᵥ (‖x‖⁻¹ • x) := hmin hu
      have hx' : x = ‖x‖ • (‖x‖⁻¹ • x) := by
        rw [smul_smul, mul_inv_cancel₀ hnx, one_smul]
      have hval : x ⬝ᵥ A *ᵥ x = ‖x‖ ^ 2 * ((‖x‖⁻¹ • x) ⬝ᵥ A *ᵥ (‖x‖⁻¹ • x)) := by
        conv_lhs => rw [hx']
        exact hscale _ _
      rw [hval, mul_comm]
      exact mul_le_mul_of_nonneg_left hle (sq_nonneg _)
  · refine ⟨1, one_pos, ?_⟩
    intro x
    have hx : x = 0 := by
      by_contra hx
      have hnx : ‖x‖ ≠ 0 := norm_ne_zero_iff.mpr hx
      apply hne
      refine ⟨‖x‖⁻¹ • x, ?_⟩
      rw [mem_sphere_zero_iff_norm, norm_smul, norm_inv, norm_norm, inv_mul_cancel₀ hnx]
    simp [hx]

theorem quadratic_abs_le {n : ℕ} (D : Matrix (Fin n) (Fin n) ℝ) (x : Fin n → ℝ) :
    |x ⬝ᵥ D *ᵥ x| ≤ ‖x‖ ^ 2 * ∑ i, ∑ j, |D i j| := by
  have h1 : x ⬝ᵥ D *ᵥ x = ∑ i, ∑ j, x i * (D i j * x j) := by
    simp only [Matrix.dotProduct, Matrix.mulVec, Finset.mul_sum]
  rw [h1, Finset.mul_sum]
  refine (Finset.abs_sum_le_sum_abs _ _).trans (Finset.sum_le_sum (fun i _ => ?_))
  rw [Finset.mul_sum]
  refine (Finset.abs_sum_le_sum_abs _ _).trans (Finset.sum_le_sum (fun j _ => ?_))
  rw [abs_mul, abs_mul]
  have hi : |x i| ≤ ‖x‖ := norm_le_pi_norm x i
  have hj : |x j| ≤ ‖x‖ := norm_le_pi_norm x j
  calc |x i| * (|D i j| * |x j|) = |D i j| * (|x i| * |x j|) := by ring
    _ ≤ |D i j| * (‖x‖ * ‖x‖) :=
        mul_le_mul_of_nonneg_left (mul_le_mul hi hj (abs_nonneg _) (norm_nonneg _))
          (abs_nonneg _)
    _ = ‖x‖ ^ 2 * |D i j| := by ring

/-- Positive definiteness persists along a path of symmetric matrices whose entries are
continuous at `θ₀`. -/
theorem eventually_posDef {n : ℕ} (K : ℝ → Matrix (Fin n) (Fin n) ℝ) (θ₀ : ℝ)
    (hcont : ∀ i j, ContinuousAt (fun θ => K θ i j) θ₀)
    (hsymm : ∀ᶠ θ in nhds θ₀, (K θ)ᵀ = K θ) (hpd : (K θ₀).PosDef) :
    ∀ᶠ θ in nhds θ₀, (K θ).PosDef := by
  obtain ⟨c, hc, hbound⟩ := quadratic_lower_bound (K θ₀) hpd
  have htend : Filter.Tendsto (fun θ => ∑ i, ∑ j, |K θ i j - K θ₀ i j|) (nhds θ₀) (nhds 0) := by
    have h : Filter.Tendsto (fun θ => ∑ i, ∑ j, |K θ i j - K θ₀ i j|) (nhds θ₀)
        (nhds (∑ i : Fin n, ∑ j : Fin n, |K θ₀ i j - K θ₀ i j|)) :=
      tendsto_finset_sum _ (fun i _ => tendsto_finset_sum _ (fun j _ =>
        ((hcont i j).tendsto.sub_const _).abs))
    simpa using h
  have hsmall : ∀ᶠ θ in nhds θ₀, ∑ i, ∑ j, |K θ i j - K θ₀ i j| < c :=
    htend.eventually (gt_mem_nhds hc)
  filter_upwards [hsymm, hsmall] with θ hθs hθc
  refine ⟨?_, ?_⟩
  · rw [Matrix.IsHermitian, Matrix.conjTranspose_eq_transpose_of_trivial]
    exact hθs
  · intro x hx
    have hnx : 0 < ‖x‖ := norm_pos_iff.mpr hx
    have hsplit : x ⬝ᵥ K θ *ᵥ x = x ⬝ᵥ K θ₀ *ᵥ x + x ⬝ᵥ (K θ - K θ₀) *ᵥ x := by
      rw [← Matrix.dotProduct_add, ← Matrix.add_mulVec, add_sub_cancel]
    have habs := quadratic_abs_le (K θ - K θ₀) x
    have hlow : -(‖x‖ ^ 2 * ∑ i, ∑ j, |K θ i j - K θ₀ i j|) ≤ x ⬝ᵥ (K θ - K θ₀) *ᵥ x := by
      have := neg_abs_le (x ⬝ᵥ (K θ - K θ₀) *ᵥ x)
      have h2 : ∑ i, ∑ j, |(K θ - K θ₀) i j| = ∑ i, ∑ j, |K θ i j - K θ₀ i j| := rfl
      rw [h2] at habs
      linarith
    have hpos : 0 < ‖x‖ ^ 2 * (c - ∑ i, ∑ j, |K θ i j - K θ₀ i j|) :=
      mul_pos (pow_pos hnx 2) (sub_pos.mpr hθc)
    have hb := hbound x
    simp only [star_trivial]
    rw [hsplit]
    nlinarith

theorem MatrixXd.trace_mk {n : ℕ} (M : Matrix (Fin n) (Fin n) F) :
    (MatrixXd.mk n n M).trace = Matrix.trace M := by
  simp only [MatrixXd.trace, Matrix.trace, Matrix.diag_apply]
  exact Fintype.sum_equiv (finCongr (Nat.min_self n)) _ _ (fun i => rfl)

/-- The value of `neg_log_likelihood()` after `infer(X, y)` along a path of regressor
states: if the entries of the Gram matrix have the derivative `K'` at `θ₀`, the Gram
matrices near `θ₀` are symmetric and the one at `θ₀` is positive definite, then the value
has the derivative `-0.5·(αᵗ·K'·α − trace(K⁻¹·K'))` at `θ₀`. -/
theorem hasDerivAt_nllValue (E : Env ℝ) (C : CovFunc κ ℝ) (X y : VectorXd ℝ) (hX : X ≠ [])
    (hy : y.length = X.length) (hlog : E.log = Real.log) (hE : E.ExactSolve)
    (hF : ∀ A : Matrix (Fin X.length) (Fin X.length) ℝ, A.PosDef → E.FactorsAt A)
    (G : ℝ → GP κ ℝ) (θ₀ : ℝ) (K' : Matrix (Fin X.length) (Fin X.length) ℝ)
    (hK' : ∀ i j, HasDerivAt
      (fun θ => gramSpec E C (G θ).covFunc_ (G θ).log_noise_sd_ X i j) (K' i j) θ₀)
    (hsymm : ∀ᶠ θ in nhds θ₀, (gramSpec E C (G θ).covFunc_ (G θ).log_noise_sd_ X)ᵀ =
      gramSpec E C (G θ).covFunc_ (G θ).log_noise_sd_ X)
    (hpd : (gramSpec E C (G θ₀).covFunc_ (G θ₀).log_noise_sd_ X).PosDef) :
    HasDerivAt (fun θ => nllValue E C (G θ) X y)
      (-0.5 * ((((gramSpec E C (G θ₀).covFunc_ (G θ₀).log_noise_sd_ X)⁻¹ *ᵥ outputs X y hy) ᵥ*
            K') ⬝ᵥ
          ((gramSpec E C (G θ₀).covFunc_ (G θ₀).log_noise_sd_ X)⁻¹ *ᵥ outputs X y hy) -
        Matrix.trace ((gramSpec E C (G θ₀).covFunc_ (G θ₀).log_noise_sd_ X)⁻¹ * K'))) θ₀ := by
  have hev := eventually_posDef
    (fun θ => gramSpec E C (G θ).covFunc_ (G θ).log_noise_sd_ X) θ₀
    (fun i j => (hK' i j).continuousAt) hsymm hpd
  have hformula := hasDerivAt_nllFormula
    (fun θ => gramSpec E C (G θ).covFunc_ (G θ).log_noise_sd_ X) K' θ₀ hK' hpd.det_pos
    (by
      have := hpd.isHermitian
      rwa [Matrix.IsHermitian, Matrix.conjTranspose_eq_transpose_of_trivial] at this)
    (outputs X y hy) ((X.length : ℝ) * Real.log (2 * E.M_PI))
  refine hformula.congr_of_eventuallyEq ?_
  filter_upwards [hev] with θ hθ
  obtain ⟨gp1, hinf, hnll⟩ :=
    neg_log_likelihood_after_infer E C (G θ) X y hX hy hlog hE (hF _ hθ) hθ
  simp only [nllValue, hinf, bind, Except.bind, hnll]

theorem gramSpec_transpose (E : Env F) (C : CovFunc κ F) (k : κ) (s : F) (X : VectorXd F)
    (h : ((C.evaluate k X X).1)ᵀ = (C.evaluate k X X).1) :
    (gramSpec E C k s X)ᵀ = gramSpec E C k s X := by
  simp only [gramSpec, Matrix.transpose_add, Matrix.transpose_smul, Matrix.transpose_one, h]

/-- C4. For a regressor trained on `(X, y)` with positive-definite Gram matrix `K` (real
scalars, exact solver, valid decompositions of positive-definite matrices):
`neg_log_likelihood_gradient()` returns the entries `−0.5·(αᵗ·D·α − trace(K⁻¹·D))`, for
`D = 2·exp(2·log_noise_sd)·I` first and then for the derivative matrices `D` returned by
the kernel.  The first entry is the derivative of the value of `neg_log_likelihood()` in
`log_noise_sd`; the entry of a kernel derivative `D` is the derivative of that value
along every path of kernels through the current one along which `k(X,X)` stays symmetric
and has the entrywise derivative `D`. -/
theorem neg_log_likelihood_gradient_spec (E : Env ℝ) (C : CovFunc κ ℝ) (gp : GP κ ℝ)
    (X y : VectorXd ℝ) (hX : X ≠ []) (hy : y.length = X.length)
    (hexp : E.exp = Real.exp) (hlog : E.log = Real.log) (hE : E.ExactSolve)
    (hF : ∀ A : Matrix (Fin X.length) (Fin X.length) ℝ, A.PosDef → E.FactorsAt A)
    (hpd : (gramSpec E C gp.covFunc_ gp.log_noise_sd_ X).PosDef) :
    ∃ (gp1 : GP κ ℝ) (g : VectorXd ℝ), gp.inferData E C X y = .ok gp1 ∧
      gp1.neg_log_likelihood_gradient E = .ok g ∧
      g = ((2 * Real.exp (2 * gp.log_noise_sd_)) • (1 : Matrix _ _ ℝ) ::
          (C.evaluate gp.covFunc_ X X).2).map (fun D =>
        -0.5 * ((((gramSpec E C gp.covFunc_ gp.log_noise_sd_ X)⁻¹ *ᵥ outputs X y hy) ᵥ* D) ⬝ᵥ
            ((gramSpec E C gp.covFunc_ gp.log_noise_sd_ X)⁻¹ *ᵥ outputs X y hy) -
          Matrix.trace ((gramSpec E C gp.covFunc_ gp.log_noise_sd_ X)⁻¹ * D))) ∧
      HasDerivAt (fun s => nllValue E C { gp with log_noise_sd_ := s } X y)
        (-0.5 * ((((gramSpec E C gp.covFunc_ gp.log_noise_sd_ X)⁻¹ *ᵥ outputs X y hy) ᵥ*
              ((2 * Real.exp (2 * gp.log_noise_sd_)) • (1 : Matrix _ _ ℝ))) ⬝ᵥ
            ((gramSpec E C gp.covFunc_ gp.log_noise_sd_ X)⁻¹ *ᵥ outputs X y hy) -
          Matrix.trace ((gramSpec E C gp.covFunc_ gp.log_noise_sd_ X)⁻¹ *
            ((2 * Real.exp (2 * gp.log_noise_sd_)) • (1 : Matrix _ _ ℝ)))))
        gp.log_noise_sd_ ∧
      ∀ D ∈ (C.evaluate gp.covFunc_ X X).2, ∀ (path : ℝ → κ) (θ₀ : ℝ),
        path θ₀ = gp.covFunc_ →
        (∀ a b, HasDerivAt (fun θ => (C.evaluate (path θ) X X).1 a b) (D a b) θ₀) →
        (∀ᶠ θ in nhds θ₀, ((C.evaluate (path θ) X X).1)ᵀ = (C.evaluate (path θ) X X).1) →
        HasDerivAt (fun θ => nllValue E C { gp with covFunc_ := path θ } X y)
          (-0.5 * ((((gramSpec E C gp.covFunc_ gp.log_noise_sd_ X)⁻¹ *ᵥ outputs X y hy) ᵥ*
                D) ⬝ᵥ
              ((gramSpec E C gp.covFunc_ gp.log_noise_sd_ X)⁻¹ *ᵥ outputs X y hy) -
            Matrix.trace ((gramSpec E C gp.covFunc_ gp.log_noise_sd_ X)⁻¹ * D))) θ₀ := by
  have hunit : IsUnit (gramSpec E C gp.covFunc_ gp.log_noise_sd_ X).det :=
    (Matrix.isUnit_iff_isUnit_det _).mp hpd.isUnit
  have hKsymm : (gramSpec E C gp.covFunc_ gp.log_noise_sd_ X)ᵀ =
      gramSpec E C gp.covFunc_ gp.log_noise_sd_ X := by
    have := hpd.isHermitian
    rwa [Matrix.IsHermitian, Matrix.conjTranspose_eq_transpose_of_trivial] at this
  have hCsymm : ((C.evaluate gp.covFunc_ X X).1)ᵀ = (C.evaluate gp.covFunc_ X X).1 := by
    have h : (C.evaluate gp.covFunc_ X X).1 = gramSpec E C gp.covFunc_ gp.log_noise_sd_ X -
        (E.exp (2 * gp.log_noise_sd_) + E.JITTER) • (1 : Matrix _ _ ℝ) := by
      simp [gramSpec]
    rw [h, Matrix.transpose_sub, hKsymm, Matrix.transpose_smul, Matrix.transpose_one]
  obtain ⟨gp1, hinf, -, -, -, -, -, -, hchol, halpha, hder⟩ := inferData_ok E C gp X y hX hy
  have hloop := gradientLoop_square_ok E gp1 _ _ hchol halpha
    ((2 * E.exp (2 * gp.log_noise_sd_)) • (1 : Matrix _ _ ℝ) :: (C.evaluate gp.covFunc_ X X).2)
  rw [List.map_cons, ← hder] at hloop
  refine ⟨gp1, _, hinf, hloop, ?_, ?_, ?_⟩
  · simp only [hE _ _ _ _ hunit, col_solve_eq_mulVec, MatrixXd.trace_mk, hexp]
  · have h := hasDerivAt_nllValue E C X y hX hy hlog hE hF
      (fun s => { gp with log_noise_sd_ := s }) gp.log_noise_sd_
      ((2 * Real.exp (2 * gp.log_noise_sd_)) • (1 : Matrix _ _ ℝ))
      (by
        intro i j
        simp only [gramSpec, hexp, Matrix.add_apply, Matrix.smul_apply, smul_eq_mul]
        have h1 : HasDerivAt (fun s : ℝ => Real.exp (2 * s)) (Real.exp (2 * gp.log_noise_sd_) * 2)
            gp.log_noise_sd_ := by
          have := (hasDerivAt_id gp.log_noise_sd_).const_mul (2 : ℝ)
          simpa using this.exp
        have h2 := ((h1.add_const E.JITTER).mul_const
          ((1 : Matrix (Fin X.length) (Fin X.length) ℝ) i j)).const_add
          ((C.evaluate gp.covFunc_ X X).1 i j)
        convert h2 using 1
        ring)
      (Filter.Eventually.of_forall (fun s => gramSpec_transpose E C _ _ X hCsymm)) hpd
    exact h
  · intro D _ path θ₀ hpath hD hsymm
    have hpd' : (gramSpec E C ({ gp with covFunc_ := path θ₀ } : GP κ ℝ).covFunc_
        ({ gp with covFunc_ := path θ₀ } : GP κ ℝ).log_noise_sd_ X).PosDef := by
      show (gramSpec E C (path θ₀) gp.log_noise_sd_ X).PosDef
      rw [hpath]
      exact hpd
    have h := hasDerivAt_nllValue E C X y hX hy hlog hE hF
      (fun θ => { gp with covFunc_ := path θ }) θ₀ D
      (by
        intro i j
        simp only [gramSpec, Matrix.add_apply]
        have h2 := (hD i j).add_const
          (((E.exp (2 * gp.log_noise_sd_) + E.JITTER) •
            (1 : Matrix (Fin X.length) (Fin X.length) ℝ)) i j)
        exact h2)
      (hsymm.mono (fun θ hθ => gramSpec_transpose E C _ _ X hθ)) hpd'
    simp only [hpath] at h
    exact h

theorem transpose_fin_one (A : Matrix (Fin 1) (Fin 1) ℝ) : Aᵀ = A := by
  ext a b
  rw [Matrix.transpose_apply, Subsingleton.elim a b]

/-- Witness of C4: the linear kernel with weight `1`, trained on one point; the path of
kernels is the weight itself. -/
theorem neg_log_likelihood_gradient_spec_witness :
    ∃ (gp1 : GP ℝ ℝ) (g : VectorXd ℝ) (d0 d1 : ℝ),
      (GP.ofCovFunc (1 : ℝ)).inferData (Env.exact Real.exp Real.log Real.pi 1e-6) linearKernel
        [1] [2] = .ok gp1 ∧
      gp1.neg_log_likelihood_gradient (Env.exact Real.exp Real.log Real.pi 1e-6) = .ok g ∧
      g = [d0, d1] ∧
      HasDerivAt (fun s => nllValue (Env.exact Real.exp Real.log Real.pi 1e-6) linearKernel
        { (GP.ofCovFunc (1 : ℝ) : GP ℝ ℝ) with log_noise_sd_ := s } [1] [2]) d0 (-1e20) ∧
      HasDerivAt (fun w => nllValue (Env.exact Real.exp Real.log Real.pi 1e-6) linearKernel
        { (GP.ofCovFunc (1 : ℝ) : GP ℝ ℝ) with covFunc_ := w } [1] [2]) d1 1 := by
  obtain ⟨gp1, g, hinf, hgrad, hg, h0, h1⟩ := neg_log_likelihood_gradient_spec
    (Env.exact Real.exp Real.log Real.pi 1e-6) linearKernel (GP.ofCovFunc (1 : ℝ)) [1] [2]
    (by simp) rfl rfl rfl (Env.exact_exactSolve _ _ _ _)
    (fun A _ => Env.exact_factorsAt_fin_one _ _ _ _ A)
    (posDef_fin_one _ (by
      show 0 < (gramSpec (Env.exact Real.exp Real.log Real.pi 1e-6) linearKernel (1 : ℝ)
        (-1e20) [1] : Matrix (Fin 1) (Fin 1) ℝ) (0 : Fin 1) (0 : Fin 1)
      simp [gramSpec, linearKernel, Env.exact]
      positivity))
  have h1' := h1 (fun i j => ([1] : List ℝ).get i * ([1] : List ℝ).get j)
    (List.mem_singleton.mpr rfl) (fun w => w) 1 rfl
    (by
      intro a b
      have h := ((hasDerivAt_id (1 : ℝ)).mul_const (([1] : List ℝ).get a)).mul_const
        (([1] : List ℝ).get b)
      simpa [linearKernel] using h)
    (Filter.Eventually.of_forall (fun w => transpose_fin_one _))
  exact ⟨gp1, g, _, _, hinf, hgrad, hg, h0, h1'⟩

/-- C5, counterexample. On a freshly constructed regressor with the linear kernel (one
kernel parameter) the gradient is the empty vector, while `getHyperParameters()` has two
entries. -/
theorem gradient_length_counterexample :
    (GP.ofCovFunc (1 : ℝ)).neg_log_likelihood_gradient
        (Env.exact Real.exp Real.log Real.pi 1e-6) = .ok [] ∧
      (GP.ofCovFunc (1 : ℝ)).getHyperParameters linearKernel = .ok [-1e20, 1] ∧
      ([] : List ℝ).length ≠
        linearKernel.getParameterCount (1 : ℝ) + linearKernel.getExtraParameterCount (1 : ℝ) + 1 := by
  refine ⟨rfl, ?_, ?_⟩
  · simp [GP.getHyperParameters, GP.ofCovFunc, linearKernel]
  · simp [linearKernel]

/-- C5, amended. The gradient has one entry per stored derivative of the Gram matrix: it
is empty on a freshly constructed regressor, and after `infer(X, y)` it has one entry for
the noise and one per derivative matrix returned by the kernel, none for the extra
parameters; so when the kernel returns one derivative per kernel parameter, the vector of
`getHyperParameters()` is longer by `extraParamCount`. -/
theorem gradient_length (E : Env F) (C : CovFunc κ F) (gp : GP κ F) (X y : VectorXd F)
    (hX : X ≠ []) (hy : y.length = X.length) :
    (∀ k : κ, (GP.ofCovFunc k : GP κ F).neg_log_likelihood_gradient E = .ok []) ∧
    (∀ (gp0 : GP κ F) (g : VectorXd F), gp0.neg_log_likelihood_gradient E = .ok g →
      g.length = gp0.gram_matrix_derivatives_.length) ∧
    ∃ (gp1 : GP κ F) (g : VectorXd F), gp.inferData E C X y = .ok gp1 ∧
      gp1.neg_log_likelihood_gradient E = .ok g ∧
      g.length = (C.evaluate gp.covFunc_ X X).2.length + 1 ∧
      ((C.evaluate gp.covFunc_ X X).2.length = C.getParameterCount gp.covFunc_ →
        ∀ h : VectorXd F, gp1.getHyperParameters C = .ok h →
          h.length = g.length + C.getExtraParameterCount gp.covFunc_) := by
  refine ⟨fun _ => rfl, fun gp0 g hg => gradientLoop_length E gp0 _ g hg, ?_⟩
  obtain ⟨gp1, hinf, hcov, -, -, -, -, -, hchol, halpha, hder⟩ := inferData_ok E C gp X y hX hy
  have hloop := gradientLoop_square_ok E gp1 _ _ hchol halpha
    ((2 * E.exp (2 * gp.log_noise_sd_)) • (1 : Matrix _ _ F) :: (C.evaluate gp.covFunc_ X X).2)
  rw [List.map_cons, ← hder] at hloop
  refine ⟨gp1, _, hinf, hloop, by simp, ?_⟩
  intro hcount h hh
  simp only [GP.getHyperParameters, hcov] at hh
  split at hh
  · rename_i hlen
    simp only [Except.ok.injEq] at hh
    rw [← hh, hlen]
    simp [hcount]
    ring
  · cases hh

/-- Witness of C5 (amended). -/
theorem gradient_length_witness :
    (∀ k : ℝ, (GP.ofCovFunc k : GP ℝ ℝ).neg_log_likelihood_gradient
      (Env.exact Real.exp Real.log Real.pi 1e-6) = .ok []) ∧
    (∀ (gp0 : GP ℝ ℝ) (g : VectorXd ℝ),
      gp0.neg_log_likelihood_gradient (Env.exact Real.exp Real.log Real.pi 1e-6) = .ok g →
      g.length = gp0.gram_matrix_derivatives_.length) ∧
    ∃ (gp1 : GP ℝ ℝ) (g : VectorXd ℝ),
      (GP.ofCovFunc (1 : ℝ)).inferData (Env.exact Real.exp Real.log Real.pi 1e-6) linearKernel
        [1] [2] = .ok gp1 ∧
      gp1.neg_log_likelihood_gradient (Env.exact Real.exp Real.log Real.pi 1e-6) = .ok g ∧
      g.length = (linearKernel.evaluate (1 : ℝ) [1] [1]).2.length + 1 ∧
      ((linearKernel.evaluate (1 : ℝ) [1] [1]).2.length = linearKernel.getParameterCount (1 : ℝ) →
        ∀ h : VectorXd ℝ, gp1.getHyperParameters linearKernel = .ok h →
          h.length = g.length + linearKernel.getExtraParameterCount (1 : ℝ)) :=
  gradient_length (Env.exact Real.exp Real.log Real.pi 1e-6) linearKernel
    (GP.ofCovFunc (1 : ℝ)) [1] [2] (by simp) rfl

/-- The method `infer()` succeeds on every state whose training vectors are non-empty and
of equal length; it keeps the kernel and the noise. -/
theorem infer_ok (E : Env F) (C : CovFunc κ F) (gp : GP κ F)
    (hX : gp.data_loc_ ≠ []) (hy : gp.data_out_.length = gp.data_loc_.length) :
    ∃ gp1 : GP κ F, gp.infer E C = .ok gp1 ∧ gp1.covFunc_ = gp.covFunc_ ∧
      gp1.log_noise_sd_ = gp.log_noise_sd_ := by
  obtain ⟨gp1, h, hc, -, -, hs, -⟩ := inferData_ok E C gp gp.data_loc_ gp.data_out_ hX hy
  exact ⟨gp1, h, hc, hs⟩

/-- C6. For a kernel whose accessors round-trip and a vector `v` of length
`kernelParamCount + extraParamCount + 1`, `setHyperParameters(v)` succeeds and stores
`v[0]` as `log_noise_sd_`, the next `kernelParamCount` entries as kernel parameters and
the last `extraParamCount` entries as extra parameters; `getHyperParameters()` then
returns `v`.  Whatever `getHyperParameters()` returns has length
`kernelParamCount + extraParamCount + 1`. -/
theorem getHyperParameters_setHyperParameters (E : Env F) (C : CovFunc κ F) (gp : GP κ F)
    (v : VectorXd F) (hC : C.RoundTrip)
    (hv : v.length =
      C.getParameterCount gp.covFunc_ + C.getExtraParameterCount gp.covFunc_ + 1)
    (hdata : gp.data_out_.length = gp.data_loc_.length) :
    (∃ gp2 : GP κ F, gp.setHyperParameters E C v = .ok gp2 ∧
      gp2.getHyperParameters C = .ok v ∧
      gp2.log_noise_sd_ = v.get ⟨0, by omega⟩ ∧
      C.getParameters gp2.covFunc_ = (v.drop 1).take (C.getParameterCount gp.covFunc_) ∧
      C.getExtraParameters gp2.covFunc_ = v.drop (1 + C.getParameterCount gp.covFunc_) ∧
      C.getParameterCount gp2.covFunc_ = C.getParameterCount gp.covFunc_ ∧
      C.getExtraParameterCount gp2.covFunc_ = C.getExtraParameterCount gp.covFunc_) ∧
    (∀ (gp0 : GP κ F) (h : VectorXd F), gp0.getHyperParameters C = .ok h →
      h.length =
        C.getParameterCount gp0.covFunc_ + C.getExtraParameterCount gp0.covFunc_ + 1) := by
  refine ⟨?_, ?_⟩
  · have hlen1 : ((v.drop 1).take (C.getParameterCount gp.covFunc_)).length =
        C.getParameterCount gp.covFunc_ := by
      simp [List.length_take, List.length_drop]; omega
    have hec1 : C.getExtraParameterCount (C.setParameters gp.covFunc_
        ((v.drop 1).take (C.getParameterCount gp.covFunc_))) =
        C.getExtraParameterCount gp.covFunc_ := hC.getExtraParameterCount_setParameters _ _
    have hdrop : v.length - C.getExtraParameterCount (C.setParameters gp.covFunc_
        ((v.drop 1).take (C.getParameterCount gp.covFunc_))) =
        1 + C.getParameterCount gp.covFunc_ := by rw [hec1]; omega
    have hlen2 : (v.drop (1 + C.getParameterCount gp.covFunc_)).length =
        C.getExtraParameterCount (C.setParameters gp.covFunc_
          ((v.drop 1).take (C.getParameterCount gp.covFunc_))) := by
      rw [hec1, List.length_drop]; omega
    have hv0 : 0 < v.length := by omega
    have hsplit : v.get ⟨0, hv0⟩ :: ((v.drop 1).take (C.getParameterCount gp.covFunc_) ++
        v.drop (1 + C.getParameterCount gp.covFunc_)) = v := by
      cases v with
      | nil => simp at hv0
      | cons a t =>
        rw [Nat.add_comm 1, List.drop_succ_cons]
        simp [List.take_append_drop]
    have hstep : gp.setHyperParameters E C v =
        if 0 < gp.data_loc_.length then
          GP.infer E C { gp with
            log_noise_sd_ := v.get ⟨0, hv0⟩
            covFunc_ := C.setExtraParameters (C.setParameters gp.covFunc_
              ((v.drop 1).take (C.getParameterCount gp.covFunc_)))
              (v.drop (1 + C.getParameterCount gp.covFunc_)) }
        else .ok { gp with
            log_noise_sd_ := v.get ⟨0, hv0⟩
            covFunc_ := C.setExtraParameters (C.setParameters gp.covFunc_
              ((v.drop 1).take (C.getParameterCount gp.covFunc_)))
              (v.drop (1 + C.getParameterCount gp.covFunc_)) } := by
      have hle : C.getExtraParameterCount (C.setParameters gp.covFunc_
          ((v.drop 1).take (C.getParameterCount gp.covFunc_))) ≤ v.length := by
        rw [hec1]; omega
      unfold GP.setHyperParameters
      rw [dif_pos hv]
      simp only [hdrop]
      rw [if_pos hle]
    have hp2 : C.getParameters (C.setExtraParameters (C.setParameters gp.covFunc_
        ((v.drop 1).take (C.getParameterCount gp.covFunc_)))
        (v.drop (1 + C.getParameterCount gp.covFunc_))) =
        (v.drop 1).take (C.getParameterCount gp.covFunc_) := by
      rw [hC.getParameters_setExtraParameters, hC.getParameters_setParameters _ _ hlen1]
    have he2 : C.getExtraParameters (C.setExtraParameters (C.setParameters gp.covFunc_
        ((v.drop 1).take (C.getParameterCount gp.covFunc_)))
        (v.drop (1 + C.getParameterCount gp.covFunc_))) =
        v.drop (1 + C.getParameterCount gp.covFunc_) :=
      hC.getExtraParameters_setExtraParameters _ _ hlen2
    have hpc2 : C.getParameterCount (C.setExtraParameters (C.setParameters gp.covFunc_
        ((v.drop 1).take (C.getParameterCount gp.covFunc_)))
        (v.drop (1 + C.getParameterCount gp.covFunc_))) = C.getParameterCount gp.covFunc_ := by
      rw [hC.getParameterCount_setExtraParameters, hC.getParameterCount_setParameters]
    have hec2 : C.getExtraParameterCount (C.setExtraParameters (C.setParameters gp.covFunc_
        ((v.drop 1).take (C.getParameterCount gp.covFunc_)))
        (v.drop (1 + C.getParameterCount gp.covFunc_))) =
        C.getExtraParameterCount gp.covFunc_ := by
      rw [hC.getExtraParameterCount_setExtraParameters, hec1]
    have hget : ∀ gp2 : GP κ F,
        gp2.covFunc_ = C.setExtraParameters (C.setParameters gp.covFunc_
          ((v.drop 1).take (C.getParameterCount gp.covFunc_)))
          (v.drop (1 + C.getParameterCount gp.covFunc_)) →
        gp2.log_noise_sd_ = v.get ⟨0, hv0⟩ →
        gp2.getHyperParameters C = .ok v := by
      intro gp2 hk hs
      simp only [GP.getHyperParameters, hk, hs, hp2, he2, hsplit, hpc2, hec2]
      rw [if_pos hv]
    by_cases hX : gp.data_loc_ = []
    · refine ⟨{ gp with
          log_noise_sd_ := v.get ⟨0, hv0⟩
          covFunc_ := C.setExtraParameters (C.setParameters gp.covFunc_
            ((v.drop 1).take (C.getParameterCount gp.covFunc_)))
            (v.drop (1 + C.getParameterCount gp.covFunc_)) }, ?_, hget _ rfl rfl, rfl, hp2, he2,
        hpc2, hec2⟩
      rw [hstep, if_neg (by simp [hX])]
    · obtain ⟨gp2, hinf, hcov, hs⟩ := infer_ok E C
        { gp with
          log_noise_sd_ := v.get ⟨0, hv0⟩
          covFunc_ := C.setExtraParameters (C.setParameters gp.covFunc_
            ((v.drop 1).take (C.getParameterCount gp.covFunc_)))
            (v.drop (1 + C.getParameterCount gp.covFunc_)) } hX hdata
      have hpos : 0 < gp.data_loc_.length := List.length_pos.mpr hX
      refine ⟨gp2, ?_, hget _ hcov hs, hs, hcov ▸ hp2, hcov ▸ he2, hcov ▸ hpc2, hcov ▸ hec2⟩
      rw [hstep, if_pos hpos]
      exact hinf
  · intro gp0 h hh
    simp only [GP.getHyperParameters] at hh
    split at hh
    · rename_i hlen
      simp only [Except.ok.injEq] at hh
      rw [← hh]
      exact hlen
    · cases hh

theorem linearKernel_roundTrip : (linearKernel : CovFunc F F).RoundTrip where
  getParameters_length := fun _ => rfl
  getExtraParameters_length := fun _ => rfl
  getParameters_setParameters := by
    intro k p hp
    match p, hp with
    | [a], _ => rfl
  getExtraParameters_setExtraParameters := by
    intro k e he
    match e, he with
    | [], _ => rfl
  getParameters_setExtraParameters := fun _ _ => rfl
  getParameterCount_setParameters := fun _ _ => rfl
  getExtraParameterCount_setParameters := fun _ _ => rfl
  getParameterCount_setExtraParameters := fun _ _ => rfl
  getExtraParameterCount_setExtraParameters := fun _ _ => rfl

/-- Witness of C6. -/
theorem getHyperParameters_setHyperParameters_witness :
    (∃ gp2 : GP ℝ ℝ,
      (GP.ofCovFunc (1 : ℝ)).setHyperParameters (Env.exact Real.exp Real.log Real.pi 1e-6)
        linearKernel [0, 3] = .ok gp2 ∧
      gp2.getHyperParameters linearKernel = .ok [0, 3] ∧
      gp2.log_noise_sd_ = ([0, 3] : List ℝ).get ⟨0, by decide⟩ ∧
      linearKernel.getParameters gp2.covFunc_ =
        (([0, 3] : List ℝ).drop 1).take (linearKernel.getParameterCount (1 : ℝ)) ∧
      linearKernel.getExtraParameters gp2.covFunc_ =
        ([0, 3] : List ℝ).drop (1 + linearKernel.getParameterCount (1 : ℝ)) ∧
      linearKernel.getParameterCount gp2.covFunc_ = linearKernel.getParameterCount (1 : ℝ) ∧
      linearKernel.getExtraParameterCount gp2.covFunc_ =
        linearKernel.getExtraParameterCount (1 : ℝ)) ∧
    (∀ (gp0 : GP ℝ ℝ) (h : VectorXd ℝ), gp0.getHyperParameters linearKernel = .ok h →
      h.length =
        linearKernel.getParameterCount gp0.covFunc_ +
          linearKernel.getExtraParameterCount gp0.covFunc_ + 1) :=
  getHyperParameters_setHyperParameters (Env.exact Real.exp Real.log Real.pi 1e-6) linearKernel
    (GP.ofCovFunc (1 : ℝ)) [0, 3] linearKernel_roundTrip rfl rfl

theorem MatrixXd.vadd_ofFn_ofFn {n : ℕ} (f g : Fin n → F) :
    MatrixXd.vadd (List.ofFn f) (List.ofFn g) = .ok (List.ofFn (f + g)) := by
  have h : ∀ (v : VectorXd F) (hv : v.length = n),
      MatrixXd.vadd v (List.ofFn g) =
        .ok (List.ofFn (fun i : Fin v.length => v.get i + g (Fin.cast hv i))) := by
    intro v hv
    subst hv
    simp [MatrixXd.vadd, bind, Except.bind, pure, Except.pure]
  rw [h _ (List.length_ofFn f)]
  congr 1
  apply List.ext_get
  · simp
  · intro i h1 h2
    simp

/-- What `predict(q)` computes on a state holding a decomposition of `K`, a vector `α`, a
feature matrix `Φ`, a decomposition of `G` and a vector `β`, with explicit trend
enabled. -/
theorem predict_trend_state (E : Env F) (C : CovFunc κ F) (q : VectorXd F)
    (k : κ) (X y : VectorXd F) (hX : X ≠ []) (gram : MatrixXd F) (derivs : List (MatrixXd F))
    (s : F) (fm : MatrixXd F)
    (K : Matrix (Fin X.length) (Fin X.length) F)
    (a : Fin X.length → F) (Φ : Matrix (Fin 2) (Fin X.length) F)
    (G : Matrix (Fin 2) (Fin 2) F) (b : Fin 2 → F) :
    GP.predict E C
      { covFunc_ := k, data_loc_ := X, data_out_ := y, gram_matrix_ := gram,
        gram_matrix_derivatives_ := derivs, alpha_ := List.ofFn a,
        chol_gram_matrix_ := .factored X.length K, log_noise_sd_ := s,
        use_explicit_trend_ := true, feature_vectors_ := ⟨2, X.length, Φ⟩,
        feature_matrix_ := fm, chol_feature_matrix_ := .factored 2 G,
        beta_ := List.ofFn b } q = .ok
      (List.ofFn ((C.evaluate k q X).1 *ᵥ a +
          (GP.features q - Φ * E.ldltSolve K ((C.evaluate k q X).1)ᵀ)ᵀ *ᵥ b),
        ⟨q.length, q.length,
          (C.evaluate k q q).1 - (C.evaluate k q X).1 * E.ldltSolve K ((C.evaluate k q X).1)ᵀ +
            (GP.features q - Φ * E.ldltSolve K ((C.evaluate k q X).1)ᵀ)ᵀ *
              E.ldltSolve G (GP.features q - Φ * E.ldltSolve K ((C.evaluate k q X).1)ᵀ)⟩) := by
  have hlen : X.length ≠ 0 := by simpa using hX
  simp only [GP.predict, GP.predictCov, hlen,
    MatrixXd.transpose, MatrixXd.vadd_ofFn_ofFn, MatrixXd.mulVec_mk_ofFn,
    LDLT.solve_factored, MatrixXd.mul_mk, MatrixXd.sub_mk, MatrixXd.add_mk, bind,
    Except.bind, pure, Except.pure, if_true, if_false, ite_true, ite_false]

theorem infer_eq_inferData (E : Env F) (C : CovFunc κ F) (gp : GP κ F) :
    gp.infer E C = gp.inferData E C gp.data_loc_ gp.data_out_ := rfl

/-- The method `infer()` reproduces a state that `infer(X, y)` returned. -/
theorem infer_inferData (E : Env F) (C : CovFunc κ F) (gp gp1 : GP κ F) (X y : VectorXd F)
    (hX : X ≠ []) (hy : y.length = X.length) (h : gp.inferData E C X y = .ok gp1) :
    gp1.infer E C = .ok gp1 := by
  cases htrend : gp.use_explicit_trend_
  · have h1 := inferData_noTrend E C gp X y hX hy htrend
    rw [h1] at h
    injection h with h
    have hflag : gp1.use_explicit_trend_ = false := by rw [← h]; exact htrend
    have hloc : gp1.data_loc_ = X := by rw [← h]
    have hout : gp1.data_out_ = y := by rw [← h]
    have h2 := inferData_noTrend E C gp1 gp1.data_loc_ gp1.data_out_ (hloc ▸ hX)
      (by rw [hloc, hout]; exact hy) hflag
    rw [infer_eq_inferData, h2]
    congr 1
    subst h
    rfl
  · have h1 := inferData_trend E C gp X y hX hy htrend
    rw [h1] at h
    injection h with h
    have hflag : gp1.use_explicit_trend_ = true := by rw [← h]; exact htrend
    have hloc : gp1.data_loc_ = X := by rw [← h]
    have hout : gp1.data_out_ = y := by rw [← h]
    have h2 := inferData_trend E C gp1 gp1.data_loc_ gp1.data_out_ (hloc ▸ hX)
      (by rw [hloc, hout]; exact hy) hflag
    rw [infer_eq_inferData, h2]
    congr 1
    subst h
    rfl

theorem inv_smul_one_mul {n m : ℕ} (c : F) (hc : c ≠ 0) (B : Matrix (Fin n) (Fin m) F) :
    (c • (1 : Matrix (Fin n) (Fin n) F))⁻¹ * B = c⁻¹ • B := by
  have h : (c • (1 : Matrix (Fin n) (Fin n) F))⁻¹ = c⁻¹ • (1 : Matrix (Fin n) (Fin n) F) := by
    apply Matrix.inv_eq_left_inv
    rw [Matrix.smul_mul, Matrix.mul_smul, Matrix.one_mul, smul_smul, inv_mul_cancel₀ hc,
      one_smul]
  rw [h, Matrix.smul_mul, Matrix.one_mul]

theorem isUnit_det_smul_one {n : ℕ} (c : F) (hc : c ≠ 0) :
    IsUnit (c • (1 : Matrix (Fin n) (Fin n) F)).det := by
  rw [Matrix.det_smul, Matrix.det_one, mul_one]
  exact (isUnit_iff_ne_zero.mpr hc).pow _

/-- With a kernel matrix `k(X,X) = 0` the Gram matrix is `c·I` and an exact solver
divides by `c = exp(2·log_noise_sd) + JITTER`. -/
theorem zeroKernel_solve (E : Env F) (C : CovFunc κ F) (k : κ) (s : F) (X : VectorXd F)
    (hE : E.ExactSolve) (hc : E.exp (2 * s) + E.JITTER ≠ 0)
    (hKXX : (C.evaluate k X X).1 = 0) (m : ℕ) (B : Matrix (Fin X.length) (Fin m) F) :
    E.ldltSolve (gramSpec E C k s X) B = (E.exp (2 * s) + E.JITTER)⁻¹ • B := by
  have hK : gramSpec E C k s X = (E.exp (2 * s) + E.JITTER) • (1 : Matrix _ _ F) := by
    simp only [gramSpec, hKXX, zero_add]
  rw [hK, hE _ _ _ _ (isUnit_det_smul_one _ hc), inv_smul_one_mul _ hc]

/-- With a kernel matrix `k(X,X) = 0` and training outputs on the line `b 0 + b 1 · t`,
the vector `β` that `infer` computes with explicit trend enabled is `b`. -/
theorem zeroKernel_beta (E : Env F) (C : CovFunc κ F) (k : κ) (s : F) (X y : VectorXd F)
    (hy : y.length = X.length) (hE : E.ExactSolve) (hc : E.exp (2 * s) + E.JITTER ≠ 0)
    (hKXX : (C.evaluate k X X).1 = 0) (b : Fin 2 → F)
    (hfit : (GP.features X)ᵀ *ᵥ b = outputs X y hy)
    (hdet : (GP.features X * (GP.features X)ᵀ).det ≠ 0) :
    IsUnit (GP.features X * E.ldltSolve (gramSpec E C k s X) (GP.features X)ᵀ).det ∧
    E.ldltSolve (GP.features X * E.ldltSolve (gramSpec E C k s X) (GP.features X)ᵀ)
        (GP.features X) *ᵥ
      (fun i => E.ldltSolve (gramSpec E C k s X) (Matrix.col (Fin 1) (outputs X y hy)) i 0) =
      b := by
  have hG : IsUnit (GP.features X * ((E.exp (2 * s) + E.JITTER)⁻¹ • (GP.features X)ᵀ)).det := by
    rw [Matrix.mul_smul, Matrix.det_smul]
    exact ((isUnit_iff_ne_zero.mpr (inv_ne_zero hc)).pow _).mul (isUnit_iff_ne_zero.mpr hdet)
  simp only [zeroKernel_solve E C k s X hE hc hKXX]
  refine ⟨hG, ?_⟩
  rw [hE _ _ _ _ hG]
  have hcol : (fun i => ((E.exp (2 * s) + E.JITTER)⁻¹ •
      Matrix.col (Fin 1) (outputs X y hy)) i 0) =
      (E.exp (2 * s) + E.JITTER)⁻¹ • ((GP.features X)ᵀ *ᵥ b) := by
    funext i
    simp [hfit]
  have hΦ : GP.features X *ᵥ ((E.exp (2 * s) + E.JITTER)⁻¹ • ((GP.features X)ᵀ *ᵥ b)) =
      (GP.features X * ((E.exp (2 * s) + E.JITTER)⁻¹ • (GP.features X)ᵀ)) *ᵥ b := by
    rw [Matrix.mulVec_smul, Matrix.mulVec_mulVec, Matrix.mul_smul, Matrix.smul_mulVec_assoc]
  rw [hcol, ← Matrix.mulVec_mulVec, hΦ, Matrix.mulVec_mulVec, Matrix.nonsing_inv_mul _ hG,
    Matrix.one_mulVec]

/-- With explicit trend enabled, a kernel that vanishes on the locations involved, and
training outputs that lie on the line `b 0 + b 1 · t`, the predicted mean is that line
at the query locations. -/
theorem predict_trend_zeroKernel (E : Env F) (C : CovFunc κ F) (gp gp1 : GP κ F)
    (X y q : VectorXd F) (hX : X ≠ []) (hy : y.length = X.length)
    (htrend : gp.use_explicit_trend_ = true) (hE : E.ExactSolve)
    (hc : E.exp (2 * gp.log_noise_sd_) + E.JITTER ≠ 0)
    (hKXX : (C.evaluate gp.covFunc_ X X).1 = 0) (hM : (C.evaluate gp.covFunc_ q X).1 = 0)
    (b : Fin 2 → F) (hfit : (GP.features X)ᵀ *ᵥ b = outputs X y hy)
    (hdet : (GP.features X * (GP.features X)ᵀ).det ≠ 0)
    (h : gp.inferData E C X y = .ok gp1) :
    ∃ cov : MatrixXd F, gp1.predict E C q = .ok (List.ofFn ((GP.features q)ᵀ *ᵥ b), cov) := by
  rw [inferData_trend E C gp X y hX hy htrend] at h
  injection h with h
  subst h
  simp only [htrend]
  rw [predict_trend_state E C q _ X y hX]
  rw [(zeroKernel_beta E C gp.covFunc_ gp.log_noise_sd_ X y hy hE hc hKXX b hfit hdet).2]
  simp only [zeroKernel_solve E C gp.covFunc_ gp.log_noise_sd_ X hE hc hKXX, hM,
    Matrix.transpose_zero, smul_zero, Matrix.mul_zero, sub_zero, Matrix.zero_mulVec, zero_add]
  exact ⟨_, rfl⟩

/-- Stale explicit-trend members: train on `(X, y₁)` with explicit trend enabled, then on
`(X, y₂)` with explicit trend disabled, then enable it again.  With a kernel that vanishes
on the locations involved and `y₁` on the line `b 0 + b 1 · t`, `predict` returns that
line, fitted to the outputs `y₁` that are no longer the training outputs. -/
theorem predict_stale_trend (E : Env F) (C : CovFunc κ F) (gp gp1 gp2 : GP κ F)
    (X y₁ y₂ q : VectorXd F) (hX : X ≠ []) (hy₁ : y₁.length = X.length)
    (hy₂ : y₂.length = X.length) (htrend : gp.use_explicit_trend_ = true) (hE : E.ExactSolve)
    (hc : E.exp (2 * gp.log_noise_sd_) + E.JITTER ≠ 0)
    (hKXX : (C.evaluate gp.covFunc_ X X).1 = 0) (hM : (C.evaluate gp.covFunc_ q X).1 = 0)
    (b : Fin 2 → F) (hfit : (GP.features X)ᵀ *ᵥ b = outputs X y₁ hy₁)
    (hdet : (GP.features X * (GP.features X)ᵀ).det ≠ 0)
    (h1 : gp.inferData E C X y₁ = .ok gp1)
    (h2 : gp1.disableExplicitTrend.inferData E C X y₂ = .ok gp2) :
    ∃ cov : MatrixXd F,
      gp2.enableExplicitTrend.predict E C q = .ok (List.ofFn ((GP.features q)ᵀ *ᵥ b), cov) := by
  rw [inferData_trend E C gp X y₁ hX hy₁ htrend] at h1
  injection h1 with h1
  subst h1
  rw [inferData_noTrend E C _ X y₂ hX hy₂ rfl] at h2
  injection h2 with h2
  subst h2
  simp only [GP.enableExplicitTrend, GP.disableExplicitTrend]
  rw [predict_trend_state E C q _ X y₂ hX]
  rw [(zeroKernel_beta E C gp.covFunc_ gp.log_noise_sd_ X y₁ hy₁ hE hc hKXX b hfit hdet).2]
  simp only [zeroKernel_solve E C gp.covFunc_ gp.log_noise_sd_ X hE hc hKXX, hM,
    Matrix.transpose_zero, smul_zero, Matrix.mul_zero, sub_zero, Matrix.zero_mulVec, zero_add]
  exact ⟨_, rfl⟩

theorem sum_fin_length_two (a b : ℝ) (f : Fin ([a, b] : List ℝ).length → ℝ) :
    ∑ i, f i = f ⟨0, by simp⟩ + f ⟨1, by simp⟩ :=
  Fin.sum_univ_two f


theorem setHyperParameters_own (E : Env F) (C : CovFunc κ F) (gp : GP κ F) (hC : C.SetGet) :
    gp.getHyperParameters C = .ok
      (gp.log_noise_sd_ :: (C.getParameters gp.covFunc_ ++ C.getExtraParameters gp.covFunc_)) ∧
    gp.setHyperParameters E C
      (gp.log_noise_sd_ :: (C.getParameters gp.covFunc_ ++ C.getExtraParameters gp.covFunc_)) =
      if 0 < gp.data_loc_.length then gp.infer E C else .ok gp := by
  have hlen : (gp.log_noise_sd_ ::
      (C.getParameters gp.covFunc_ ++ C.getExtraParameters gp.covFunc_)).length =
      C.getParameterCount gp.covFunc_ + C.getExtraParameterCount gp.covFunc_ + 1 := by
    simp [hC.getParameters_length, hC.getExtraParameters_length]
  refine ⟨?_, ?_⟩
  · simp only [GP.getHyperParameters]
    rw [if_pos hlen]
  · have htake : ((gp.log_noise_sd_ ::
        (C.getParameters gp.covFunc_ ++ C.getExtraParameters gp.covFunc_)).drop 1).take
        (C.getParameterCount gp.covFunc_) = C.getParameters gp.covFunc_ := by
      rw [List.drop_one, List.tail_cons, ← hC.getParameters_length]
      exact List.take_left' rfl
    have hdrop : (gp.log_noise_sd_ ::
        (C.getParameters gp.covFunc_ ++ C.getExtraParameters gp.covFunc_)).drop
        ((gp.log_noise_sd_ ::
          (C.getParameters gp.covFunc_ ++ C.getExtraParameters gp.covFunc_)).length -
          C.getExtraParameterCount gp.covFunc_) = C.getExtraParameters gp.covFunc_ := by
      have : (gp.log_noise_sd_ ::
          (C.getParameters gp.covFunc_ ++ C.getExtraParameters gp.covFunc_)).length -
          C.getExtraParameterCount gp.covFunc_ = (C.getParameters gp.covFunc_).length + 1 := by
        rw [hlen, hC.getParameters_length]; omega
      rw [this, List.drop_succ_cons]
      exact List.drop_left' rfl
    have hle : C.getExtraParameterCount gp.covFunc_ ≤ (gp.log_noise_sd_ ::
        (C.getParameters gp.covFunc_ ++ C.getExtraParameters gp.covFunc_)).length := by
      rw [hlen]; omega
    unfold GP.setHyperParameters
    rw [dif_pos hlen]
    simp only [htake, hC.setParameters_getParameters, hdrop,
      hC.setExtraParameters_getExtraParameters]
    rw [if_pos hle]
    rfl

/-- C7, amended. For an untrained regressor, and for a trained one whose cached members
are those `infer()` computes from the current data, hyperparameters and explicit-trend
flag (`infer()` returns the state itself, as after `infer(X, y)` with the flag untouched
since), with a kernel that setting its own parameters leaves as it is:
`setHyperParameters(getHyperParameters())` succeeds and leaves `predict(q)` and
`neg_log_likelihood()` as they were. -/
theorem setHyperParameters_getHyperParameters (E : Env F) (C : CovFunc κ F) (gp : GP κ F)
    (hC : C.SetGet) (hsync : gp.data_loc_ = [] ∨ gp.infer E C = .ok gp) :
    ∃ (hp : VectorXd F) (gp2 : GP κ F), gp.getHyperParameters C = .ok hp ∧
      gp.setHyperParameters E C hp = .ok gp2 ∧
      (∀ q : VectorXd F, gp2.predict E C q = gp.predict E C q) ∧
      gp2.neg_log_likelihood E = gp.neg_log_likelihood E := by
  obtain ⟨hget, hset⟩ := setHyperParameters_own E C gp hC
  refine ⟨_, gp, hget, ?_, fun _ => rfl, rfl⟩
  rw [hset]
  rcases hsync with h | h
  · simp [h]
  · split
    · exact h
    · rfl

theorem linearKernel_setGet : (linearKernel : CovFunc F F).SetGet where
  getParameters_length := fun _ => rfl
  getExtraParameters_length := fun _ => rfl
  setParameters_getParameters := fun _ => rfl
  setExtraParameters_getExtraParameters := fun _ => rfl

/-- Witness of C7 (amended): a regressor trained on one point. -/
theorem setHyperParameters_getHyperParameters_witness :
    ∃ gp : GP ℝ ℝ,
      (GP.ofCovFunc (1 : ℝ)).inferData (Env.exact Real.exp Real.log Real.pi 1e-6) linearKernel
        [1] [2] = .ok gp ∧
      ∃ (hp : VectorXd ℝ) (gp2 : GP ℝ ℝ), gp.getHyperParameters linearKernel = .ok hp ∧
        gp.setHyperParameters (Env.exact Real.exp Real.log Real.pi 1e-6) linearKernel hp =
          .ok gp2 ∧
        (∀ q : VectorXd ℝ, gp2.predict (Env.exact Real.exp Real.log Real.pi 1e-6) linearKernel q =
          gp.predict (Env.exact Real.exp Real.log Real.pi 1e-6) linearKernel q) ∧
        gp2.neg_log_likelihood (Env.exact Real.exp Real.log Real.pi 1e-6) =
          gp.neg_log_likelihood (Env.exact Real.exp Real.log Real.pi 1e-6) := by
  obtain ⟨gp, hinf, -⟩ := inferData_ok (Env.exact Real.exp Real.log Real.pi 1e-6) linearKernel
    (GP.ofCovFunc (1 : ℝ)) [1] [2] (by simp) rfl
  exact ⟨gp, hinf, setHyperParameters_getHyperParameters _ linearKernel gp linearKernel_setGet
    (Or.inr (infer_inferData _ _ _ _ [1] [2] (by simp) rfl hinf))⟩

/-- After `infer(X, y)` without explicit trend on a regressor that never computed a
feature matrix, `enableExplicitTrend()` makes `predict` fail: the empty feature matrix
does not fit the solved mixed covariance. -/
theorem predict_enableExplicitTrend_fails (E : Env F) (C : CovFunc κ F) (gp gp1 : GP κ F)
    (X y q : VectorXd F) (hX : X ≠ []) (hy : y.length = X.length)
    (htrend : gp.use_explicit_trend_ = false) (hfeat : gp.feature_vectors_ = MatrixXd.empty)
    (h : gp.inferData E C X y = .ok gp1) :
    gp1.enableExplicitTrend.predict E C q = .error .sizeMismatch := by
  have hlen : X.length ≠ 0 := by simpa using hX
  rw [inferData_noTrend E C gp X y hX hy htrend] at h
  injection h with h
  subst h
  simp only [GP.predict, GP.predictCov, GP.enableExplicitTrend, hfeat, hlen,
    MatrixXd.transpose, MatrixXd.mulVec_mk_ofFn, LDLT.solve_factored, MatrixXd.mul_mk,
    MatrixXd.sub_mk, bind, Except.bind, if_true, if_false, ite_true, ite_false]
  simp [MatrixXd.mul, MatrixXd.empty, MatrixXd.cast, hlen, bind, Except.bind]

/-- With explicit trend enabled, `predict` succeeds on the state that `infer(X, y)`
returned. -/
theorem predict_after_infer_trend_isOk (E : Env F) (C : CovFunc κ F) (gp gp2 : GP κ F)
    (X y q : VectorXd F) (hX : X ≠ []) (hy : y.length = X.length)
    (htrend : gp.use_explicit_trend_ = true) (h : gp.inferData E C X y = .ok gp2) :
    ∃ r : VectorXd F × MatrixXd F, gp2.predict E C q = .ok r := by
  rw [inferData_trend E C gp X y hX hy htrend] at h
  injection h with h
  subst h
  simp only [htrend]
  exact ⟨_, predict_trend_state E C q _ X y hX _ _ _ _ _ _ _ _ _⟩

/-- After `infer(X, y)` and `enableExplicitTrend()`,
`setHyperParameters(getHyperParameters())` returns a state on which `predict`
succeeds. -/
theorem predict_after_roundTrip_isOk (E : Env F) (C : CovFunc κ F) (gp gp1 : GP κ F)
    (X y q : VectorXd F) (hC : C.SetGet) (hX : X ≠ []) (hy : y.length = X.length)
    (h : gp.inferData E C X y = .ok gp1) :
    ∃ (hp : VectorXd F) (gp2 : GP κ F) (r : VectorXd F × MatrixXd F),
      gp1.enableExplicitTrend.getHyperParameters C = .ok hp ∧
      gp1.enableExplicitTrend.setHyperParameters E C hp = .ok gp2 ∧
      gp2.predict E C q = .ok r := by
  obtain ⟨gp1', h', -, hloc, hout, -⟩ := inferData_ok E C gp X y hX hy
  rw [h] at h'
  injection h' with h'
  subst h'
  have hloc' : gp1.enableExplicitTrend.data_loc_ = X := hloc
  have hout' : gp1.enableExplicitTrend.data_out_ = y := hout
  have hX' : gp1.enableExplicitTrend.data_loc_ ≠ [] := hloc' ▸ hX
  have hy' : gp1.enableExplicitTrend.data_out_.length =
      gp1.enableExplicitTrend.data_loc_.length := by rw [hloc', hout']; exact hy
  have hpos : 0 < gp1.enableExplicitTrend.data_loc_.length := List.length_pos.mpr hX'
  obtain ⟨hget, hset⟩ := setHyperParameters_own E C gp1.enableExplicitTrend hC
  obtain ⟨gp2, hinf, -⟩ := inferData_ok E C gp1.enableExplicitTrend _ _ hX' hy'
  obtain ⟨r, hr⟩ := predict_after_infer_trend_isOk E C _ gp2 _ _ q hX' hy' rfl hinf
  refine ⟨_, gp2, r, hget, ?_, hr⟩
  rw [hset, if_pos hpos]
  exact hinf

/-- After the sequence of `predict_stale_trend`, `setHyperParameters(getHyperParameters())`
runs `infer()` again, and `predict` then returns the line fitted to the current training
outputs `y₂`. -/
theorem predict_stale_trend_roundTrip (E : Env F) (C : CovFunc κ F) (gp gp1 gp2 : GP κ F)
    (X y₁ y₂ q : VectorXd F) (hC : C.SetGet) (hX : X ≠ []) (hy₁ : y₁.length = X.length)
    (hy₂ : y₂.length = X.length) (hE : E.ExactSolve)
    (hc : E.exp (2 * gp.log_noise_sd_) + E.JITTER ≠ 0)
    (hKXX : (C.evaluate gp.covFunc_ X X).1 = 0) (hM : (C.evaluate gp.covFunc_ q X).1 = 0)
    (b : Fin 2 → F) (hfit : (GP.features X)ᵀ *ᵥ b = outputs X y₂ hy₂)
    (hdet : (GP.features X * (GP.features X)ᵀ).det ≠ 0)
    (h1 : gp.inferData E C X y₁ = .ok gp1)
    (h2 : gp1.disableExplicitTrend.inferData E C X y₂ = .ok gp2) :
    ∃ (hp : VectorXd F) (gp4 : GP κ F) (cov : MatrixXd F),
      gp2.enableExplicitTrend.getHyperParameters C = .ok hp ∧
      gp2.enableExplicitTrend.setHyperParameters E C hp = .ok gp4 ∧
      gp4.predict E C q = .ok (List.ofFn ((GP.features q)ᵀ *ᵥ b), cov) := by
  obtain ⟨g1, hg1, hcov1, -, -, hs1, -⟩ := inferData_ok E C gp X y₁ hX hy₁
  rw [h1] at hg1
  injection hg1 with hg1
  subst hg1
  obtain ⟨g2, hg2, hcov2, hloc2, hout2, hs2, -⟩ :=
    inferData_ok E C gp1.disableExplicitTrend X y₂ hX hy₂
  rw [h2] at hg2
  injection hg2 with hg2
  subst hg2
  have hcov : gp2.enableExplicitTrend.covFunc_ = gp.covFunc_ := hcov2.trans hcov1
  have hs : gp2.enableExplicitTrend.log_noise_sd_ = gp.log_noise_sd_ := hs2.trans hs1
  have hloc : gp2.enableExplicitTrend.data_loc_ = X := hloc2
  have hout : gp2.enableExplicitTrend.data_out_ = y₂ := hout2
  obtain ⟨hget, hset⟩ := setHyperParameters_own E C gp2.enableExplicitTrend hC
  obtain ⟨gp4, hinf4, -⟩ := inferData_ok E C gp2.enableExplicitTrend X y₂ hX hy₂
  have hinfer : gp2.enableExplicitTrend.infer E C = .ok gp4 := by
    rw [infer_eq_inferData, hloc, hout]
    exact hinf4
  obtain ⟨cov, hpred⟩ := predict_trend_zeroKernel E C gp2.enableExplicitTrend gp4 X y₂ q hX hy₂
    rfl hE (by rw [hs]; exact hc) (by rw [hcov]; exact hKXX) (by rw [hcov]; exact hM) b hfit
    hdet hinf4
  refine ⟨_, gp4, cov, hget, ?_, hpred⟩
  rw [hset, if_pos (by rw [hloc]; exact List.length_pos.mpr hX)]
  exact hinfer

/-- C7, counterexample. (a) Train on one point with explicit trend disabled, then call
`enableExplicitTrend()`: `predict` fails on the empty feature matrix, whereas after
`setHyperParameters(getHyperParameters())`, which runs `infer()` again, it returns a
result.  (b) With the kernel `k = 0`: train on `([0, 1], [1, 1])` with explicit trend
enabled, disable it, train on `([0, 1], [2, 2])`, enable it again; `predict([2])` returns
the mean `1`, the line fitted to the former outputs, whereas after
`setHyperParameters(getHyperParameters())` it returns the mean `2`. -/
theorem setHyperParameters_getHyperParameters_counterexample :
    (∃ (gp1 : GP ℝ ℝ) (hp : VectorXd ℝ) (gp2 : GP ℝ ℝ) (r : VectorXd ℝ × MatrixXd ℝ),
      (GP.ofCovFunc (1 : ℝ)).inferData (Env.exact Real.exp Real.log Real.pi 1e-6) linearKernel
        [1] [2] = .ok gp1 ∧
      gp1.enableExplicitTrend.getHyperParameters linearKernel = .ok hp ∧
      gp1.enableExplicitTrend.setHyperParameters (Env.exact Real.exp Real.log Real.pi 1e-6)
        linearKernel hp = .ok gp2 ∧
      gp1.enableExplicitTrend.predict (Env.exact Real.exp Real.log Real.pi 1e-6) linearKernel [3] =
        .error .sizeMismatch ∧
      gp2.predict (Env.exact Real.exp Real.log Real.pi 1e-6) linearKernel [3] = .ok r) ∧
    (∃ (gp1 gp2 gp4 : GP ℝ ℝ) (hp : VectorXd ℝ) (cov cov4 : MatrixXd ℝ),
      (GP.ofCovFunc (0 : ℝ)).enableExplicitTrend.inferData
        (Env.exact Real.exp Real.log Real.pi 1e-6) linearKernel [0, 1] [1, 1] = .ok gp1 ∧
      gp1.disableExplicitTrend.inferData
        (Env.exact Real.exp Real.log Real.pi 1e-6) linearKernel [0, 1] [2, 2] = .ok gp2 ∧
      gp2.enableExplicitTrend.getHyperParameters linearKernel = .ok hp ∧
      gp2.enableExplicitTrend.setHyperParameters (Env.exact Real.exp Real.log Real.pi 1e-6)
        linearKernel hp = .ok gp4 ∧
      gp2.enableExplicitTrend.predict (Env.exact Real.exp Real.log Real.pi 1e-6) linearKernel [2] =
        .ok ([1], cov) ∧
      gp4.predict (Env.exact Real.exp Real.log Real.pi 1e-6) linearKernel [2] =
        .ok ([2], cov4)) := by
  refine ⟨?_, ?_⟩
  · obtain ⟨gp1, hinf, -⟩ := inferData_ok (Env.exact Real.exp Real.log Real.pi 1e-6)
      linearKernel (GP.ofCovFunc (1 : ℝ)) [1] [2] (by simp) rfl
    obtain ⟨hp, gp2, r, hget, hset, hpred⟩ := predict_after_roundTrip_isOk
      (Env.exact Real.exp Real.log Real.pi 1e-6) linearKernel _ gp1 [1] [2] [3]
      linearKernel_setGet (by simp) rfl hinf
    exact ⟨gp1, hp, gp2, r, hinf, hget, hset,
      predict_enableExplicitTrend_fails _ _ _ gp1 [1] [2] [3] (by simp) rfl rfl rfl hinf, hpred⟩
  · have hzero : ∀ a b : List ℝ, (linearKernel.evaluate (0 : ℝ) a b).1 = 0 := by
      intro a b
      ext i j
      simp [linearKernel]
    have hc : (Env.exact Real.exp Real.log Real.pi 1e-6).exp (2 * (-1e20 : ℝ)) +
        (Env.exact Real.exp Real.log Real.pi 1e-6).JITTER ≠ 0 := by
      simp only [Env.exact]
      positivity
    have hfit : ∀ c : ℝ, (GP.features ([0, 1] : List ℝ))ᵀ *ᵥ ![c, 0] =
        outputs [0, 1] [c, c] rfl := by
      intro c
      funext i
      simp only [Matrix.mulVec, Matrix.dotProduct, Fin.sum_univ_two, GP.features,
        Matrix.transpose_apply, outputs]
      match i with
      | ⟨0, _⟩ => simp
      | ⟨1, _⟩ => simp
    have hdet : (GP.features ([0, 1] : List ℝ) * (GP.features ([0, 1] : List ℝ))ᵀ).det ≠ 0 := by
      rw [Matrix.det_fin_two]
      simp only [Matrix.mul_apply, Matrix.transpose_apply, GP.features, sum_fin_length_two]
      simp
    have hline : ∀ c : ℝ, List.ofFn ((GP.features ([2] : List ℝ))ᵀ *ᵥ ![c, 0]) = [c] := by
      intro c
      simp [GP.features, Matrix.mulVec, Matrix.dotProduct, Fin.sum_univ_two]
    obtain ⟨gp1, h1, -⟩ := inferData_ok (Env.exact Real.exp Real.log Real.pi 1e-6)
      linearKernel (GP.ofCovFunc (0 : ℝ)).enableExplicitTrend [0, 1] [1, 1] (by simp) rfl
    obtain ⟨gp2, h2, -⟩ := inferData_ok (Env.exact Real.exp Real.log Real.pi 1e-6)
      linearKernel gp1.disableExplicitTrend [0, 1] [2, 2] (by simp) rfl
    obtain ⟨cov, hstale⟩ := predict_stale_trend (Env.exact Real.exp Real.log Real.pi 1e-6)
      linearKernel (GP.ofCovFunc (0 : ℝ)).enableExplicitTrend gp1 gp2 [0, 1] [1, 1] [2, 2] [2]
      (by simp) rfl rfl rfl (Env.exact_exactSolve _ _ _ _) hc (hzero _ _) (hzero _ _) ![1, 0]
      (hfit 1) hdet h1 h2
    obtain ⟨hp, gp4, cov4, hget, hset, hfresh⟩ := predict_stale_trend_roundTrip
      (Env.exact Real.exp Real.log Real.pi 1e-6) linearKernel
      (GP.ofCovFunc (0 : ℝ)).enableExplicitTrend gp1 gp2 [0, 1] [1, 1] [2, 2] [2]
      linearKernel_setGet (by simp) rfl rfl (Env.exact_exactSolve _ _ _ _) hc (hzero _ _)
      (hzero _ _) ![2, 0] (hfit 2) hdet h1 h2
    rw [hline] at hstale hfresh
    exact ⟨gp1, gp2, gp4, hp, cov, cov4, h1, h2, hget, hset, hstale, hfresh⟩

/-- The Gram matrix stored by `infer(X, y)` on a regressor constructed with
`GP(noise_variance, kernel)`, for real scalars and a positive noise variance `v`: the
constructor stores `log v` as `log_noise_sd_`, so that the diagonal receives
`exp(2·log v) + JITTER = v² + JITTER`. -/
theorem gram_matrix_of_noise_variance (E : Env ℝ) (C : CovFunc κ ℝ) (k : κ) (v : ℝ)
    (X y : VectorXd ℝ) (hexp : E.exp = Real.exp) (hlog : E.log = Real.log) (hv : 0 < v)
    (hX : X ≠ []) (hy : y.length = X.length) :
    ∃ gp1 : GP κ ℝ, (GP.ofNoiseVariance E v k).inferData E C X y = .ok gp1 ∧
      gp1.gram_matrix_ = ⟨X.length, X.length,
        (C.evaluate k X X).1 + (v ^ 2 + E.JITTER) • (1 : Matrix _ _ ℝ)⟩ := by
  obtain ⟨gp1, hinf, -, -, -, -, -, hgram, -⟩ :=
    inferData_ok E C (GP.ofNoiseVariance E v k) X y hX hy
  refine ⟨gp1, hinf, ?_⟩
  rw [hgram]
  have h : E.exp (2 * E.log v) = v ^ 2 := by
    rw [hexp, hlog, two_mul, Real.exp_add, Real.exp_log hv, sq]
  simp only [gramSpec, GP.ofNoiseVariance, h]

/-- C8, the code at the failing input `noise_variance = 2`: the diagonal of the Gram
matrix receives `4 + JITTER`, not `2 + JITTER`. -/
theorem gram_matrix_noise_variance_two :
    ∃ gp1 : GP ℝ ℝ,
      (GP.ofNoiseVariance (Env.exact Real.exp Real.log Real.pi 1e-6) 2 (1 : ℝ)).inferData
        (Env.exact Real.exp Real.log Real.pi 1e-6) linearKernel [1] [2] = .ok gp1 ∧
      gp1.gram_matrix_ = ⟨1, 1,
        (linearKernel.evaluate (1 : ℝ) [1] [1]).1 + ((4 : ℝ) + 1e-6) • (1 : Matrix _ _ ℝ)⟩ ∧
      gp1.gram_matrix_ ≠ ⟨1, 1,
        (linearKernel.evaluate (1 : ℝ) [1] [1]).1 + ((2 : ℝ) + 1e-6) • (1 : Matrix _ _ ℝ)⟩ := by
  obtain ⟨gp1, hinf, hgram⟩ := gram_matrix_of_noise_variance
    (Env.exact Real.exp Real.log Real.pi 1e-6) linearKernel (1 : ℝ) 2 [1] [2] rfl rfl
    (by norm_num) (by simp) rfl
  have h4 : ((2 : ℝ) ^ 2 + (Env.exact Real.exp Real.log Real.pi 1e-6).JITTER) = 4 + 1e-6 := by
    simp [Env.exact]; norm_num
  refine ⟨gp1, hinf, ?_, ?_⟩
  · rw [hgram, h4]
    rfl
  · rw [hgram, h4]
    intro h
    simp only [MatrixXd.mk.injEq, heq_eq_eq, true_and] at h
    have h00 := congrFun (congrFun h.2.2 (0 : Fin 1)) (0 : Fin 1)
    simp [linearKernel] at h00

theorem posDef_smul_one {n : ℕ} (J : ℝ) (hJ : 0 < J) :
    (J • (1 : Matrix (Fin n) (Fin n) ℝ)).PosDef := by
  have h : J • (1 : Matrix (Fin n) (Fin n) ℝ) = Matrix.diagonal (fun _ => J) := by
    ext i j
    simp [Matrix.one_apply, Matrix.diagonal_apply]
  rw [h]
  exact Matrix.PosDef.diagonal (fun _ => hJ)

theorem Env.withJitter_exactSolve (E : Env F) (J : F) (hE : E.ExactSolve) :
    (E.withJitter J).ExactSolve := hE

/-- The posterior mean at the training locations, as a function of the jitter, when the
noise term is `0`: `k(X,X)·(k(X,X) + J·I)⁻¹·y`. -/
theorem mean_sub_outputs {n : ℕ} (A : Matrix (Fin n) (Fin n) ℝ) (y : Fin n → ℝ) (J : ℝ)
    (hdet : IsUnit (A + J • (1 : Matrix (Fin n) (Fin n) ℝ)).det) :
    A *ᵥ ((A + J • (1 : Matrix (Fin n) (Fin n) ℝ))⁻¹ *ᵥ y) - y =
      -(J • ((A + J • (1 : Matrix (Fin n) (Fin n) ℝ))⁻¹ *ᵥ y)) := by
  have h1 : (A + J • (1 : Matrix (Fin n) (Fin n) ℝ)) *ᵥ
      ((A + J • (1 : Matrix (Fin n) (Fin n) ℝ))⁻¹ *ᵥ y) = y := by
    rw [Matrix.mulVec_mulVec, Matrix.mul_nonsing_inv _ hdet, Matrix.one_mulVec]
  rw [Matrix.add_mulVec, Matrix.smul_mulVec_assoc, Matrix.one_mulVec] at h1
  rw [eq_neg_iff_add_eq_zero, sub_add_eq_add_sub, sub_eq_zero]
  exact h1

theorem tendsto_mean_of_isUnit {n : ℕ} (A : Matrix (Fin n) (Fin n) ℝ) (y : Fin n → ℝ)
    (hdet : IsUnit A.det) (i : Fin n) :
    Filter.Tendsto
      (fun J : ℝ => (A *ᵥ ((A + J • (1 : Matrix (Fin n) (Fin n) ℝ))⁻¹ *ᵥ y)) i)
      (nhdsWithin 0 (Set.Ioi 0)) (nhds (y i)) := by
  have hcont : ContinuousAt
      (fun J : ℝ => A *ᵥ ((A + J • (1 : Matrix (Fin n) (Fin n) ℝ))⁻¹ *ᵥ y)) 0 := by
    have hA : Continuous (fun J : ℝ => A + J • (1 : Matrix (Fin n) (Fin n) ℝ)) :=
      continuous_const.add (continuous_id.smul continuous_const)
    have hinv : ContinuousAt (fun J : ℝ => (A + J • (1 : Matrix (Fin n) (Fin n) ℝ))⁻¹) 0 := by
      have h0 : ContinuousAt (Inv.inv : Matrix (Fin n) (Fin n) ℝ → Matrix (Fin n) (Fin n) ℝ)
          (A + (0 : ℝ) • (1 : Matrix (Fin n) (Fin n) ℝ)) := by
        apply continuousAt_matrix_inv
        rw [zero_smul, add_zero, Ring.inverse_eq_inv']
        exact continuousAt_inv₀ hdet.ne_zero
      exact ContinuousAt.comp (f := fun J : ℝ => A + J • (1 : Matrix (Fin n) (Fin n) ℝ)) h0
        hA.continuousAt
    have hmv : ContinuousAt
        (fun J : ℝ => (A + J • (1 : Matrix (Fin n) (Fin n) ℝ))⁻¹ *ᵥ y) 0 := by
      rw [continuousAt_pi]
      intro j
      simp only [Matrix.mulVec, Matrix.dotProduct]
      apply tendsto_finset_sum
      intro l _
      exact ((continuousAt_pi.mp (continuousAt_pi.mp hinv j) l).mul continuousAt_const)
    rw [continuousAt_pi]
    intro j
    simp only [Matrix.mulVec, Matrix.dotProduct]
    apply tendsto_finset_sum
    intro l _
    exact (continuousAt_const.mul (continuousAt_pi.mp hmv l))
  have hval : A *ᵥ ((A + (0 : ℝ) • (1 : Matrix (Fin n) (Fin n) ℝ))⁻¹ *ᵥ y) = y := by
    rw [zero_smul, add_zero, Matrix.mulVec_mulVec, Matrix.mul_nonsing_inv _ hdet,
      Matrix.one_mulVec]
  have hi := (continuousAt_pi.mp hcont i)
  have := hi.tendsto
  simp only [hval] at this
  exact this.mono_left nhdsWithin_le_nhds

/-- C9, amended. For a non-empty training pair `(X, y)` with `k(X,X)` symmetric positive
semi-definite, a vanishing noise term `exp(2·log_noise_sd)`, explicit trend disabled and
an exact solver: for every jitter `J > 0`, `predict(X)` after `infer(X, y)` returns a mean
`m` with `m − y = −J·α`, `α = (k(X,X) + J·I)⁻¹·y`.  If `k(X,X)` is moreover positive
definite, `m` tends to `y` as the jitter tends to `0`, and with the jitter `0` the mean
is `y` itself. -/
theorem predict_training_locations (E : Env ℝ) (C : CovFunc κ ℝ) (gp : GP κ ℝ)
    (X y : VectorXd ℝ) (hX : X ≠ []) (hy : y.length = X.length)
    (htrend : gp.use_explicit_trend_ = false) (hE : E.ExactSolve)
    (hnoise : E.exp (2 * gp.log_noise_sd_) = 0)
    (hpsd : (C.evaluate gp.covFunc_ X X).1.PosSemidef) :
    (∀ J : ℝ, 0 < J → ∃ (gp1 : GP κ ℝ) (cov : MatrixXd ℝ),
      gp.inferData (E.withJitter J) C X y = .ok gp1 ∧
      gp1.predict (E.withJitter J) C X = .ok
        (List.ofFn ((C.evaluate gp.covFunc_ X X).1 *ᵥ
          (((C.evaluate gp.covFunc_ X X).1 + J • (1 : Matrix _ _ ℝ))⁻¹ *ᵥ outputs X y hy)),
          cov) ∧
      (C.evaluate gp.covFunc_ X X).1 *ᵥ
          (((C.evaluate gp.covFunc_ X X).1 + J • (1 : Matrix _ _ ℝ))⁻¹ *ᵥ outputs X y hy) -
          outputs X y hy =
        -(J • (((C.evaluate gp.covFunc_ X X).1 + J • (1 : Matrix _ _ ℝ))⁻¹ *ᵥ
          outputs X y hy))) ∧
    ((C.evaluate gp.covFunc_ X X).1.PosDef →
      (∀ i, Filter.Tendsto
        (fun J : ℝ => ((C.evaluate gp.covFunc_ X X).1 *ᵥ
          (((C.evaluate gp.covFunc_ X X).1 + J • (1 : Matrix _ _ ℝ))⁻¹ *ᵥ outputs X y hy)) i)
        (nhdsWithin 0 (Set.Ioi 0)) (nhds (outputs X y hy i))) ∧
      ∃ (gp1 : GP κ ℝ) (cov : MatrixXd ℝ),
        gp.inferData (E.withJitter 0) C X y = .ok gp1 ∧
        gp1.predict (E.withJitter 0) C X = .ok (y, cov)) := by
  have hgram : ∀ J : ℝ, gramSpec (E.withJitter J) C gp.covFunc_ gp.log_noise_sd_ X =
      (C.evaluate gp.covFunc_ X X).1 + J • (1 : Matrix _ _ ℝ) := by
    intro J
    have : (E.withJitter J).exp (2 * gp.log_noise_sd_) = 0 := hnoise
    simp only [gramSpec, this, zero_add]
    rfl
  refine ⟨?_, ?_⟩
  · intro J hJ
    have hpd : ((C.evaluate gp.covFunc_ X X).1 + J • (1 : Matrix _ _ ℝ)).PosDef :=
      Matrix.PosDef.posSemidef_add hpsd (posDef_smul_one J hJ)
    have hunit : IsUnit ((C.evaluate gp.covFunc_ X X).1 + J • (1 : Matrix _ _ ℝ)).det :=
      (Matrix.isUnit_iff_isUnit_det _).mp hpd.isUnit
    obtain ⟨gp1, hinf, -, -, hpred⟩ := predict_noTrend_exact (E.withJitter J) C gp X y X hX hy
      htrend (E.withJitter_exactSolve J hE) (by rw [hgram]; exact hunit)
    rw [hgram] at hpred
    exact ⟨gp1, _, hinf, hpred, mean_sub_outputs _ _ J hunit⟩
  · intro hpd
    have hunit : IsUnit (C.evaluate gp.covFunc_ X X).1.det :=
      (Matrix.isUnit_iff_isUnit_det _).mp hpd.isUnit
    refine ⟨fun i => tendsto_mean_of_isUnit _ _ hunit i, ?_⟩
    have hg0 : gramSpec (E.withJitter 0) C gp.covFunc_ gp.log_noise_sd_ X =
        (C.evaluate gp.covFunc_ X X).1 := by
      rw [hgram, zero_smul, add_zero]
    obtain ⟨gp1, hinf, -, -, hpred⟩ := predict_noTrend_exact (E.withJitter 0) C gp X y X hX hy
      htrend (E.withJitter_exactSolve 0 hE) (by rw [hg0]; exact hunit)
    rw [hg0, Matrix.mulVec_mulVec, Matrix.mul_nonsing_inv _ hunit, Matrix.one_mulVec] at hpred
    have hlist : List.ofFn (outputs X y hy) = y := by
      apply List.ext_get
      · simp [hy]
      · intro i h1 h2
        simp [outputs]
    rw [hlist] at hpred
    exact ⟨gp1, _, hinf, hpred⟩

theorem expUnderflow_noise :
    expUnderflow Real.exp (-745) (2 * (GP.ofCovFunc (1 : ℝ) : GP ℝ ℝ).log_noise_sd_) = 0 := by
  have h : (2 : ℝ) * (GP.ofCovFunc (1 : ℝ) : GP ℝ ℝ).log_noise_sd_ < -745 := by
    simp only [GP.ofCovFunc]
    norm_num
  simp only [expUnderflow, if_pos h]

/-- Witness of C9 (amended). -/
theorem predict_training_locations_witness :
    (∀ J : ℝ, 0 < J → ∃ (gp1 : GP ℝ ℝ) (cov : MatrixXd ℝ),
      (GP.ofCovFunc (1 : ℝ)).inferData
        ((Env.exact (expUnderflow Real.exp (-745)) Real.log Real.pi 1e-6).withJitter J)
        linearKernel [1] [2] = .ok gp1 ∧
      gp1.predict ((Env.exact (expUnderflow Real.exp (-745)) Real.log Real.pi 1e-6).withJitter J)
        linearKernel [1] = .ok
        (List.ofFn ((linearKernel.evaluate (1 : ℝ) [1] [1]).1 *ᵥ
          (((linearKernel.evaluate (1 : ℝ) [1] [1]).1 + J • (1 : Matrix _ _ ℝ))⁻¹ *ᵥ
            outputs [1] [2] rfl)), cov) ∧
      (linearKernel.evaluate (1 : ℝ) [1] [1]).1 *ᵥ
          (((linearKernel.evaluate (1 : ℝ) [1] [1]).1 + J • (1 : Matrix _ _ ℝ))⁻¹ *ᵥ
            outputs [1] [2] rfl) - outputs [1] [2] rfl =
        -(J • (((linearKernel.evaluate (1 : ℝ) [1] [1]).1 + J • (1 : Matrix _ _ ℝ))⁻¹ *ᵥ
          outputs [1] [2] rfl))) ∧
    ((linearKernel.evaluate (1 : ℝ) [1] [1]).1.PosDef →
      (∀ i, Filter.Tendsto
        (fun J : ℝ => ((linearKernel.evaluate (1 : ℝ) [1] [1]).1 *ᵥ
          (((linearKernel.evaluate (1 : ℝ) [1] [1]).1 + J • (1 : Matrix _ _ ℝ))⁻¹ *ᵥ
            outputs [1] [2] rfl)) i)
        (nhdsWithin 0 (Set.Ioi 0)) (nhds (outputs [1] [2] rfl i))) ∧
      ∃ (gp1 : GP ℝ ℝ) (cov : MatrixXd ℝ),
        (GP.ofCovFunc (1 : ℝ)).inferData
          ((Env.exact (expUnderflow Real.exp (-745)) Real.log Real.pi 1e-6).withJitter 0)
          linearKernel [1] [2] = .ok gp1 ∧
        gp1.predict ((Env.exact (expUnderflow Real.exp (-745)) Real.log Real.pi 1e-6).withJitter 0)
          linearKernel [1] = .ok ([2], cov)) :=
  predict_training_locations (Env.exact (expUnderflow Real.exp (-745)) Real.log Real.pi 1e-6)
    linearKernel (GP.ofCovFunc (1 : ℝ)) [1] [2] (by simp) rfl rfl (Env.exact_exactSolve _ _ _ _)
    expUnderflow_noise
    (Matrix.PosDef.posSemidef (posDef_fin_one _ (by
      show 0 < ((linearKernel.evaluate (1 : ℝ) [1] [1]).1 : Matrix (Fin 1) (Fin 1) ℝ)
        (0 : Fin 1) (0 : Fin 1)
      simp [linearKernel])))

/-- C9, counterexample. The linear kernel at the single training location `0` has the
positive semi-definite matrix `k(X,X) = 0`; with the output `1`, noise term `0` and
explicit trend disabled, `predict(X)` returns the mean `0` for every jitter `J > 0`: the
mean stays at distance `1` from the training output however small the jitter. -/
theorem predict_training_locations_counterexample :
    (linearKernel.evaluate (1 : ℝ) [0] [0]).1.PosSemidef ∧
    (Env.exact (expUnderflow Real.exp (-745)) Real.log Real.pi 1e-6).exp
      (2 * (GP.ofCovFunc (1 : ℝ) : GP ℝ ℝ).log_noise_sd_) = 0 ∧
    ∀ J : ℝ, 0 < J → ∃ (gp1 : GP ℝ ℝ) (cov : MatrixXd ℝ),
      (GP.ofCovFunc (1 : ℝ)).inferData
        ((Env.exact (expUnderflow Real.exp (-745)) Real.log Real.pi 1e-6).withJitter J)
        linearKernel [0] [1] = .ok gp1 ∧
      gp1.predict ((Env.exact (expUnderflow Real.exp (-745)) Real.log Real.pi 1e-6).withJitter J)
        linearKernel [0] = .ok ([0], cov) := by
  have hzero : (linearKernel.evaluate (1 : ℝ) [0] [0]).1 = 0 := by
    ext i j
    simp [linearKernel]
  refine ⟨?_, expUnderflow_noise, ?_⟩
  · rw [hzero]
    exact Matrix.PosSemidef.zero
  · intro J hJ
    have hgram : gramSpec
        ((Env.exact (expUnderflow Real.exp (-745)) Real.log Real.pi 1e-6).withJitter J)
        linearKernel (1 : ℝ) (GP.ofCovFunc (1 : ℝ) : GP ℝ ℝ).log_noise_sd_ [0] =
        J • (1 : Matrix _ _ ℝ) := by
      have hn : ((Env.exact (expUnderflow Real.exp (-745)) Real.log Real.pi 1e-6).withJitter
          J).exp (2 * (GP.ofCovFunc (1 : ℝ) : GP ℝ ℝ).log_noise_sd_) = 0 := expUnderflow_noise
      simp only [gramSpec, hn, hzero, zero_add]
      rfl
    have hunit : IsUnit (gramSpec
        ((Env.exact (expUnderflow Real.exp (-745)) Real.log Real.pi 1e-6).withJitter J)
        linearKernel (1 : ℝ) (GP.ofCovFunc (1 : ℝ) : GP ℝ ℝ).log_noise_sd_ [0]).det := by
      rw [hgram]
      exact (Matrix.isUnit_iff_isUnit_det _).mp (posDef_smul_one J hJ).isUnit
    obtain ⟨gp1, hinf, -, -, hpred⟩ := predict_noTrend_exact
      ((Env.exact (expUnderflow Real.exp (-745)) Real.log Real.pi 1e-6).withJitter J)
      linearKernel (GP.ofCovFunc (1 : ℝ)) [0] [1] [0] (by simp) rfl rfl
      (Env.exact_exactSolve _ _ _ _) hunit
    have hz : (linearKernel.evaluate (GP.ofCovFunc (1 : ℝ) : GP ℝ ℝ).covFunc_ [0] [0]).1 = 0 :=
      hzero
    rw [hz, Matrix.zero_mulVec] at hpred
    exact ⟨gp1, _, hinf, hpred⟩

/-- The method `infer(X, y)` fails on an empty `X`. -/
theorem inferData_nil (E : Env F) (C : CovFunc κ F) (gp : GP κ F) (y : VectorXd F) :
    gp.inferData E C [] y = .error .notInitialized := by
  simp [GP.inferData, GP.infer]

/-- The method `infer(X, y)` fails when `y` has another length than `X`. -/
theorem inferData_length_ne (E : Env F) (C : CovFunc κ F) (gp : GP κ F) (X y : VectorXd F)
    (hX : X ≠ []) (hy : y.length ≠ X.length) :
    gp.inferData E C X y = .error .sizeMismatch := by
  have hlen : X.length ≠ 0 := by simpa using hX
  simp [GP.inferData, GP.infer, hlen, LDLT.compute, LDLT.solveVec, MatrixXd.castVec, hy, bind,
    Except.bind]

/-- What `predict` returns after `infer(X, y)` depends on the state before `infer` only
through the kernel, `log_noise_sd_` and the explicit-trend flag. -/
theorem predict_inferData_congr (E : Env F) (C : CovFunc κ F) (a b : GP κ F)
    (X y q : VectorXd F) (hcov : a.covFunc_ = b.covFunc_)
    (hnoise : a.log_noise_sd_ = b.log_noise_sd_)
    (htrend : a.use_explicit_trend_ = b.use_explicit_trend_) :
    (a.inferData E C X y >>= fun g => g.predict E C q) =
      (b.inferData E C X y >>= fun g => g.predict E C q) := by
  by_cases hX : X = []
  · subst hX
    rw [inferData_nil, inferData_nil]
  by_cases hy : y.length = X.length
  · have hlen : X.length ≠ 0 := by simpa using hX
    cases hb : b.use_explicit_trend_
    · rw [inferData_noTrend E C a X y hX hy (htrend.trans hb),
        inferData_noTrend E C b X y hX hy hb]
      simp only [bind, Except.bind, GP.predict, GP.predictCov, hcov, hnoise, htrend, hb, hlen,
        if_false, ite_false, Bool.false_eq_true]
    · rw [inferData_trend E C a X y hX hy (htrend.trans hb),
        inferData_trend E C b X y hX hy hb]
      simp only [hcov, hnoise, htrend]
  · rw [inferData_length_ne E C a X y hX hy, inferData_length_ne E C b X y hX hy]

/-- C10, amended. After `clear()` the training locations, the training outputs and the
Gram matrix are empty, `predict(q)` returns the zero vector and `k(q,q)` and
`neg_log_likelihood()` returns `0`, as on a freshly constructed regressor with the same
kernel; a following `infer(X, y)` leads to the same predictions as `infer(X, y)` on any
regressor with the same kernel, the same `log_noise_sd_` and the same explicit-trend
flag (which `clear()` does not reset). -/
theorem clear_spec (E : Env F) (C : CovFunc κ F) (gp : GP κ F) (q : VectorXd F) :
    gp.clear.data_loc_ = [] ∧ gp.clear.data_out_ = [] ∧
    gp.clear.gram_matrix_ = MatrixXd.empty ∧
    gp.clear.predict E C q =
      .ok (List.replicate q.length 0, ⟨q.length, q.length, (C.evaluate gp.covFunc_ q q).1⟩) ∧
    gp.clear.neg_log_likelihood E = .ok 0 ∧
    gp.clear.predict E C q = (GP.ofCovFunc gp.covFunc_ : GP κ F).predict E C q ∧
    gp.clear.neg_log_likelihood E = (GP.ofCovFunc gp.covFunc_ : GP κ F).neg_log_likelihood E ∧
    ∀ (fresh : GP κ F) (X y q' : VectorXd F), fresh.covFunc_ = gp.covFunc_ →
      fresh.log_noise_sd_ = gp.log_noise_sd_ →
      fresh.use_explicit_trend_ = gp.use_explicit_trend_ →
      (gp.clear.inferData E C X y >>= fun g => g.predict E C q') =
        (fresh.inferData E C X y >>= fun g => g.predict E C q') := by
  refine ⟨rfl, rfl, rfl, ?_, ?_, ?_, ?_, ?_⟩
  · simp [GP.predict, GP.clear]
  · simp [GP.neg_log_likelihood, GP.clear, MatrixXd.empty, pure, Except.pure]
  · simp [GP.predict, GP.clear, GP.ofCovFunc]
  · simp [GP.neg_log_likelihood, GP.clear, GP.ofCovFunc, MatrixXd.empty]
  · intro fresh X y q' hcov hnoise htrend
    exact predict_inferData_congr E C gp.clear fresh X y q' hcov.symm hnoise.symm htrend.symm

/-- C10, counterexample. A regressor with the kernel `k = 0` on which
`enableExplicitTrend()` was called: after `clear()` and `infer([0, 1], [1, 1])` the mean
predicted at `2` is `1` (the fitted line), whereas a freshly constructed regressor with
the same kernel and hyperparameters predicts the mean `0` after the same `infer`. -/
theorem clear_counterexample :
    ∃ (gpA gpB : GP ℝ ℝ) (covA covB : MatrixXd ℝ),
      ((GP.ofCovFunc (0 : ℝ)).enableExplicitTrend.clear).inferData
        (Env.exact Real.exp Real.log Real.pi 1e-6) linearKernel [0, 1] [1, 1] = .ok gpA ∧
      (GP.ofCovFunc (0 : ℝ)).inferData
        (Env.exact Real.exp Real.log Real.pi 1e-6) linearKernel [0, 1] [1, 1] = .ok gpB ∧
      gpA.predict (Env.exact Real.exp Real.log Real.pi 1e-6) linearKernel [2] = .ok ([1], covA) ∧
      gpB.predict (Env.exact Real.exp Real.log Real.pi 1e-6) linearKernel [2] = .ok ([0], covB) := by
  have hzero : ∀ a b : List ℝ, (linearKernel.evaluate (0 : ℝ) a b).1 = 0 := by
    intro a b
    ext i j
    simp [linearKernel]
  have hc : (Env.exact Real.exp Real.log Real.pi 1e-6).exp (2 * (-1e20 : ℝ)) +
      (Env.exact Real.exp Real.log Real.pi 1e-6).JITTER ≠ 0 := by
    simp only [Env.exact]
    positivity
  obtain ⟨gpA, hA, -⟩ := inferData_ok (Env.exact Real.exp Real.log Real.pi 1e-6) linearKernel
    ((GP.ofCovFunc (0 : ℝ)).enableExplicitTrend.clear) [0, 1] [1, 1] (by simp) rfl
  have hfit : (GP.features ([0, 1] : List ℝ))ᵀ *ᵥ ![1, 0] = outputs [0, 1] [1, 1] rfl := by
    funext i
    simp only [Matrix.mulVec, Matrix.dotProduct, Fin.sum_univ_two, GP.features,
      Matrix.transpose_apply, outputs]
    match i with
    | ⟨0, _⟩ => simp
    | ⟨1, _⟩ => simp
  have hdet : (GP.features ([0, 1] : List ℝ) * (GP.features ([0, 1] : List ℝ))ᵀ).det ≠ 0 := by
    rw [Matrix.det_fin_two]
    simp only [Matrix.mul_apply, Matrix.transpose_apply, GP.features, sum_fin_length_two]
    simp
  obtain ⟨covA, hpA⟩ := predict_trend_zeroKernel (Env.exact Real.exp Real.log Real.pi 1e-6)
    linearKernel ((GP.ofCovFunc (0 : ℝ)).enableExplicitTrend.clear) gpA [0, 1] [1, 1] [2]
    (by simp) rfl rfl (Env.exact_exactSolve _ _ _ _) hc (hzero _ _) (hzero _ _) ![1, 0] hfit hdet hA
  have hunit : IsUnit (gramSpec (Env.exact Real.exp Real.log Real.pi 1e-6) linearKernel
      (GP.ofCovFunc (0 : ℝ) : GP ℝ ℝ).covFunc_ (GP.ofCovFunc (0 : ℝ) : GP ℝ ℝ).log_noise_sd_
      [0, 1]).det := by
    have : gramSpec (Env.exact Real.exp Real.log Real.pi 1e-6) linearKernel
        (GP.ofCovFunc (0 : ℝ) : GP ℝ ℝ).covFunc_ (GP.ofCovFunc (0 : ℝ) : GP ℝ ℝ).log_noise_sd_
        [0, 1] = ((Env.exact Real.exp Real.log Real.pi 1e-6).exp (2 * (-1e20 : ℝ)) +
          (Env.exact Real.exp Real.log Real.pi 1e-6).JITTER) • (1 : Matrix _ _ ℝ) := by
      simp only [gramSpec]
      rw [show (linearKernel.evaluate (GP.ofCovFunc (0 : ℝ) : GP ℝ ℝ).covFunc_ [0, 1] [0, 1]).1 = 0
        from hzero _ _, zero_add]
      rfl
    rw [this]
    exact isUnit_det_smul_one _ hc
  obtain ⟨gpB, hB, -, -, hpB⟩ := predict_noTrend_exact
    (Env.exact Real.exp Real.log Real.pi 1e-6) linearKernel (GP.ofCovFunc (0 : ℝ)) [0, 1] [1, 1]
    [2] (by simp) rfl rfl (Env.exact_exactSolve _ _ _ _) hunit
  rw [show (linearKernel.evaluate (GP.ofCovFunc (0 : ℝ) : GP ℝ ℝ).covFunc_ [2] [0, 1]).1 = 0
    from hzero _ _, Matrix.zero_mulVec] at hpB
  refine ⟨gpA, gpB, covA, _, hA, hB, ?_, hpB⟩
  rw [hpA]
  congr 2
  simp [GP.features, Matrix.mulVec, Matrix.dotProduct, Fin.sum_univ_two]


/-- C12. For every regressor, `infer(locations, outputs)` with an empty `locations` fails
on the assertion of `infer()`, whatever the kernel, the solver and `outputs` are: no Gram
matrix is built or decomposed.  With a non-empty `locations` the assertion passes: the
call returns a state holding the Gram matrix and its decomposition when `outputs` has
the length of `locations`, and fails in `solve`, on the size of `outputs`, otherwise. -/
theorem infer_empty_locations (E : Env F) (C : CovFunc κ F) (gp : GP κ F) :
    (∀ y : VectorXd F, gp.inferData E C [] y = .error .notInitialized) ∧
    (∀ X y : VectorXd F, X ≠ [] →
      gp.inferData E C X y ≠ .error .notInitialized ∧
      (y.length = X.length → ∃ gp1 : GP κ F, gp.inferData E C X y = .ok gp1 ∧
        gp1.gram_matrix_ =
          ⟨X.length, X.length, gramSpec E C gp.covFunc_ gp.log_noise_sd_ X⟩ ∧
        gp1.chol_gram_matrix_ =
          .factored X.length (gramSpec E C gp.covFunc_ gp.log_noise_sd_ X)) ∧
      (y.length ≠ X.length → gp.inferData E C X y = .error .sizeMismatch)) := by
  refine ⟨fun y => ?_, fun X y hX => ?_⟩
  · simp [GP.inferData, GP.infer]
  · have hok : y.length = X.length → ∃ gp1 : GP κ F, gp.inferData E C X y = .ok gp1 ∧
        gp1.gram_matrix_ =
          ⟨X.length, X.length, gramSpec E C gp.covFunc_ gp.log_noise_sd_ X⟩ ∧
        gp1.chol_gram_matrix_ =
          .factored X.length (gramSpec E C gp.covFunc_ gp.log_noise_sd_ X) := by
      intro hy
      obtain ⟨gp1, hinf, -, -, -, -, -, hgram, hchol, -⟩ := inferData_ok E C gp X y hX hy
      exact ⟨gp1, hinf, hgram, hchol⟩
    refine ⟨?_, hok, inferData_length_ne E C gp X y hX⟩
    by_cases hy : y.length = X.length
    · obtain ⟨gp1, hinf, -⟩ := hok hy
      rw [hinf]
      exact fun h => Except.noConfusion h
    · rw [inferData_length_ne E C gp X y hX hy]
      intro h
      injection h with h
      exact GPError.noConfusion h

/-- With explicit trend enabled, an exact solver and an invertible Gram matrix `K`: what
`infer(X, y)` stores and what `predict(q)` returns, in terms of what the decomposition of
the feature matrix `Φ·K⁻¹·Φᵗ` returns for `solve`. -/
theorem predict_trend_solver (E : Env F) (C : CovFunc κ F) (gp : GP κ F)
    (X y q : VectorXd F) (hX : X ≠ []) (hy : y.length = X.length)
    (htrend : gp.use_explicit_trend_ = true) (hE : E.ExactSolve)
    (hK : IsUnit (gramSpec E C gp.covFunc_ gp.log_noise_sd_ X).det) :
    ∃ gp1 : GP κ F, gp.inferData E C X y = .ok gp1 ∧
      gp1.feature_vectors_ = ⟨2, X.length, GP.features X⟩ ∧
      gp1.feature_matrix_ = ⟨2, 2, GP.features X *
        (gramSpec E C gp.covFunc_ gp.log_noise_sd_ X)⁻¹ * (GP.features X)ᵀ⟩ ∧
      gp1.chol_feature_matrix_ = .factored 2 (GP.features X *
        (gramSpec E C gp.covFunc_ gp.log_noise_sd_ X)⁻¹ * (GP.features X)ᵀ) ∧
      gp1.alpha_ = List.ofFn ((gramSpec E C gp.covFunc_ gp.log_noise_sd_ X)⁻¹ *ᵥ outputs X y hy) ∧
      gp1.beta_ = List.ofFn
        (E.ldltSolve (GP.features X * (gramSpec E C gp.covFunc_ gp.log_noise_sd_ X)⁻¹ *
            (GP.features X)ᵀ) (GP.features X) *ᵥ
          ((gramSpec E C gp.covFunc_ gp.log_noise_sd_ X)⁻¹ *ᵥ outputs X y hy)) ∧
      gp1.predict E C q = .ok
        (List.ofFn ((C.evaluate gp.covFunc_ q X).1 *ᵥ
            ((gramSpec E C gp.covFunc_ gp.log_noise_sd_ X)⁻¹ *ᵥ outputs X y hy) +
          (GP.features q - GP.features X * (gramSpec E C gp.covFunc_ gp.log_noise_sd_ X)⁻¹ *
              ((C.evaluate gp.covFunc_ q X).1)ᵀ)ᵀ *ᵥ
            (E.ldltSolve (GP.features X * (gramSpec E C gp.covFunc_ gp.log_noise_sd_ X)⁻¹ *
                (GP.features X)ᵀ) (GP.features X) *ᵥ
              ((gramSpec E C gp.covFunc_ gp.log_noise_sd_ X)⁻¹ *ᵥ outputs X y hy))),
         ⟨q.length, q.length,
          (C.evaluate gp.covFunc_ q q).1 -
            (C.evaluate gp.covFunc_ q X).1 * (gramSpec E C gp.covFunc_ gp.log_noise_sd_ X)⁻¹ *
              ((C.evaluate gp.covFunc_ q X).1)ᵀ +
            (GP.features q - GP.features X * (gramSpec E C gp.covFunc_ gp.log_noise_sd_ X)⁻¹ *
                ((C.evaluate gp.covFunc_ q X).1)ᵀ)ᵀ *
              E.ldltSolve (GP.features X * (gramSpec E C gp.covFunc_ gp.log_noise_sd_ X)⁻¹ *
                  (GP.features X)ᵀ)
                (GP.features q - GP.features X *
                  (gramSpec E C gp.covFunc_ gp.log_noise_sd_ X)⁻¹ *
                  ((C.evaluate gp.covFunc_ q X).1)ᵀ)⟩) := by
  have hsolve : ∀ (m : ℕ) (B : Matrix (Fin X.length) (Fin m) F),
      E.ldltSolve (gramSpec E C gp.covFunc_ gp.log_noise_sd_ X) B =
        (gramSpec E C gp.covFunc_ gp.log_noise_sd_ X)⁻¹ * B := fun m B => hE _ _ _ _ hK
  have hassoc : GP.features X * ((gramSpec E C gp.covFunc_ gp.log_noise_sd_ X)⁻¹ *
      (GP.features X)ᵀ) = GP.features X * (gramSpec E C gp.covFunc_ gp.log_noise_sd_ X)⁻¹ *
      (GP.features X)ᵀ := (Matrix.mul_assoc _ _ _).symm
  have hassocM : GP.features X * ((gramSpec E C gp.covFunc_ gp.log_noise_sd_ X)⁻¹ *
      ((C.evaluate gp.covFunc_ q X).1)ᵀ) =
      GP.features X * (gramSpec E C gp.covFunc_ gp.log_noise_sd_ X)⁻¹ *
      ((C.evaluate gp.covFunc_ q X).1)ᵀ := (Matrix.mul_assoc _ _ _).symm
  have hpredict : (∀ gp1 : GP κ F, gp.inferData E C X y = .ok gp1 →
      gp1.predict E C q = .ok
        (List.ofFn ((C.evaluate gp.covFunc_ q X).1 *ᵥ
            ((gramSpec E C gp.covFunc_ gp.log_noise_sd_ X)⁻¹ *ᵥ outputs X y hy) +
          (GP.features q - GP.features X * (gramSpec E C gp.covFunc_ gp.log_noise_sd_ X)⁻¹ *
              ((C.evaluate gp.covFunc_ q X).1)ᵀ)ᵀ *ᵥ
            (E.ldltSolve (GP.features X * (gramSpec E C gp.covFunc_ gp.log_noise_sd_ X)⁻¹ *
                (GP.features X)ᵀ) (GP.features X) *ᵥ
              ((gramSpec E C gp.covFunc_ gp.log_noise_sd_ X)⁻¹ *ᵥ outputs X y hy))),
         ⟨q.length, q.length,
          (C.evaluate gp.covFunc_ q q).1 -
            (C.evaluate gp.covFunc_ q X).1 * (gramSpec E C gp.covFunc_ gp.log_noise_sd_ X)⁻¹ *
              ((C.evaluate gp.covFunc_ q X).1)ᵀ +
            (GP.features q - GP.features X * (gramSpec E C gp.covFunc_ gp.log_noise_sd_ X)⁻¹ *
                ((C.evaluate gp.covFunc_ q X).1)ᵀ)ᵀ *
              E.ldltSolve (GP.features X * (gramSpec E C gp.covFunc_ gp.log_noise_sd_ X)⁻¹ *
                  (GP.features X)ᵀ)
                (GP.features q - GP.features X *
                  (gramSpec E C gp.covFunc_ gp.log_noise_sd_ X)⁻¹ *
                  ((C.evaluate gp.covFunc_ q X).1)ᵀ)⟩)) := by
    intro gp1 h
    rw [inferData_trend E C gp X y hX hy htrend] at h
    injection h with h
    subst h
    simp only [htrend]
    rw [predict_trend_state E C q _ X y hX]
    simp only [hsolve, col_solve_eq_mulVec, hassoc, hassocM, Matrix.mul_assoc
      ((C.evaluate gp.covFunc_ q X).1)]
  refine ⟨_, inferData_trend E C gp X y hX hy htrend, rfl, ?_, ?_, ?_, ?_,
    hpredict _ (inferData_trend E C gp X y hX hy htrend)⟩
  · simp only [hsolve, hassoc]
  · simp only [hsolve, hassoc]
  · simp only [hsolve, col_solve_eq_mulVec]
  · simp only [hsolve, col_solve_eq_mulVec, hassoc]

/-- When all training locations coincide, the feature matrix `Φ·M·Φᵗ` is singular,
whatever `M` is. -/
theorem det_features_const (X : VectorXd F) (t : F) (h : ∀ i, X.get i = t)
    (M : Matrix (Fin X.length) (Fin X.length) F) :
    (GP.features X * M * (GP.features X)ᵀ).det = 0 := by
  have hΦ : ∀ (r : Fin 2) (i : Fin X.length), GP.features X r i = t ^ (r : ℕ) := by
    intro r i
    show X.get i ^ (r : ℕ) = t ^ (r : ℕ)
    rw [h i]
  have hentry : ∀ a b : Fin 2, (GP.features X * M * (GP.features X)ᵀ) a b =
      t ^ (a : ℕ) * (∑ j, ∑ i, M i j) * t ^ (b : ℕ) := by
    intro a b
    simp only [Matrix.mul_apply, Matrix.transpose_apply, hΦ]
    rw [← Finset.sum_mul]
    congr 1
    rw [Finset.mul_sum]
    refine Finset.sum_congr rfl fun j _ => ?_
    rw [Finset.mul_sum]
  rw [Matrix.det_fin_two, hentry, hentry, hentry, hentry]
  ring

/-- C13, amended. With explicit trend enabled before `infer(X, y)`, a non-empty `X`, an
exact solver and an invertible Gram matrix `K`: `infer` stores `Φ` with the rows `1` and
`t` over `X`, the feature matrix `G = Φ·K⁻¹·Φᵗ`, `α = K⁻¹·y` and `β = S(Φ)·α`, and
`predict(q)` returns the mean `M·α + Rᵗ·β` and the covariance
`k(q,q) − M·K⁻¹·Mᵗ + Rᵗ·S(R)`, where `S(B)` is what the decomposition of `G` returns for
`solve(B)`, `M = k(q,X)` and `R = Φ_q − Φ·K⁻¹·Mᵗ` with `Φ_q` of rows `1` and `t` over `q`.
When `G` is invertible, `S(B) = G⁻¹·B`: then `β = G⁻¹·Φ·α` and the covariance is
`k(q,q) − M·K⁻¹·Mᵗ + Rᵗ·G⁻¹·R`.  When all locations of `X` coincide, `G` is singular. -/
theorem predict_explicit_trend (E : Env F) (C : CovFunc κ F) (gp : GP κ F)
    (X y q : VectorXd F) (hX : X ≠ []) (hy : y.length = X.length)
    (htrend : gp.use_explicit_trend_ = true) (hE : E.ExactSolve)
    (hK : IsUnit (gramSpec E C gp.covFunc_ gp.log_noise_sd_ X).det) :
    (∀ i, GP.features X 0 i = 1 ∧ GP.features X 1 i = X.get i) ∧
    (∀ j, GP.features q 0 j = 1 ∧ GP.features q 1 j = q.get j) ∧
    (∀ t : F, (∀ i, X.get i = t) →
      (GP.features X * (gramSpec E C gp.covFunc_ gp.log_noise_sd_ X)⁻¹ *
        (GP.features X)ᵀ).det = 0) ∧
    ∃ gp1 : GP κ F, gp.inferData E C X y = .ok gp1 ∧
      gp1.feature_vectors_ = ⟨2, X.length, GP.features X⟩ ∧
      gp1.feature_matrix_ = ⟨2, 2, GP.features X *
        (gramSpec E C gp.covFunc_ gp.log_noise_sd_ X)⁻¹ * (GP.features X)ᵀ⟩ ∧
      gp1.chol_feature_matrix_ = .factored 2 (GP.features X *
        (gramSpec E C gp.covFunc_ gp.log_noise_sd_ X)⁻¹ * (GP.features X)ᵀ) ∧
      gp1.alpha_ = List.ofFn ((gramSpec E C gp.covFunc_ gp.log_noise_sd_ X)⁻¹ *ᵥ outputs X y hy) ∧
      gp1.beta_ = List.ofFn
        (E.ldltSolve (GP.features X * (gramSpec E C gp.covFunc_ gp.log_noise_sd_ X)⁻¹ *
            (GP.features X)ᵀ) (GP.features X) *ᵥ
          ((gramSpec E C gp.covFunc_ gp.log_noise_sd_ X)⁻¹ *ᵥ outputs X y hy)) ∧
      gp1.predict E C q = .ok
        (List.ofFn ((C.evaluate gp.covFunc_ q X).1 *ᵥ
            ((gramSpec E C gp.covFunc_ gp.log_noise_sd_ X)⁻¹ *ᵥ outputs X y hy) +
          (GP.features q - GP.features X * (gramSpec E C gp.covFunc_ gp.log_noise_sd_ X)⁻¹ *
              ((C.evaluate gp.covFunc_ q X).1)ᵀ)ᵀ *ᵥ
            (E.ldltSolve (GP.features X * (gramSpec E C gp.covFunc_ gp.log_noise_sd_ X)⁻¹ *
                (GP.features X)ᵀ) (GP.features X) *ᵥ
              ((gramSpec E C gp.covFunc_ gp.log_noise_sd_ X)⁻¹ *ᵥ outputs X y hy))),
         ⟨q.length, q.length,
          (C.evaluate gp.covFunc_ q q).1 -
            (C.evaluate gp.covFunc_ q X).1 * (gramSpec E C gp.covFunc_ gp.log_noise_sd_ X)⁻¹ *
              ((C.evaluate gp.covFunc_ q X).1)ᵀ +
            (GP.features q - GP.features X * (gramSpec E C gp.covFunc_ gp.log_noise_sd_ X)⁻¹ *
                ((C.evaluate gp.covFunc_ q X).1)ᵀ)ᵀ *
              E.ldltSolve (GP.features X * (gramSpec E C gp.covFunc_ gp.log_noise_sd_ X)⁻¹ *
                  (GP.features X)ᵀ)
                (GP.features q - GP.features X *
                  (gramSpec E C gp.covFunc_ gp.log_noise_sd_ X)⁻¹ *
                  ((C.evaluate gp.covFunc_ q X).1)ᵀ)⟩) ∧
      (IsUnit (GP.features X * (gramSpec E C gp.covFunc_ gp.log_noise_sd_ X)⁻¹ *
          (GP.features X)ᵀ).det →
        gp1.beta_ = List.ofFn
          (((GP.features X * (gramSpec E C gp.covFunc_ gp.log_noise_sd_ X)⁻¹ *
              (GP.features X)ᵀ)⁻¹ * GP.features X) *ᵥ
            ((gramSpec E C gp.covFunc_ gp.log_noise_sd_ X)⁻¹ *ᵥ outputs X y hy)) ∧
        gp1.predict E C q = .ok
          (List.ofFn ((C.evaluate gp.covFunc_ q X).1 *ᵥ
              ((gramSpec E C gp.covFunc_ gp.log_noise_sd_ X)⁻¹ *ᵥ outputs X y hy) +
            (GP.features q - GP.features X * (gramSpec E C gp.covFunc_ gp.log_noise_sd_ X)⁻¹ *
                ((C.evaluate gp.covFunc_ q X).1)ᵀ)ᵀ *ᵥ
              (((GP.features X * (gramSpec E C gp.covFunc_ gp.log_noise_sd_ X)⁻¹ *
                  (GP.features X)ᵀ)⁻¹ * GP.features X) *ᵥ
                ((gramSpec E C gp.covFunc_ gp.log_noise_sd_ X)⁻¹ *ᵥ outputs X y hy))),
           ⟨q.length, q.length,
            (C.evaluate gp.covFunc_ q q).1 -
              (C.evaluate gp.covFunc_ q X).1 * (gramSpec E C gp.covFunc_ gp.log_noise_sd_ X)⁻¹ *
                ((C.evaluate gp.covFunc_ q X).1)ᵀ +
              (GP.features q - GP.features X * (gramSpec E C gp.covFunc_ gp.log_noise_sd_ X)⁻¹ *
                  ((C.evaluate gp.covFunc_ q X).1)ᵀ)ᵀ *
                (GP.features X * (gramSpec E C gp.covFunc_ gp.log_noise_sd_ X)⁻¹ *
                  (GP.features X)ᵀ)⁻¹ *
                (GP.features q - GP.features X * (gramSpec E C gp.covFunc_ gp.log_noise_sd_ X)⁻¹ *
                  ((C.evaluate gp.covFunc_ q X).1)ᵀ)⟩)) := by
  obtain ⟨gp1, hinf, hfv, hfm, hchol, halpha, hbeta, hpred⟩ :=
    predict_trend_solver E C gp X y q hX hy htrend hE hK
  refine ⟨fun i => by simp [GP.features], fun j => by simp [GP.features],
    fun t ht => det_features_const X t ht _, gp1, hinf, hfv, hfm, hchol, halpha, hbeta, hpred,
    fun hG => ?_⟩
  have hsolveG : ∀ (m : ℕ) (B : Matrix (Fin 2) (Fin m) F),
      E.ldltSolve (GP.features X * (gramSpec E C gp.covFunc_ gp.log_noise_sd_ X)⁻¹ *
        (GP.features X)ᵀ) B =
      (GP.features X * (gramSpec E C gp.covFunc_ gp.log_noise_sd_ X)⁻¹ *
        (GP.features X)ᵀ)⁻¹ * B := fun m B => hE _ _ _ _ hG
  refine ⟨?_, ?_⟩
  · rw [hbeta]
    simp only [hsolveG]
  · rw [hpred]
    simp only [hsolveG]
    simp only [Matrix.mul_assoc]

/-- Witness of C13 (amended): the kernel `k = 0`, training data `([0, 1], [1, 1])`, for
which the feature matrix is invertible, and the query `[2]`. -/
theorem predict_explicit_trend_witness :
    (∀ i, GP.features ([0, 1] : List ℝ) 0 i = 1 ∧
      GP.features ([0, 1] : List ℝ) 1 i = ([0, 1] : List ℝ).get i) ∧
    (∀ j, GP.features ([2] : List ℝ) 0 j = 1 ∧
      GP.features ([2] : List ℝ) 1 j = ([2] : List ℝ).get j) ∧
    ∃ gp1 : GP ℝ ℝ,
      (GP.ofCovFunc (0 : ℝ)).enableExplicitTrend.inferData
        (Env.exact Real.exp Real.log Real.pi 1e-6) linearKernel [0, 1] [1, 1] = .ok gp1 ∧
      gp1.feature_vectors_ = ⟨2, 2, GP.features ([0, 1] : List ℝ)⟩ ∧
      gp1.feature_matrix_ = ⟨2, 2, GP.features ([0, 1] : List ℝ) *
        (gramSpec (Env.exact Real.exp Real.log Real.pi 1e-6) linearKernel (0 : ℝ) (-1e20)
          [0, 1])⁻¹ * (GP.features ([0, 1] : List ℝ))ᵀ⟩ ∧
      gp1.alpha_ = List.ofFn
        ((gramSpec (Env.exact Real.exp Real.log Real.pi 1e-6) linearKernel (0 : ℝ) (-1e20)
          [0, 1])⁻¹ *ᵥ outputs [0, 1] [1, 1] rfl) ∧
      gp1.beta_ = List.ofFn
        (((GP.features ([0, 1] : List ℝ) *
            (gramSpec (Env.exact Real.exp Real.log Real.pi 1e-6) linearKernel (0 : ℝ) (-1e20)
              [0, 1])⁻¹ * (GP.features ([0, 1] : List ℝ))ᵀ)⁻¹ * GP.features ([0, 1] : List ℝ)) *ᵥ
          ((gramSpec (Env.exact Real.exp Real.log Real.pi 1e-6) linearKernel (0 : ℝ) (-1e20)
            [0, 1])⁻¹ *ᵥ outputs [0, 1] [1, 1] rfl)) ∧
      gp1.predict (Env.exact Real.exp Real.log Real.pi 1e-6) linearKernel [2] = .ok
        (List.ofFn ((linearKernel.evaluate (0 : ℝ) [2] [0, 1]).1 *ᵥ
            ((gramSpec (Env.exact Real.exp Real.log Real.pi 1e-6) linearKernel (0 : ℝ) (-1e20)
              [0, 1])⁻¹ *ᵥ outputs [0, 1] [1, 1] rfl) +
          (GP.features ([2] : List ℝ) - GP.features ([0, 1] : List ℝ) *
              (gramSpec (Env.exact Real.exp Real.log Real.pi 1e-6) linearKernel (0 : ℝ) (-1e20)
                [0, 1])⁻¹ * ((linearKernel.evaluate (0 : ℝ) [2] [0, 1]).1)ᵀ)ᵀ *ᵥ
            (((GP.features ([0, 1] : List ℝ) *
                (gramSpec (Env.exact Real.exp Real.log Real.pi 1e-6) linearKernel (0 : ℝ) (-1e20)
                  [0, 1])⁻¹ * (GP.features ([0, 1] : List ℝ))ᵀ)⁻¹ * GP.features ([0, 1] : List ℝ)) *ᵥ
              ((gramSpec (Env.exact Real.exp Real.log Real.pi 1e-6) linearKernel (0 : ℝ) (-1e20)
                [0, 1])⁻¹ *ᵥ outputs [0, 1] [1, 1] rfl))),
         ⟨1, 1,
          (linearKernel.evaluate (0 : ℝ) [2] [2]).1 -
            (linearKernel.evaluate (0 : ℝ) [2] [0, 1]).1 *
              (gramSpec (Env.exact Real.exp Real.log Real.pi 1e-6) linearKernel (0 : ℝ) (-1e20)
                [0, 1])⁻¹ * ((linearKernel.evaluate (0 : ℝ) [2] [0, 1]).1)ᵀ +
            (GP.features ([2] : List ℝ) - GP.features ([0, 1] : List ℝ) *
                (gramSpec (Env.exact Real.exp Real.log Real.pi 1e-6) linearKernel (0 : ℝ) (-1e20)
                  [0, 1])⁻¹ * ((linearKernel.evaluate (0 : ℝ) [2] [0, 1]).1)ᵀ)ᵀ *
              (GP.features ([0, 1] : List ℝ) *
                (gramSpec (Env.exact Real.exp Real.log Real.pi 1e-6) linearKernel (0 : ℝ) (-1e20)
                  [0, 1])⁻¹ * (GP.features ([0, 1] : List ℝ))ᵀ)⁻¹ *
              (GP.features ([2] : List ℝ) - GP.features ([0, 1] : List ℝ) *
                (gramSpec (Env.exact Real.exp Real.log Real.pi 1e-6) linearKernel (0 : ℝ) (-1e20)
                  [0, 1])⁻¹ * ((linearKernel.evaluate (0 : ℝ) [2] [0, 1]).1)ᵀ)⟩) := by
  have hzero : ∀ a b : List ℝ, (linearKernel.evaluate (0 : ℝ) a b).1 = 0 := by
    intro a b
    ext i j
    simp [linearKernel]
  have hc : (Env.exact Real.exp Real.log Real.pi 1e-6).exp (2 * (-1e20 : ℝ)) +
      (Env.exact Real.exp Real.log Real.pi 1e-6).JITTER ≠ 0 := by
    simp only [Env.exact]
    positivity
  have hgram : gramSpec (Env.exact Real.exp Real.log Real.pi 1e-6) linearKernel (0 : ℝ)
      (-1e20) [0, 1] = ((Env.exact Real.exp Real.log Real.pi 1e-6).exp (2 * (-1e20 : ℝ)) +
        (Env.exact Real.exp Real.log Real.pi 1e-6).JITTER) • (1 : Matrix _ _ ℝ) := by
    simp only [gramSpec]
    rw [hzero, zero_add]
  have hK : IsUnit (gramSpec (Env.exact Real.exp Real.log Real.pi 1e-6) linearKernel (0 : ℝ)
      (-1e20) [0, 1]).det := by
    rw [hgram]
    exact isUnit_det_smul_one _ hc
  have hfit : (GP.features ([0, 1] : List ℝ))ᵀ *ᵥ ![1, 0] = outputs [0, 1] [1, 1] rfl := by
    funext i
    simp only [Matrix.mulVec, Matrix.dotProduct, Fin.sum_univ_two, GP.features,
      Matrix.transpose_apply, outputs]
    match i with
    | ⟨0, _⟩ => simp
    | ⟨1, _⟩ => simp
  have hdet : (GP.features ([0, 1] : List ℝ) * (GP.features ([0, 1] : List ℝ))ᵀ).det ≠ 0 := by
    rw [Matrix.det_fin_two]
    simp only [Matrix.mul_apply, Matrix.transpose_apply, GP.features, sum_fin_length_two]
    simp
  have hG := (zeroKernel_beta (Env.exact Real.exp Real.log Real.pi 1e-6) linearKernel (0 : ℝ)
    (-1e20) [0, 1] [1, 1] rfl (Env.exact_exactSolve _ _ _ _) hc (hzero _ _) ![1, 0] hfit hdet).1
  rw [Env.exact_exactSolve _ _ _ _ _ _ _ _ hK, ← Matrix.mul_assoc] at hG
  obtain ⟨h1, h2, -, gp1, hinf, hfv, hfm, -, halpha, -, -, hcase⟩ :=
    predict_explicit_trend (Env.exact Real.exp Real.log Real.pi 1e-6) linearKernel
      (GP.ofCovFunc (0 : ℝ)).enableExplicitTrend [0, 1] [1, 1] [2] (by simp) rfl rfl
      (Env.exact_exactSolve _ _ _ _) hK
  obtain ⟨hbeta, hpred⟩ := hcase hG
  exact ⟨h1, h2, gp1, hinf, hfv, hfm, halpha, hbeta, hpred⟩


/-- The feature matrix of a training set with a single location is singular. -/
theorem det_features_single (Φ : Matrix (Fin 2) (Fin 1) F) (M : Matrix (Fin 1) (Fin 1) F) :
    (Φ * M * Φᵀ).det = 0 := by
  rw [Matrix.det_fin_two]
  simp only [Matrix.mul_apply, Matrix.transpose_apply, Fin.sum_univ_one]
  ring

theorem Env.exactOnRegular_exactSolve [DecidableEq F] (exp log : F → F) (pi jitter : F) :
    (Env.exactOnRegular exp log pi jitter).ExactSolve := by
  intro n m A B hA
  have hdet : A.det ≠ 0 := hA.ne_zero
  simp [Env.exactOnRegular, hdet, cramerSolve, Matrix.inv_def, Ring.inverse_eq_inv']

/-- A matrix of determinant `0` has no inverse. -/
theorem no_inverse_of_det_eq_zero {n : ℕ} (G : Matrix (Fin n) (Fin n) ℝ) (hd : G.det = 0) :
    ∀ H : Matrix (Fin n) (Fin n) ℝ, H * G ≠ 1 := by
  intro H h
  have h2 := congrArg Matrix.det h
  rw [Matrix.det_mul, hd, mul_zero, Matrix.det_one] at h2
  exact zero_ne_one h2

theorem Env.exact_solve_singular (exp log : F → F) (pi jitter : F) {n m : ℕ}
    (A : Matrix (Fin n) (Fin n) F) (B : Matrix (Fin n) (Fin m) F) (hd : A.det = 0) :
    (Env.exact exp log pi jitter).ldltSolve A B = 0 := by
  simp [Env.exact, cramerSolve, hd]

theorem Env.exactOnRegular_solve_singular [DecidableEq F] (exp log : F → F) (pi jitter : F)
    {n m : ℕ} (A : Matrix (Fin n) (Fin n) F) (B : Matrix (Fin n) (Fin m) F) (hd : A.det = 0) :
    (Env.exactOnRegular exp log pi jitter).ldltSolve A B = B := by
  simp [Env.exactOnRegular, hd]

/-- C13, counterexample. The kernel `k = 0`, explicit trend enabled, training data
`([1], [2])`: the feature matrix `G = Φ·K⁻¹·Φᵗ` that `infer` stores has determinant `0`
and no inverse, so `G⁻¹·Φ·α` does not determine `β`.  Two solvers that both solve every
invertible system exactly differ on it: with the one `β = [0, 0]` and `predict([2])` has
the mean `0`, with the other `β = [2/c, 2/c]` and the mean is `6/c`, where
`c = exp(2·log_noise_sd) + JITTER`. -/
theorem predict_explicit_trend_counterexample :
    ∃ (g1 g2 : GP ℝ ℝ) (G : Matrix (Fin 2) (Fin 2) ℝ) (cov1 cov2 : MatrixXd ℝ),
      (Env.exact Real.exp Real.log Real.pi 1e-6).ExactSolve ∧
      (Env.exactOnRegular Real.exp Real.log Real.pi 1e-6).ExactSolve ∧
      (GP.ofCovFunc (0 : ℝ)).enableExplicitTrend.inferData
        (Env.exact Real.exp Real.log Real.pi 1e-6) linearKernel [1] [2] = .ok g1 ∧
      (GP.ofCovFunc (0 : ℝ)).enableExplicitTrend.inferData
        (Env.exactOnRegular Real.exp Real.log Real.pi 1e-6) linearKernel [1] [2] = .ok g2 ∧
      g1.feature_matrix_ = ⟨2, 2, G⟩ ∧ g2.feature_matrix_ = ⟨2, 2, G⟩ ∧
      G.det = 0 ∧ (∀ H : Matrix (Fin 2) (Fin 2) ℝ, H * G ≠ 1) ∧
      g1.beta_ = [0, 0] ∧
      g2.beta_ = [2 / (Real.exp (2 * (-1e20)) + 1e-6), 2 / (Real.exp (2 * (-1e20)) + 1e-6)] ∧
      g1.predict (Env.exact Real.exp Real.log Real.pi 1e-6) linearKernel [2] =
        .ok ([0], cov1) ∧
      g2.predict (Env.exactOnRegular Real.exp Real.log Real.pi 1e-6) linearKernel [2] =
        .ok ([6 / (Real.exp (2 * (-1e20)) + 1e-6)], cov2) ∧
      6 / (Real.exp (2 * (-1e20)) + 1e-6) ≠ (0 : ℝ) := by
  have hzero : ∀ a b : List ℝ, (linearKernel.evaluate (0 : ℝ) a b).1 = 0 := by
    intro a b
    ext i j
    simp [linearKernel]
  have hcpos : (0 : ℝ) < Real.exp (2 * (-1e20)) + 1e-6 := by positivity
  have hc : Real.exp (2 * (-1e20)) + (1e-6 : ℝ) ≠ 0 := hcpos.ne'
  have hgram : gramSpec (Env.exact Real.exp Real.log Real.pi 1e-6) linearKernel (0 : ℝ)
      (-1e20) [1] = (Real.exp (2 * (-1e20)) + (1e-6 : ℝ)) • (1 : Matrix _ _ ℝ) := by
    simp only [gramSpec]
    rw [hzero, zero_add]
    rfl
  have hK : IsUnit (gramSpec (Env.exact Real.exp Real.log Real.pi 1e-6) linearKernel (0 : ℝ)
      (-1e20) [1]).det := by
    rw [hgram]
    exact isUnit_det_smul_one _ hc
  have hdet : (GP.features ([1] : List ℝ) *
      (gramSpec (Env.exact Real.exp Real.log Real.pi 1e-6) linearKernel (0 : ℝ) (-1e20) [1])⁻¹ *
      (GP.features ([1] : List ℝ))ᵀ).det = 0 := det_features_single _ _
  obtain ⟨g1, hinf1, -, hfm1, -, -, hbeta1, hpred1⟩ :=
    predict_trend_solver (Env.exact Real.exp Real.log Real.pi 1e-6) linearKernel
      (GP.ofCovFunc (0 : ℝ)).enableExplicitTrend [1] [2] [2] (by simp) rfl rfl
      (Env.exact_exactSolve _ _ _ _) hK
  obtain ⟨g2, hinf2, -, hfm2, -, -, hbeta2, hpred2⟩ :=
    predict_trend_solver (Env.exactOnRegular Real.exp Real.log Real.pi 1e-6) linearKernel
      (GP.ofCovFunc (0 : ℝ)).enableExplicitTrend [1] [2] [2] (by simp) rfl rfl
      (Env.exactOnRegular_exactSolve _ _ _ _) hK
  have hKinv : (gramSpec (Env.exact Real.exp Real.log Real.pi 1e-6) linearKernel (0 : ℝ)
      (-1e20) [1])⁻¹ = (Real.exp (2 * (-1e20)) + (1e-6 : ℝ))⁻¹ • (1 : Matrix _ _ ℝ) := by
    rw [hgram]
    simpa using inv_smul_one_mul (Real.exp (2 * (-1e20)) + (1e-6 : ℝ)) hc
      (1 : Matrix (Fin ([1] : List ℝ).length) (Fin ([1] : List ℝ).length) ℝ)
  have hgram2 : gramSpec (Env.exactOnRegular Real.exp Real.log Real.pi 1e-6) linearKernel
      (0 : ℝ) (-1e20) [1] =
      gramSpec (Env.exact Real.exp Real.log Real.pi 1e-6) linearKernel (0 : ℝ) (-1e20) [1] := rfl
  simp only [GP.enableExplicitTrend, GP.ofCovFunc, hgram2, hzero] at hfm1 hfm2 hbeta1 hbeta2
  simp only [GP.enableExplicitTrend, GP.ofCovFunc, hgram2, hzero] at hpred1 hpred2
  rw [Env.exact_solve_singular _ _ _ _ _ _ hdet] at hbeta1
  rw [Env.exactOnRegular_solve_singular _ _ _ _ _ _ hdet] at hbeta2
  have hmean : ∀ (L L' : List ℝ) (c : MatrixXd ℝ), L = L' →
      (Except.ok (L, c) : Except GPError (VectorXd ℝ × MatrixXd ℝ)) = Except.ok (L', c) := by
    intro L L' c h
    rw [h]
  rw [Env.exact_solve_singular _ _ _ _ _ _ hdet] at hpred1
  rw [Env.exactOnRegular_solve_singular _ _ _ _ _ _ hdet] at hpred2
  obtain ⟨cov1, hp1⟩ : ∃ cov1 : MatrixXd ℝ,
      g1.predict (Env.exact Real.exp Real.log Real.pi 1e-6) linearKernel [2] =
        .ok ([0], cov1) := by
    rw [hpred1]
    exact ⟨_, hmean _ _ _ (by simp [List.ofFn_succ])⟩
  obtain ⟨cov2, hp2⟩ : ∃ cov2 : MatrixXd ℝ,
      g2.predict (Env.exactOnRegular Real.exp Real.log Real.pi 1e-6) linearKernel [2] =
        .ok ([6 / (Real.exp (2 * (-1e20)) + 1e-6)], cov2) := by
    rw [hpred2, hKinv]
    exact ⟨_, hmean _ _ _ (by
      simp [List.ofFn_succ, GP.features, Matrix.mulVec, Matrix.dotProduct, outputs,
        Matrix.mul_apply, Fin.sum_univ_two]
      ring)⟩
  refine ⟨g1, g2, _, cov1, cov2, Env.exact_exactSolve _ _ _ _,
    Env.exactOnRegular_exactSolve _ _ _ _, hinf1, hinf2, hfm1, hfm2, hdet,
    no_inverse_of_det_eq_zero _ hdet, ?_, ?_, hp1, hp2, div_ne_zero (by norm_num) hc⟩
  · rw [hbeta1]
    simp [List.ofFn_succ]
  · rw [hbeta2, hKinv]
    simp [List.ofFn_succ, GP.features, Matrix.mulVec, Matrix.dotProduct, outputs]
    ring

/-- The Gram matrix that `infer()` stores on a state holding the non-empty training
locations `X` and as many training outputs. -/
theorem infer_gram (E : Env F) (C : CovFunc κ F) (g : GP κ F) (X : VectorXd F) (hX : X ≠ [])
    (hloc : g.data_loc_ = X) (hy : g.data_out_.length = X.length) :
    ∃ g1 : GP κ F, g.infer E C = .ok g1 ∧ g1.covFunc_ = g.covFunc_ ∧
      g1.log_noise_sd_ = g.log_noise_sd_ ∧ g1.data_loc_ = X ∧ g1.data_out_ = g.data_out_ ∧
      g1.gram_matrix_ = ⟨X.length, X.length, gramSpec E C g.covFunc_ g.log_noise_sd_ X⟩ := by
  subst hloc
  obtain ⟨g1, h, hc, hl, ho, hs, -, hg, -⟩ :=
    inferData_ok E C g g.data_loc_ g.data_out_ hX hy
  exact ⟨g1, h, hc, hs, hl, ho, hg⟩

/-- A positive semi-definite kernel matrix plus a positive multiple of the identity is
positive definite. -/
theorem gramSpec_posDef (E : Env ℝ) (C : CovFunc κ ℝ) (k : κ) (s : ℝ) (X : VectorXd ℝ)
    (hc : 0 < E.exp (2 * s) + E.JITTER) (hpsd : (C.evaluate k X X).1.PosSemidef) :
    (gramSpec E C k s X).PosDef :=
  Matrix.PosDef.posSemidef_add hpsd (posDef_smul_one _ hc)

/-- With exact additions the rounded Gram sum is the matrix that `GP.infer` stores. -/
theorem gramRounded_id (E : Env F) (C : CovFunc κ F) (k : κ) (s : F) (X : VectorXd F) :
    gramRounded (fun x => x) E C k s X = gramSpec E C k s X := by
  ext i j
  simp [gramRounded, gramSpec, Matrix.one_apply]

/-- With exact additions `inferRounded` is `infer`. -/
theorem inferRounded_id (E : Env F) (C : CovFunc κ F) (gp : GP κ F) :
    gp.inferRounded (fun x => x) E C = gp.infer E C := by
  have hg : (fun i j => (C.evaluate gp.covFunc_ gp.data_loc_ gp.data_loc_).1 i j +
      (E.exp (2 * gp.log_noise_sd_) + E.JITTER) *
        (1 : Matrix (Fin gp.data_loc_.length) (Fin gp.data_loc_.length) F) i j) =
      (C.evaluate gp.covFunc_ gp.data_loc_ gp.data_loc_).1 +
        (E.exp (2 * gp.log_noise_sd_) + E.JITTER) •
          (1 : Matrix (Fin gp.data_loc_.length) (Fin gp.data_loc_.length) F) := by
    ext i j
    simp [Matrix.one_apply]
  simp only [GP.inferRounded, GP.infer, hg]

/-- The Gram matrix that `inferRounded` stores on a state holding the non-empty training
locations `X` and as many training outputs. -/
theorem inferRounded_gram (fl : F → F) (E : Env F) (C : CovFunc κ F) (gp : GP κ F)
    (X y : VectorXd F) (hX : X ≠ []) (hy : y.length = X.length) :
    ∃ gp1 : GP κ F,
      GP.inferRounded fl E C { gp with data_loc_ := X, data_out_ := y } = .ok gp1 ∧
      gp1.gram_matrix_ =
        ⟨X.length, X.length, gramRounded fl E C gp.covFunc_ gp.log_noise_sd_ X⟩ := by
  have hlen : X.length ≠ 0 := by simpa using hX
  cases htrend : gp.use_explicit_trend_
  · simp only [GP.inferRounded, hlen, htrend, LDLT.compute, LDLT.solveVec,
      MatrixXd.castVec_outputs X y hy, bind, Except.bind, pure, Except.pure, if_false,
      ite_false, Bool.false_eq_true]
    exact ⟨_, rfl, rfl⟩
  · simp only [GP.inferRounded, hlen, htrend, LDLT.compute, LDLT.solveVec, LDLT.solve_factored,
      MatrixXd.castVec_outputs X y hy, MatrixXd.transpose, MatrixXd.mul_mk, MatrixXd.cast_mk,
      MatrixXd.mulVec_mk_ofFn, bind, Except.bind, pure, Except.pure, if_true, ite_true,
      if_false, ite_false]
    exact ⟨_, rfl, rfl⟩

/-- The rounding of a positive number `x` with `2^e ≤ x < 2^(e+1)` whose distance to the
multiple `q·2^(e-(p-1))` below it is less than half a unit in the last place. -/
theorem roundBits_of_lt_half (p : ℕ) (x : ℝ) (e q : ℤ) (hx : 0 < x)
    (hlo : (2 : ℝ) ^ e ≤ x) (hhi : x < (2 : ℝ) ^ (e + 1))
    (hq : (q : ℝ) ≤ x / 2 ^ (e - ((p : ℤ) - 1)))
    (hr : x / 2 ^ (e - ((p : ℤ) - 1)) - q < 1 / 2) :
    roundBits p x = q * 2 ^ (e - ((p : ℤ) - 1)) := by
  have habs : |x| = x := abs_of_pos hx
  have hlog : Int.log 2 x = e := by
    have h1 : e ≤ Int.log 2 x := by
      rw [← Int.zpow_le_iff_le_log (by norm_num) hx]
      simpa using hlo
    have h2 : Int.log 2 x < e + 1 := by
      rw [← Int.lt_zpow_iff_log_lt (by norm_num) hx]
      simpa using hhi
    omega
  have hfloor : ⌊x / 2 ^ (e - ((p : ℤ) - 1))⌋ = q := by
    rw [Int.floor_eq_iff]
    constructor
    · exact hq
    · linarith
  unfold roundBits
  rw [if_neg hx.ne']
  simp only [habs, hlog, hfloor]
  rw [if_pos hr]

/-- The matrix of the linear kernel with a weight `w ≥ 0` is positive semi-definite. -/
theorem linearKernel_posSemidef (w : ℝ) (hw : 0 ≤ w) (X : List ℝ) :
    ((linearKernel.evaluate w X X).1).PosSemidef := by
  refine ⟨?_, fun x => ?_⟩
  · ext i j
    simp only [linearKernel, Matrix.conjTranspose_apply, star_trivial]
    ring
  · have h : star x ⬝ᵥ (linearKernel.evaluate w X X).1 *ᵥ x =
        w * (∑ i, x i * X.get i) ^ 2 := by
      simp only [Matrix.dotProduct, Matrix.mulVec, linearKernel, star_trivial, Pi.star_apply]
      rw [sq, Finset.sum_mul_sum, Finset.mul_sum]
      refine Finset.sum_congr rfl fun i _ => ?_
      rw [Finset.mul_sum, Finset.mul_sum]
      refine Finset.sum_congr rfl fun j _ => ?_
      ring
    rw [h]
    positivity

/-- The state that `infer()` returns is what `infer()` computes from the training data
and the hyperparameters it holds: the cached members are in step with them. -/
theorem infer_fixed (E : Env F) (C : CovFunc κ F) (gp gp1 : GP κ F)
    (h : gp.infer E C = .ok gp1) : gp1.infer E C = .ok gp1 := by
  by_cases hX : gp.data_loc_ = []
  · rw [infer_eq_inferData, hX, inferData_nil] at h
    cases h
  by_cases hy : gp.data_out_.length = gp.data_loc_.length
  · exact infer_inferData E C gp gp1 _ _ hX hy (by rwa [← infer_eq_inferData])
  · rw [infer_eq_inferData, inferData_length_ne E C gp _ _ hX hy] at h
    cases h

/-- After `setHyperParameters` on a regressor holding training data, and after
`setCovarianceHyperParameters`, the cached members are in step with the training data
and the new hyperparameters. -/
theorem setters_fixed (E : Env F) (C : CovFunc κ F) (gp gp1 : GP κ F) (v : VectorXd F) :
    (gp.data_loc_ ≠ [] → gp.setHyperParameters E C v = .ok gp1 → gp1.infer E C = .ok gp1) ∧
    (gp.setCovarianceHyperParameters E C v = .ok gp1 → gp1.infer E C = .ok gp1) := by
  refine ⟨fun hX h => ?_, fun h => ?_⟩
  · have hlen : 0 < gp.data_loc_.length := List.length_pos.mpr hX
    unfold GP.setHyperParameters at h
    split at h
    · dsimp only at h
      split at h
      · exact infer_fixed E C _ gp1 h
      · cases h
    · cases h
  · unfold GP.setCovarianceHyperParameters at h
    split at h
    · cases h
    · exact infer_fixed E C _ gp1 h

/-- C11, the divergence. After `infer(X, y)` with a non-empty `X` and `clear()`, the
decomposition, the Gram matrix and the training data are empty, but `alpha_` still has
the `X.length` entries and `gram_matrix_derivatives_` the matrices (one for the noise,
one per kernel derivative) that `infer` stored, and `neg_log_likelihood_gradient()`
fails, solving with the empty decomposition; on a freshly constructed regressor both
are empty and the gradient is the empty vector. -/
theorem gradient_after_clear (E : Env F) (C : CovFunc κ F) (gp : GP κ F) (X y : VectorXd F)
    (hX : X ≠ []) (hy : y.length = X.length) :
    ∃ gp1 : GP κ F, gp.inferData E C X y = .ok gp1 ∧
      gp1.clear.chol_gram_matrix_ = .empty ∧ gp1.clear.gram_matrix_ = MatrixXd.empty ∧
      gp1.clear.data_loc_ = [] ∧ gp1.clear.data_out_ = [] ∧
      gp1.clear.alpha_.length = X.length ∧ gp1.clear.alpha_ ≠ [] ∧
      gp1.clear.gram_matrix_derivatives_.length = (C.evaluate gp.covFunc_ X X).2.length + 1 ∧
      gp1.clear.neg_log_likelihood_gradient E = .error .ldltNotInitialized ∧
      (GP.ofCovFunc gp.covFunc_ : GP κ F).alpha_ = [] ∧
      (GP.ofCovFunc gp.covFunc_ : GP κ F).gram_matrix_derivatives_ = [] ∧
      (GP.ofCovFunc gp.covFunc_ : GP κ F).neg_log_likelihood_gradient E = .ok [] := by
  obtain ⟨gp1, hinf, -, -, -, -, -, -, -, halpha, hderiv⟩ := inferData_ok E C gp X y hX hy
  have hlen : (gp1.clear.alpha_).length = X.length := by
    show gp1.alpha_.length = X.length
    rw [halpha, List.length_ofFn]
  refine ⟨gp1, hinf, rfl, rfl, rfl, rfl, hlen, ?_, ?_, ?_, rfl, rfl, rfl⟩
  · intro h
    rw [h] at hlen
    exact hX (List.length_eq_zero.mp hlen.symm)
  · show gp1.gram_matrix_derivatives_.length = _
    rw [hderiv]
    simp
  · show GP.gradientLoop E gp1.clear gp1.gram_matrix_derivatives_ = _
    rw [hderiv]
    simp [GP.gradientLoop, GP.gradientEntry, GP.clear, LDLT.solve, bind, Except.bind]

/-- Witness of C11: the kernel `k(a, b) = a·b`, trained on `([1], [2])`, then cleared. -/
theorem gradient_after_clear_witness :
    ∃ gp1 : GP ℝ ℝ,
      (GP.ofCovFunc (1 : ℝ)).inferData (Env.exact Real.exp Real.log Real.pi 1e-6) linearKernel
        [1] [2] = .ok gp1 ∧
      gp1.clear.chol_gram_matrix_ = .empty ∧ gp1.clear.alpha_.length = 1 ∧
      gp1.clear.gram_matrix_derivatives_.length = 2 ∧
      gp1.clear.neg_log_likelihood_gradient (Env.exact Real.exp Real.log Real.pi 1e-6) =
        .error .ldltNotInitialized ∧
      (GP.ofCovFunc (1 : ℝ) : GP ℝ ℝ).neg_log_likelihood_gradient
        (Env.exact Real.exp Real.log Real.pi 1e-6) = .ok [] := by
  obtain ⟨gp1, hinf, hchol, -, -, -, halpha, -, hderiv, hgrad, -, -, hfresh⟩ :=
    gradient_after_clear (Env.exact Real.exp Real.log Real.pi 1e-6) linearKernel
      (GP.ofCovFunc (1 : ℝ)) [1] [2] (by simp) rfl
  exact ⟨gp1, hinf, hchol, halpha, hderiv, hgrad, hfresh⟩


/-- The members that `operator=` copies from its argument, and the five members of the
explicit trend that it leaves as they are in the target; the copy constructor copies
all of them. -/
theorem assign_fields (a b : GP κ F) :
    (a.assign b).covFunc_ = b.covFunc_ ∧ (a.assign b).data_loc_ = b.data_loc_ ∧
    (a.assign b).data_out_ = b.data_out_ ∧ (a.assign b).gram_matrix_ = b.gram_matrix_ ∧
    (a.assign b).gram_matrix_derivatives_ = b.gram_matrix_derivatives_ ∧
    (a.assign b).alpha_ = b.alpha_ ∧ (a.assign b).chol_gram_matrix_ = b.chol_gram_matrix_ ∧
    (a.assign b).log_noise_sd_ = b.log_noise_sd_ ∧
    (a.assign b).use_explicit_trend_ = a.use_explicit_trend_ ∧
    (a.assign b).feature_vectors_ = a.feature_vectors_ ∧
    (a.assign b).feature_matrix_ = a.feature_matrix_ ∧
    (a.assign b).chol_feature_matrix_ = a.chol_feature_matrix_ ∧
    (a.assign b).beta_ = a.beta_ ∧ b.copy = b :=
  ⟨rfl, rfl, rfl, rfl, rfl, rfl, rfl, rfl, rfl, rfl, rfl, rfl, rfl, rfl⟩

/-- A target with explicit trend disabled, assigned from a regressor trained on `(X, y)`,
predicts without the trend terms, whether explicit trend is enabled in the source or
not. -/
theorem predict_assign_noTrend (E : Env F) (C : CovFunc κ F) (a b0 b : GP κ F)
    (X y q : VectorXd F) (hX : X ≠ []) (hy : y.length = X.length)
    (ha : a.use_explicit_trend_ = false) (h : b0.inferData E C X y = .ok b) :
    (a.assign b).predict E C q = .ok
      (List.ofFn ((C.evaluate b0.covFunc_ q X).1 *ᵥ
        (fun i => E.ldltSolve (gramSpec E C b0.covFunc_ b0.log_noise_sd_ X)
          (Matrix.col (Fin 1) (outputs X y hy)) i 0)),
       ⟨q.length, q.length, (C.evaluate b0.covFunc_ q q).1 -
          (C.evaluate b0.covFunc_ q X).1 *
            E.ldltSolve (gramSpec E C b0.covFunc_ b0.log_noise_sd_ X)
              ((C.evaluate b0.covFunc_ q X).1)ᵀ⟩) := by
  have hlen : X.length ≠ 0 := by simpa using hX
  obtain ⟨b1, hinf, hcov, hloc, -, -, -, -, hchol, halpha, -⟩ := inferData_ok E C b0 X y hX hy
  rw [hinf] at h
  injection h with h
  subst h
  have hloc' : b1.data_loc_.length ≠ 0 := by rw [hloc]; exact hlen
  subst hloc
  simp only [GP.predict, GP.predictCov, GP.assign, hloc', ha, hcov, hchol, halpha,
    MatrixXd.transpose, MatrixXd.mulVec_mk_ofFn, LDLT.solve_factored, MatrixXd.mul_mk,
    MatrixXd.sub_mk, bind, Except.bind, pure, Except.pure, if_false, ite_false,
    Bool.false_eq_true]

/-- C15, the divergence. The source `b` has the kernel `k = 0`, explicit trend enabled
and is trained on `([0, 1], [1, 1])`; the target `a` is freshly constructed.  After
`a = b` the explicit-trend flag of `a` is still `false` and its `beta_` still empty,
whereas in the copy-constructed `GP(b)` the flag is `true` and `beta_` has two entries:
the two states differ, and `a.predict([2])` has the mean `0` whereas `b.predict([2])`
and `GP(b).predict([2])` have the mean `1`. -/
theorem assign_ne_copy :
    ∃ (b : GP ℝ ℝ) (covA covB : MatrixXd ℝ),
      (GP.ofCovFunc (0 : ℝ)).enableExplicitTrend.inferData
        (Env.exact Real.exp Real.log Real.pi 1e-6) linearKernel [0, 1] [1, 1] = .ok b ∧
      ((GP.ofCovFunc (0 : ℝ)).assign b).use_explicit_trend_ = false ∧
      b.copy.use_explicit_trend_ = true ∧
      ((GP.ofCovFunc (0 : ℝ)).assign b).beta_ = [] ∧ b.copy.beta_.length = 2 ∧
      (GP.ofCovFunc (0 : ℝ)).assign b ≠ b.copy ∧
      b.predict (Env.exact Real.exp Real.log Real.pi 1e-6) linearKernel [2] = .ok ([1], covB) ∧
      b.copy.predict (Env.exact Real.exp Real.log Real.pi 1e-6) linearKernel [2] =
        .ok ([1], covB) ∧
      ((GP.ofCovFunc (0 : ℝ)).assign b).predict (Env.exact Real.exp Real.log Real.pi 1e-6)
        linearKernel [2] = .ok ([0], covA) := by
  have hzero : ∀ a b : List ℝ, (linearKernel.evaluate (0 : ℝ) a b).1 = 0 := by
    intro a b
    ext i j
    simp [linearKernel]
  have hc : (Env.exact Real.exp Real.log Real.pi 1e-6).exp (2 * (-1e20 : ℝ)) +
      (Env.exact Real.exp Real.log Real.pi 1e-6).JITTER ≠ 0 := by
    simp only [Env.exact]
    positivity
  have hfit : (GP.features ([0, 1] : List ℝ))ᵀ *ᵥ ![1, 0] = outputs [0, 1] [1, 1] rfl := by
    funext i
    simp only [Matrix.mulVec, Matrix.dotProduct, Fin.sum_univ_two, GP.features,
      Matrix.transpose_apply, outputs]
    match i with
    | ⟨0, _⟩ => simp
    | ⟨1, _⟩ => simp
  have hdet : (GP.features ([0, 1] : List ℝ) * (GP.features ([0, 1] : List ℝ))ᵀ).det ≠ 0 := by
    rw [Matrix.det_fin_two]
    simp only [Matrix.mul_apply, Matrix.transpose_apply, GP.features, sum_fin_length_two]
    simp
  have hinf := inferData_trend (Env.exact Real.exp Real.log Real.pi 1e-6) linearKernel
    (GP.ofCovFunc (0 : ℝ)).enableExplicitTrend [0, 1] [1, 1] (by simp) rfl rfl
  obtain ⟨covB, hpB⟩ := predict_trend_zeroKernel (Env.exact Real.exp Real.log Real.pi 1e-6)
    linearKernel (GP.ofCovFunc (0 : ℝ)).enableExplicitTrend _ [0, 1] [1, 1] [2]
    (by simp) rfl rfl (Env.exact_exactSolve _ _ _ _) hc (hzero _ _) (hzero _ _) ![1, 0] hfit hdet
    hinf
  have hmean : List.ofFn ((GP.features ([2] : List ℝ))ᵀ *ᵥ ![1, 0]) = [1] := by
    simp [GP.features, Matrix.mulVec, Matrix.dotProduct, Fin.sum_univ_two]
  rw [hmean] at hpB
  have hpA := predict_assign_noTrend (Env.exact Real.exp Real.log Real.pi 1e-6) linearKernel
    (GP.ofCovFunc (0 : ℝ)) (GP.ofCovFunc (0 : ℝ)).enableExplicitTrend _ [0, 1] [1, 1] [2]
    (by simp) rfl rfl hinf
  rw [show (linearKernel.evaluate (GP.ofCovFunc (0 : ℝ) : GP ℝ ℝ).enableExplicitTrend.covFunc_
    [2] [0, 1]).1 = 0 from hzero _ _, Matrix.zero_mulVec] at hpA
  refine ⟨_, _, covB, hinf, rfl, rfl, rfl, ?_, ?_, hpB, hpB, hpA⟩
  · simp only [GP.copy, List.length_ofFn]
  · intro h
    have hflag := congrArg GP.use_explicit_trend_ h
    exact Bool.noConfusion hflag

end Theorems

end GaussianProcess
